import Mathlib

/-!
# tokenize.c : a table-driven scanner

A shallow embedding of `src/tokenize.c` (functions `strInt`, `charClass`,
`readFile`, `buildMachine`, `runMachine`, `main`) together with theorems about
it.

Conventions of the embedding.

* A C `int` is a Lean `Int`; where the source does arithmetic that can leave the
  32-bit range (`strInt`) the result is wrapped by `wrapInt`; the `%d` conversion
  of the C library holds its value in a `long`, which saturates, and stores it
  into the `int` (`scanInt`).
* A C `char` is a Lean `Int` in `[-128, 127]`: plain `char` is signed on the
  platform modelled (the source compares a `char` with -1 to detect the end of
  the input). A byte read from standard input is a `Nat` and becomes a `char`
  through `toChar`.
* A C string is the list of its characters before the terminating NUL.
* A character buffer that the source fills through a write index (`buf` and `i`
  in `runMachine`, `buff` and `i` in `buildMachine`) is the list of its first `i`
  cells, so the write index is the length of the list. The source never compares
  the index with the size of the array, and neither do `step` and `runMachine`:
  there the list may grow past the declared size, where the C program writes
  outside the array. `stepChecked` and `runMachineChecked` are the same loop with
  the size of `char buf[64]` taken into account: a write at an index that is not
  below 64 is the fault `Fault.bufferOverflow`, after which the C program has no
  defined behaviour.
* Indexing the state array or a transition row outside its bounds is the fault
  `Fault.outOfBounds`; a loop is given a number of iterations (`fuel`) and
  running out of it is the fault `Fault.outOfFuel`.
* What `runMachine` prints is a list of `ScanEvent`.
-/

namespace Tokenizer

/-! ## Machine integers and characters -/

/-- Wrap an integer into the range of a 32-bit two-complement `int`. -/
def wrapInt (x : Int) : Int := (x + 2147483648) % 4294967296 - 2147483648

/-- Conversion of an `int` (as returned by `getchar`) to a signed `char`. -/
def toChar (x : Int) : Int := (x + 128) % 256 - 128

/-- The characters of a Lean string as C `char` values. -/
def cstr (s : String) : List Int := s.toList.map (fun (ch : Char) => toChar (ch.toNat : Int))

/-- The characters of a Lean string as bytes of an input stream. -/
def bytes (s : String) : List Nat := s.toList.map (fun (ch : Char) => ch.toNat)

/-! ## classes.h -/

/-- Modelled from the spec: `classes.h` is not part of the sources; the class
constants take the ordinals the specification gives (whitespace=0, newline=1,
alpha=2, digit0=3, digit1-7=4, digit8-9=5, slash=6, star=7, arith-op=8, eof=9,
other=10, error=11). -/
def CC_WS : Int := 0
/-- Modelled from the spec: newline class of `classes.h`. -/
def CC_NEWLINE : Int := 1
/-- Modelled from the spec: alphabetic class of `classes.h`. -/
def CC_ALPHA : Int := 2
/-- Modelled from the spec: digit-zero class of `classes.h`. -/
def CC_DIG_0 : Int := 3
/-- Modelled from the spec: digit 1..7 class of `classes.h`. -/
def CC_DIG_1_7 : Int := 4
/-- Modelled from the spec: digit 8..9 class of `classes.h`. -/
def CC_DIG_8_9 : Int := 5
/-- Modelled from the spec: slash class of `classes.h`. -/
def CC_CHAR_SLASH : Int := 6
/-- Modelled from the spec: star class of `classes.h`. -/
def CC_CHAR_STAR : Int := 7
/-- Modelled from the spec: arithmetic-operator class of `classes.h`. -/
def CC_ARITH_OP : Int := 8
/-- Modelled from the spec: end-of-input class of `classes.h`. -/
def CC_EOF : Int := 9
/-- Modelled from the spec: class of every other character in `classes.h`. -/
def CC_OTHER : Int := 10
/-- Modelled from the spec: the reserved error class of `classes.h`. -/
def CC_ERROR : Int := 11

/-! ## strInt -/

/-- The `while` loop of `strInt`: `res = res * 10 + (str[i] - 48)` as long as
`str[i]` is a digit. Reading past the list reads the terminating NUL. -/
def strIntLoop : List Int → Int → Int
  | [], res => res
  | c :: cs, res =>
    if c ≥ 48 ∧ c ≤ 57 then strIntLoop cs (wrapInt (res * 10 + (c - 48))) else res

/-- The function `int strInt(char *str)`: -1 when the first character is not a
digit, otherwise the result of the loop. -/
def strInt (str : List Int) : Int :=
  match str with
  | [] => -1
  | c :: _ => if ¬ (c ≥ 48 ∧ c ≤ 57) then -1 else strIntLoop str 0

/-! ## charClass -/

/-- The function `int charClass(char c)`: the chain of comparisons of the source. The final
`return CC_ERROR` of the source follows an `if` chain whose every branch
returns, so it is not reachable. -/
def charClass (c : Int) : Int :=
  if c = 9 ∨ c = 32 then CC_WS
  else if c = 10 then CC_NEWLINE
  else if (c ≥ 65 ∧ c ≤ 90) ∨ c = 95 ∨ (c ≥ 97 ∧ c ≤ 122) then CC_ALPHA
  else if c = 48 then CC_DIG_0
  else if c ≥ 49 ∧ c ≤ 55 then CC_DIG_1_7
  else if c = 56 ∨ c = 57 then CC_DIG_8_9
  else if c = 47 then CC_CHAR_SLASH
  else if c = 42 then CC_CHAR_STAR
  else if c = 37 ∨ c = 43 ∨ c = 45 then CC_ARITH_OP
  else if c = -1 then CC_EOF
  else CC_OTHER

/-! ## The classifier of the specification -/

/-- The character classes of the specification. -/
inductive CharacterClass
  | whitespace | newline | alphabetic | digitZero | digitOneToSeven | digitEightNine
  | slash | star | arithOp | endOfInput | other | error
  deriving DecidableEq, Repr

/-- Ordinal of a class in the table format (specification, section 6). -/
def CharacterClass.ordinal : CharacterClass → Int
  | .whitespace => 0 | .newline => 1 | .alphabetic => 2 | .digitZero => 3
  | .digitOneToSeven => 4 | .digitEightNine => 5 | .slash => 6 | .star => 7
  | .arithOp => 8 | .endOfInput => 9 | .other => 10 | .error => 11

/-- Code point of a character, as an integer. -/
def code (ch : Char) : Int := (ch.toNat : Int)

/-- The sets of symbols the specification lists, in the order it lists them. -/
def classTable : List (List Int × CharacterClass) :=
  [ ([code '\t', code ' '], .whitespace),
    ([code '\n'], .newline),
    ((List.range 26).map (fun (k : Nat) => code 'A' + (k : Int))
      ++ (List.range 26).map (fun (k : Nat) => code 'a' + (k : Int)) ++ [code '_'], .alphabetic),
    ([code '0'], .digitZero),
    ((List.range 7).map (fun (k : Nat) => code '1' + (k : Int)), .digitOneToSeven),
    ([code '8', code '9'], .digitEightNine),
    ([code '/'], .slash),
    ([code '*'], .star),
    ([code '%', code '+', code '-'], .arithOp),
    ([-1], .endOfInput) ]

/-- The mapping `classify` of the specification (section 4.1): the class of the
first listed set that holds the symbol, and `other` for everything else. -/
def classify (symbol : Int) : CharacterClass :=
  match classTable.find? (fun row => decide (symbol ∈ row.1)) with
  | some row => row.2
  | none => .other

/-! ## The integer denoted by a run of digits -/

/-- Whether a character is one of `'0'..'9'`. -/
def isDigit (c : Int) : Bool := decide (48 ≤ c ∧ c ≤ 57)

/-- The integer a list of digit characters denotes in base 10 (positional
notation, most significant digit first). -/
def decVal : List Int → Int
  | [] => 0
  | d :: ds => (d - 48) * 10 ^ ds.length + decVal ds

/-- The maximal leading run of digits of a string. -/
def digitRun (str : List Int) : List Int := str.takeWhile isDigit

/-- Whether a string begins with a character `'0'..'9'`. -/
def beginsWithDigit : List Int → Bool
  | [] => false
  | c :: _ => isDigit c

/-! ## The transition table -/

/-- The record `struct transition`. -/
structure transition where
  cc : Int
  dest : Int
  action : Int
  deriving DecidableEq, Repr

set_option linter.dupNamespace false in
/-- The record `struct state`: the state id and its row `t[12]`. -/
structure state where
  state : Int
  t : List transition
  deriving DecidableEq, Repr

/-- What stops a run of the model other than the end of the function. -/
inductive Fault
  | outOfFuel
  | outOfBounds
  | nullPointer
  | bufferOverflow
  deriving DecidableEq, Repr

deriving instance DecidableEq for Except

/-- The read `machine[q].t[cc]`; `none` when `q` is not an index of the state
array or `cc` is not an index of the row. -/
def lookup (machine : List state) (q cc : Int) : Option transition :=
  if q < 0 ∨ cc < 0 then none
  else
    match machine[q.toNat]? with
    | none => none
    | some s => s.t[cc.toNat]?

/-! ## runMachine -/

/-- What `runMachine` prints: `printf("%d ", state)` is `StateVisited`,
`printf("recognized ...")` is `Recognized` with the string printed by `%s`,
`printf("rejected")` is `Rejected` and `printf("EOF")` is `EndOfInput`. -/
inductive ScanEvent
  | StateVisited (id : Int)
  | Recognized (lexeme : List Int)
  | Rejected
  | EndOfInput
  deriving DecidableEq, Repr

/-- The local variables of `runMachine` that live across iterations: `buf` holds
the cells `buf[0..i)` (so `i` is `buf.length`), `errorState` and `state`. -/
structure Cfg where
  buf : List Int
  errorState : Bool
  state : Int
  deriving DecidableEq, Repr

/-- The value of the locals after `errorState = 0; i = 0; state = start`, which
is also their value on entry to `runMachine`. -/
def resetCfg (start : Int) : Cfg := { buf := [], errorState := false, state := start }

/-- Result of one iteration of the `while (1)` loop. -/
structure StepOut where
  events : List ScanEvent
  cfg : Cfg
  stop : Bool
  deriving DecidableEq, Repr

/-- The string `printf("%s", buf)` prints after `buf[i] = 0`: the cells of
`buf[0..i)` before the first NUL. -/
def printed (buf : List Int) : List Int := buf.takeWhile (fun x => decide (x ≠ 0))

/-- One iteration of the loop of `runMachine` on the character `c` just read;
`stop` is the `break`. `none` is an out-of-bounds read of the table. The writes
`buf[i] = c` and `buf[i] = 0` are made whatever the value of `i`, as in the
source; `stepChecked` adds the size of the array. -/
def step (machine : List state) (start accept : Int) (cfg : Cfg) (c : Int) : Option StepOut :=
  if cfg.errorState then
    let cc := charClass c
    let cfg1 : Cfg := if cc = CC_WS ∨ cc = CC_NEWLINE then resetCfg start else cfg
    if cc = CC_EOF then some { events := [], cfg := resetCfg start, stop := true }
    else some { events := [], cfg := cfg1, stop := false }
  else
    let ev1 : List ScanEvent := if cfg.buf.length = 0 then [.StateVisited cfg.state] else []
    match lookup machine cfg.state (charClass c) with
    | none => none
    | some tr =>
      let buf1 := if tr.action = 115 then cfg.buf ++ [c] else cfg.buf
      let ev2 := ev1 ++ [.StateVisited tr.dest]
      if charClass c = CC_EOF then
        some { events := ev2 ++ [.EndOfInput],
               cfg := { buf := buf1, errorState := false, state := tr.dest }, stop := true }
      else if tr.dest = accept then
        some { events := ev2 ++ [.Recognized (printed buf1)], cfg := resetCfg start, stop := false }
      else if tr.dest = 99 then
        some { events := ev2 ++ [.Rejected],
               cfg := { buf := buf1, errorState := true, state := tr.dest }, stop := false }
      else
        some { events := ev2,
               cfg := { buf := buf1, errorState := false, state := tr.dest }, stop := false }

/-- The call `getchar()` on the bytes left on standard input: the next byte, or `EOF`
(-1) when none is left. -/
def getchar : List Nat → Int × List Nat
  | [] => (-1, [])
  | x :: rest => ((x : Int), rest)

/-- Put events in front of the result of the rest of a run. -/
def emit (evs : List ScanEvent) (r : Except Fault (List ScanEvent)) :
    Except Fault (List ScanEvent) :=
  match r with
  | .ok rest => .ok (evs ++ rest)
  | .error e => .error e

/-- The loop `while (1) { c = getchar(); ... }` of `runMachine`, at most `fuel`
iterations of it. -/
def runLoop (machine : List state) (start accept : Int) :
    Nat → Cfg → List Nat → Except Fault (List ScanEvent)
  | 0, _, _ => .error .outOfFuel
  | fuel + 1, cfg, input =>
    match step machine start accept cfg (toChar (getchar input).1) with
    | none => .error .outOfBounds
    | some out =>
      if out.stop then .ok out.events
      else emit out.events (runLoop machine start accept fuel out.cfg (getchar input).2)

/-- The function `void runMachine(struct state *machine, int start, int accept)` on the
bytes of standard input. -/
def runMachine (machine : List state) (start accept : Int) (input : List Nat) :
    Except Fault (List ScanEvent) :=
  runLoop machine start accept (input.length + 1) (resetCfg start) input

/-- Number of bytes in front of the first one that `charClass` takes for the end
of input. -/
def eofPos (input : List Nat) : Nat :=
  (input.takeWhile (fun (x : Nat) => decide (charClass (toChar (x : Int)) ≠ CC_EOF))).length

/-- A table with `n` rows of 12 entries whose start state is a row and whose
destinations are rows, the accept state or the reject sentinel 99. -/
def TableOK (machine : List state) (start accept : Int) : Prop :=
  (0 ≤ start ∧ start < machine.length) ∧
  ∀ s ∈ machine, s.t.length = 12 ∧
    ∀ tr ∈ s.t, tr.dest = 99 ∨ tr.dest = accept ∨ (0 ≤ tr.dest ∧ tr.dest < machine.length)

instance (machine : List state) (start accept : Int) : Decidable (TableOK machine start accept) := by
  unfold TableOK
  infer_instance

/-- The locals of the loop are usable for the next iteration: either the scanner
is in error recovery (it will not read the table), or `state` is a row. -/
def CfgOK (machine : List state) (cfg : Cfg) : Prop :=
  cfg.errorState = true ∨ (0 ≤ cfg.state ∧ cfg.state < machine.length)

/-- The row every state has before any spec is applied: destination 99 and
action `'d'` for each of the 12 classes. -/
def defaultRow : List transition :=
  (List.range 12).map (fun (j : Nat) => { cc := (j : Int), dest := 99, action := 100 })

/-- The first loop of `buildMachine`. -/
def initMachine (states : Int) : List state :=
  (List.range states.toNat).map (fun (i : Nat) => { state := (i : Int), t := defaultRow })

/-- The `a+` table of the specification: two states, in state 0 an alphabetic
symbol is shifted and stays in state 0, a whitespace symbol is dropped and
leads to state 1; every other entry is the default. Start is 0, accept is 1. -/
def aPlus : List state :=
  [ { state := 0, t := (defaultRow.set 2 ⟨2, 0, 115⟩).set 0 ⟨0, 1, 100⟩ },
    { state := 1, t := defaultRow } ]

/-- The `a+` table with a newline accepted as well as a whitespace. -/
def aPlusLines : List state :=
  [ { state := 0, t := ((defaultRow.set 2 ⟨2, 0, 115⟩).set 0 ⟨0, 1, 100⟩).set 1 ⟨1, 1, 100⟩ },
    { state := 1, t := defaultRow } ]

/-- A table whose end-of-input transition in state 0 leads to the accept state
1; an alphabetic symbol is shifted and stays in state 0. -/
def eofAccepts : List state :=
  [ { state := 0, t := (defaultRow.set 2 ⟨2, 0, 115⟩).set 9 ⟨9, 1, 100⟩ },
    { state := 1, t := defaultRow } ]

/-- A transition chain inside one token attempt: starting in state `q` with
`pending` already shifted, follow the table over the characters given, none of
which is in the end-of-input class and none of which leads to `accept` or to
99. The result is the state trace printed on the way, the shifted characters
in input order (after `pending`), and the state reached. -/
def follow (machine : List state) (accept : Int) :
    Int → List Int → List Int → Option (List ScanEvent × List Int × Int)
  | q, pending, [] => some ([], pending, q)
  | q, pending, c :: cs =>
    if charClass c = CC_EOF then none
    else
      match lookup machine q (charClass c) with
      | none => none
      | some tr =>
        if tr.dest = accept ∨ tr.dest = 99 then none
        else
          match follow machine accept tr.dest
              (if tr.action = 115 then pending ++ [c] else pending) cs with
          | none => none
          | some (ev, p, q1) =>
            some ((if pending.length = 0 then [ScanEvent.StateVisited q] else [])
                    ++ ScanEvent.StateVisited tr.dest :: ev, p, q1)

/-- Whether a byte of the input is neither whitespace, nor newline, nor taken
for the end of input. -/
def inToken (x : Nat) : Bool :=
  decide (charClass (toChar (x : Int)) ≠ CC_WS ∧ charClass (toChar (x : Int)) ≠ CC_NEWLINE
    ∧ charClass (toChar (x : Int)) ≠ CC_EOF)

/-- Whether a byte of the input is a whitespace or a newline. -/
def isBoundary (x : Nat) : Bool :=
  decide (charClass (toChar (x : Int)) = CC_WS ∨ charClass (toChar (x : Int)) = CC_NEWLINE)

/-! ## buildMachine -/

/-- The characters `fgets` stores when at most `n` more fit: up to and including
the first newline. The second component is what is left of the stream. -/
def fgetsAux : Nat → List Int → List Int × List Int
  | 0, fp => ([], fp)
  | _ + 1, [] => ([], [])
  | n + 1, c :: fp =>
    if c = 10 then ([c], fp)
    else ((fgetsAux n fp).1.cons c, (fgetsAux n fp).2)

/-- The call `fgets(buf, size, fp)`: `none` is the `NULL` returned at the end of the
file, otherwise the string stored in `buf` and the rest of the stream. -/
def fgets (size : Nat) (fp : List Int) : Option (List Int × List Int) :=
  match fp with
  | [] => none
  | _ :: _ => some (fgetsAux (size - 1) fp)

/-- One of the three `fgets(buf, 256, fp)` whose result is not looked at. -/
def skipLine (fp : List Int) : List Int :=
  match fgets 256 fp with
  | none => fp
  | some r => r.2

/-- The locals `b`, `buff` (its cells `buff[0..i)`) and `flag` of the copy loop. -/
structure CopyState where
  b : Bool
  buff : List Int
  flag : Bool
  deriving DecidableEq, Repr

/-- Body of `while (buf[idx])`: a space is copied unless the previous character
copied was a space, any other character is copied; a newline sets `flag` (the
NUL the source stores at `buff[i]` is the end of the list). -/
def copyChar (st : CopyState) (c : Int) : CopyState :=
  let st1 : CopyState :=
    if c = 32 then
      (if st.b then st else { st with buff := st.buff ++ [c], b := true })
    else { st with buff := st.buff ++ [c], b := false }
  if c = 10 then { st1 with flag := true } else st1

/-- The loop `while (buf[idx])` over the string `fgets` stored: it ends at the
first NUL of `buf`. -/
def copyLine (b : Bool) (buff : List Int) (buf : List Int) : CopyState :=
  (buf.takeWhile (fun x => decide (x ≠ 0))).foldl copyChar { b := b, buff := buff, flag := false }

/-- The tokens `strtok` cuts out of a string with the delimiter `" "`: `cur` is
the token being read. -/
def strtokFrom : List Int → List Int → List (List Int)
  | cur, [] => if cur = [] then [] else [cur]
  | cur, c :: cs =>
    if c = 32 then (if cur = [] then strtokFrom [] cs else cur :: strtokFrom [] cs)
    else strtokFrom (cur ++ [c]) cs

/-- The results of `strtok(buff, " ")` and of the calls `strtok(NULL, " ")` that
follow it, up to the first `NULL`. -/
def strtokAll (s : List Int) : List (List Int) := strtokFrom [] s

/-- The white-space characters of `isspace` in the C locale. -/
def isspace (c : Int) : Bool := decide (c = 32 ∨ (9 ≤ c ∧ c ≤ 13))

/-- The value a `long` of 64 bits takes for the number `x` in the conversions of
the C library: `LONG_MAX` above the range and `LONG_MIN` below it. -/
def clampLong (x : Int) : Int :=
  if 9223372036854775807 < x then 9223372036854775807
  else if x < -9223372036854775808 then -9223372036854775808
  else x

/-- The conversion `%d` of `sscanf`: white space is skipped, then an optional
sign and a non-empty run of digits are read. `none` when there is no such run;
otherwise the value and the rest of the input. The library converts the digits
to a `long`, which saturates (`clampLong`), and stores the low 32 bits into the
`int` (`wrapInt`). -/
def scanInt (s : List Int) : Option (Int × List Int) :=
  let s1 := s.dropWhile isspace
  let signed : Int × List Int :=
    match s1 with
    | [] => (1, [])
    | c :: r => if c = 45 then (-1, r) else if c = 43 then (1, r) else (1, s1)
  let ds := signed.2.takeWhile isDigit
  if ds = [] then none
  else some (wrapInt (clampLong (signed.1 * decVal ds)), signed.2.dropWhile isDigit)

/-- The call `sscanf(str, "%d/%d%c", &cc, &dest, &action)`: `v` holds the three variables
before the call, the result holds them after it. A conversion that fails ends
the call and leaves the remaining variables as they were. -/
def sscanf (str : List Int) (v : transition) : transition :=
  match scanInt str with
  | none => v
  | some (a, r1) =>
    match r1 with
    | [] => { v with cc := a }
    | c :: r2 =>
      if c ≠ 47 then { v with cc := a }
      else
        match scanInt r2 with
        | none => { v with cc := a }
        | some (d, r3) =>
          match r3 with
          | [] => { v with cc := a, dest := d }
          | k :: _ => { cc := a, dest := d, action := k }

/-- The four assignments `machine[q].state = q; machine[q].t[cc].cc = cc;
machine[q].t[cc].dest = dest; machine[q].t[cc].action = action`; `none` when `q`
is not an index of the state array or `cc` is not an index of the row `t[12]`. -/
def setEntry (machine : List state) (q : Int) (v : transition) : Option (List state) :=
  if q < 0 ∨ v.cc < 0 ∨ 12 ≤ v.cc then none
  else
    match machine[q.toNat]? with
    | none => none
    | some s => some (machine.set q.toNat { state := q, t := s.t.set v.cc.toNat v })

/-- The loop `while ((str = strtok(NULL, delim)) != NULL)` over the tokens that
follow the state id. The variables `cc`, `dest` and `action` are not
initialised in the source; the model keeps in `v` the values the previous
conversions left in them. -/
def applySpecs (q : Int) :
    List (List Int) → List state → transition → Except Fault (List state × transition)
  | [], machine, v => .ok (machine, v)
  | str :: rest, machine, v =>
    match setEntry machine q (sscanf str v) with
    | none => .error .outOfBounds
    | some m1 => applySpecs q rest m1 (sscanf str v)

/-- The body of `if (flag)`: the first token is the state id, the other tokens
are specs. `strInt(NULL)` is a fault. -/
def processRow (buff : List Int) (machine : List state) (v : transition) :
    Except Fault (List state × transition) :=
  match strtokAll buff with
  | [] => .error .nullPointer
  | str :: specs => applySpecs (strInt str) specs machine v

/-- What `buildMachine` carries from one `fgets` to the next. -/
structure BuildState where
  machine : List state
  b : Bool
  buff : List Int
  v : transition
  deriving DecidableEq, Repr

/-- The loop `while ((ptr = fgets(buf, 256, fp)) != NULL)`, at most `fuel`
iterations of it. -/
def buildLoop : Nat → List Int → BuildState → Except Fault (List state)
  | 0, _, _ => .error .outOfFuel
  | fuel + 1, fp, st =>
    match fgets 256 fp with
    | none => .ok st.machine
    | some (buf, fp1) =>
      if (copyLine st.b st.buff buf).flag then
        match processRow (copyLine st.b st.buff buf).buff st.machine st.v with
        | .error e => .error e
        | .ok (m1, v1) =>
          buildLoop fuel fp1
            { machine := m1, b := (copyLine st.b st.buff buf).b, buff := [], v := v1 }
      else
        buildLoop fuel fp1
          { st with b := (copyLine st.b st.buff buf).b, buff := (copyLine st.b st.buff buf).buff }

/-- The function `void buildMachine(char *filename, struct state *machine, int states)` on
the characters of the file; `junk` is the content of the variables `cc`, `dest`
and `action` before the first conversion. -/
def buildMachine (file : List Int) (states : Int) (junk : transition) :
    Except Fault (List state) :=
  buildLoop ((skipLine (skipLine (skipLine file))).length + 1)
    (skipLine (skipLine (skipLine file)))
    { machine := initMachine states, b := false, buff := [], v := junk }

/-! ## Well-formed descriptions -/

/-- A transition spec of a description: the digits of the class, the digits of
the destination, the action character, and the number of extra spaces in front
of the spec. -/
structure SpecText where
  gap : Nat
  cc : List Int
  dest : List Int
  action : Int
  deriving DecidableEq, Repr

/-- A state row of a description: the digits of the state id and the specs. -/
structure RowText where
  st : List Int
  specs : List SpecText
  deriving DecidableEq, Repr

/-- A description: three header lines and the state rows. -/
structure Description where
  line1 : List Int
  line2 : List Int
  line3 : List Int
  rows : List RowText
  deriving DecidableEq, Repr

/-- The characters of a spec without the spaces in front: `<class>/<dest><action>`. -/
def SpecText.body (s : SpecText) : List Int := s.cc ++ 47 :: (s.dest ++ [s.action])

/-- The characters of a spec: one space or more, then the body. -/
def SpecText.text (s : SpecText) : List Int := List.replicate (s.gap + 1) 32 ++ s.body

/-- The characters of all the specs of a row. -/
def specsText : List SpecText → List Int
  | [] => []
  | s :: ss => s.text ++ specsText ss

/-- The line of a state row, newline included. -/
def RowText.text (r : RowText) : List Int := r.st ++ (specsText r.specs ++ [10])

/-- The characters of all the rows. -/
def rowsText : List RowText → List Int
  | [] => []
  | r :: rs => r.text ++ rowsText rs

/-- The characters of the description file. -/
def Description.text (d : Description) : List Int :=
  d.line1 ++ 10 :: (d.line2 ++ 10 :: (d.line3 ++ 10 :: rowsText d.rows))

/-- A non-empty list of digits. -/
def isNumeral (ds : List Int) : Prop := ds ≠ [] ∧ ∀ c ∈ ds, isDigit c = true

instance (ds : List Int) : Decidable (isNumeral ds) := by
  unfold isNumeral
  infer_instance

/-- A well-formed spec: class id in 0..11, a destination that fits an `int`, an
action character that is not a digit, a space, a newline or NUL. -/
def SpecText.WellFormed (s : SpecText) : Prop :=
  isNumeral s.cc ∧ decVal s.cc < 12 ∧ isNumeral s.dest ∧ decVal s.dest ≤ 2147483647
    ∧ isDigit s.action = false ∧ s.action ≠ 32 ∧ s.action ≠ 10 ∧ s.action ≠ 0

instance (s : SpecText) : Decidable s.WellFormed := by
  unfold SpecText.WellFormed
  infer_instance

/-- A well-formed row for a table of `n` states: a state id in `[0, n)`,
well-formed specs, and a line that fits the 256-character line buffer. -/
def RowText.WellFormed (r : RowText) (n : Int) : Prop :=
  isNumeral r.st ∧ decVal r.st < n ∧ (∀ s ∈ r.specs, s.WellFormed) ∧ r.text.length ≤ 255

instance (r : RowText) (n : Int) : Decidable (r.WellFormed n) := by
  unfold RowText.WellFormed
  infer_instance

/-- A header line: no newline inside, and it fits the line buffer. -/
def headerLine (l : List Int) : Prop := (10 : Int) ∉ l ∧ l.length ≤ 254

instance (l : List Int) : Decidable (headerLine l) := by
  unfold headerLine
  infer_instance

/-- A well-formed description for a table of `n` states. -/
def Description.WellFormed (d : Description) (n : Int) : Prop :=
  n ≤ 2147483647 ∧ headerLine d.line1 ∧ headerLine d.line2 ∧ headerLine d.line3
    ∧ ∀ r ∈ d.rows, r.WellFormed n

instance (d : Description) (n : Int) : Decidable (d.WellFormed n) := by
  unfold Description.WellFormed
  infer_instance

/-- The transition a spec denotes. -/
def SpecText.value (s : SpecText) : transition :=
  { cc := decVal s.cc, dest := decVal s.dest, action := s.action }

/-- The specs of a description in the order of the text, each with the state id
of its row. -/
def entriesOf : List RowText → List (Int × transition)
  | [] => []
  | r :: rs => r.specs.map (fun (s : SpecText) => (decVal r.st, s.value)) ++ entriesOf rs

/-- The specs of a description that name the pair `(q, c)`, in the order of the
text. -/
def Description.specsFor (d : Description) (q c : Int) : List transition :=
  ((entriesOf d.rows).filter (fun e => decide (e.1 = q ∧ e.2.cc = c))).map (fun e => e.2)

/-- The description of the `a+` table, with a second row for state 0 that
overrides the whitespace transition of the first. -/
def aPlusDescription : Description :=
  { line1 := cstr "states 2", line2 := cstr "start 0", line3 := cstr "accept 1",
    rows := [ { st := cstr "0", specs := [ ⟨0, cstr "2", cstr "0", 115⟩, ⟨1, cstr "0", cstr "0", 100⟩ ] },
              { st := cstr "1", specs := [] },
              { st := cstr "0", specs := [ ⟨0, cstr "0", cstr "1", 100⟩ ] } ] }

/-! ## Auxiliary functions of the proofs about buildMachine -/

/-- What the copy loop appends to `buff` for the characters given: a space that
follows a space is left out; `b` tells whether the previous character copied was
a space. -/
def squeeze : Bool → List Int → List Int
  | _, [] => []
  | b, c :: cs =>
    if c = 32 then (if b then squeeze true cs else c :: squeeze true cs)
    else c :: squeeze false cs

/-- The tokens that follow the state id on the line of a row: the bodies of the
specs, the last one with the newline of the line. -/
def specTokens : List SpecText → List (List Int)
  | [] => []
  | s :: [] => [s.body ++ [10]]
  | s :: s2 :: ss => s.body :: specTokens (s2 :: ss)

/-- The first token of the line of a row: the state id, with the newline of the
line when the row has no spec. -/
def stateToken (r : RowText) : List Int :=
  match r.specs with
  | [] => r.st ++ [10]
  | _ :: _ => r.st

/-- Apply the writes `machine[q].t[cc] = v` of a list of entries in order,
skipping one that is out of bounds. -/
def writeAll : List (Int × transition) → List state → List state
  | [], machine => machine
  | e :: es, machine =>
    match setEntry machine e.1 e.2 with
    | none => writeAll es machine
    | some m1 => writeAll es m1

/-- The first character of `tail`, when there is one, is not a digit. -/
def endsRun (tail : List Int) : Prop := ∀ c ∈ tail.head?, isDigit c = false

/-- Every row of the table has its 12 entries. -/
def Shape (machine : List state) : Prop := ∀ s ∈ machine, s.t.length = 12

/-- The entries are writes inside a table of `n` states. -/
def InBounds (es : List (Int × transition)) (n : Nat) : Prop :=
  ∀ e ∈ es, 0 ≤ e.1 ∧ e.1 < n ∧ 0 ≤ e.2.cc ∧ e.2.cc < 12

/-! ## Observations on a run of runMachine -/

/-- The locals of `runMachine` at the beginning of the iteration that leaves the
loop through `break`, when the run reaches one within `fuel` iterations. -/
def stopCfg (machine : List state) (start accept : Int) : Nat → Cfg → List Nat → Option Cfg
  | 0, _, _ => none
  | fuel + 1, cfg, input =>
    match step machine start accept cfg (toChar (getchar input).1) with
    | none => none
    | some out =>
      if out.stop then some cfg
      else stopCfg machine start accept fuel out.cfg (getchar input).2

/-- The reads `machine[state].t[charClass(c)]` of a run, as pairs of the two
indices, in the order in which the loop makes them: an iteration in error
recovery makes none, any other iteration reads at `(state, charClass(c))`. -/
def runLookups (machine : List state) (start accept : Int) :
    Nat → Cfg → List Nat → List (Int × Int)
  | 0, _, _ => []
  | fuel + 1, cfg, input =>
    (if cfg.errorState then []
      else [(cfg.state, charClass (toChar (getchar input).1))])
    ++ (match step machine start accept cfg (toChar (getchar input).1) with
        | none => []
        | some out =>
          if out.stop then []
          else runLookups machine start accept fuel out.cfg (getchar input).2)

/-- An assignment to the write index `i` of `buf`: the `i++` that follows
`buf[i] = c`, or one of the `i = 0`. -/
inductive IndexOp
  | inc
  | zero
  deriving DecidableEq, Repr

/-- The assignments to `i` that one iteration executes, in order: in error
recovery `i = 0` on a whitespace or newline and `i = 0` on the end of input;
otherwise `i++` when the action is `s`, then `i = 0` when the symbol is not the
end of input and the destination is the accept state. -/
def stepOps (machine : List state) (accept : Int) (cfg : Cfg) (c : Int) : List IndexOp :=
  if cfg.errorState then
    (if charClass c = CC_WS ∨ charClass c = CC_NEWLINE then [IndexOp.zero] else [])
      ++ (if charClass c = CC_EOF then [IndexOp.zero] else [])
  else
    match lookup machine cfg.state (charClass c) with
    | none => []
    | some tr =>
      (if tr.action = 115 then [IndexOp.inc] else [])
        ++ (if charClass c ≠ CC_EOF ∧ tr.dest = accept then [IndexOp.zero] else [])

/-- The assignments to `i` made by the first `fuel` iterations of a run (fewer
when the run ends before), and the locals after them. -/
def runTrace (machine : List state) (start accept : Int) :
    Nat → Cfg → List Nat → List IndexOp × Cfg
  | 0, cfg, _ => ([], cfg)
  | fuel + 1, cfg, input =>
    match step machine start accept cfg (toChar (getchar input).1) with
    | none => ([], cfg)
    | some out =>
      if out.stop then (stepOps machine accept cfg (toChar (getchar input).1), out.cfg)
      else
        (stepOps machine accept cfg (toChar (getchar input).1)
            ++ (runTrace machine start accept fuel out.cfg (getchar input).2).1,
          (runTrace machine start accept fuel out.cfg (getchar input).2).2)

/-- The value of the index after each of the assignments, from the value `i`. -/
def indexValues : Nat → List IndexOp → List Nat
  | _, [] => []
  | i, IndexOp.inc :: ops => (i + 1) :: indexValues (i + 1) ops
  | _, IndexOp.zero :: ops => 0 :: indexValues 0 ops

/-- The value of the index after all the assignments, from the value `i`. -/
def indexAfter (i : Nat) (ops : List IndexOp) : Nat :=
  ops.foldl (fun k op => match op with
    | IndexOp.inc => k + 1
    | IndexOp.zero => 0) i

/-- The number of symbols shifted since the last reset: the number of `i++`
after the last `i = 0` of the assignments made so far. -/
def shiftedSinceReset (ops : List IndexOp) : Nat :=
  (ops.reverse.takeWhile (fun op => decide (op = IndexOp.inc))).length

/-- A table for lookup safety: fewer than 100 rows of 12 entries each, a start
state that is a row, and every destination 99 or a row. -/
def SafeTable (machine : List state) (start : Int) : Prop :=
  machine.length ≤ 99 ∧ (0 ≤ start ∧ start < machine.length) ∧
  ∀ s ∈ machine, s.t.length = 12 ∧
    ∀ tr ∈ s.t, tr.dest = 99 ∨ (0 ≤ tr.dest ∧ tr.dest < machine.length)

instance (machine : List state) (start : Int) : Decidable (SafeTable machine start) := by
  unfold SafeTable
  infer_instance

/-- A table of identifiers: in state 0 an alphabetic symbol is shifted and leads
to state 1; in state 1 an alphabetic symbol is shifted and stays, a whitespace
or a newline is dropped and leads to state 2. Start is 0, accept is 2; a
whitespace in state 0 has the default entry, destination 99. -/
def identTable : List state :=
  [ { state := 0, t := defaultRow.set 2 ⟨2, 1, 115⟩ },
    { state := 1, t := ((defaultRow.set 2 ⟨2, 1, 115⟩).set 0 ⟨0, 2, 100⟩).set 1 ⟨1, 2, 100⟩ },
    { state := 2, t := defaultRow } ]

/-! ## runMachine and the size of buf -/

/-- The indices of `char buf[64]` that one iteration writes, in order: an
iteration in error recovery writes nothing; otherwise `buf[i] = c` at `i` when
the action is `s`, and `buf[i] = 0`, with `i` as the shift has left it, when the
symbol is not the end of input and the destination is the accept state. -/
def stepWrites (machine : List state) (accept : Int) (cfg : Cfg) (c : Int) : List Nat :=
  if cfg.errorState then []
  else
    match lookup machine cfg.state (charClass c) with
    | none => []
    | some tr =>
      (if tr.action = 115 then [cfg.buf.length] else [])
        ++ (if charClass c ≠ CC_EOF ∧ tr.dest = accept then
              [(if tr.action = 115 then cfg.buf ++ [c] else cfg.buf).length]
            else [])

/-- One iteration of the loop of `runMachine` with the declaration `char buf[64]`
taken into account: as `step`, but a write into `buf` at an index that is not
below 64 is the fault `bufferOverflow` (the C program writes outside the array).
An out-of-bounds read of the table is the fault `outOfBounds`. -/
def stepChecked (machine : List state) (start accept : Int) (cfg : Cfg) (c : Int) :
    Except Fault StepOut :=
  match step machine start accept cfg c with
  | none => .error .outOfBounds
  | some out =>
    if ∀ w ∈ stepWrites machine accept cfg c, w < 64 then .ok out
    else .error .bufferOverflow

/-- The loop of `runMachine` with the size of `buf` taken into account, at most
`fuel` iterations of it. -/
def runLoopChecked (machine : List state) (start accept : Int) :
    Nat → Cfg → List Nat → Except Fault (List ScanEvent)
  | 0, _, _ => .error .outOfFuel
  | fuel + 1, cfg, input =>
    match stepChecked machine start accept cfg (toChar (getchar input).1) with
    | .error e => .error e
    | .ok out =>
      if out.stop then .ok out.events
      else emit out.events (runLoopChecked machine start accept fuel out.cfg (getchar input).2)

/-- The function `runMachine` on the bytes of standard input, with the size of
`buf` taken into account. -/
def runMachineChecked (machine : List state) (start accept : Int) (input : List Nat) :
    Except Fault (List ScanEvent) :=
  runLoopChecked machine start accept (input.length + 1) (resetCfg start) input

/-- The value of `i` after the `i++` of one iteration, when the iteration
executes it: the number of symbols then pending. -/
def stepPending (machine : List state) (cfg : Cfg) (c : Int) : List Nat :=
  if cfg.errorState then []
  else
    match lookup machine cfg.state (charClass c) with
    | none => []
    | some tr => if tr.action = 115 then [cfg.buf.length + 1] else []

/-- The values of `i` after each `i++` of the run on `input` from the locals
`cfg`, up to the iteration that reads the end of the input: the number of
symbols that the token attempt under way has shifted, after each shift. -/
def shiftCounts (machine : List state) (start accept : Int) : Cfg → List Nat → List Nat
  | cfg, [] => stepPending machine cfg (toChar (-1))
  | cfg, x :: rest =>
    stepPending machine cfg (toChar (x : Int))
      ++ (match step machine start accept cfg (toChar (x : Int)) with
          | none => []
          | some out => if out.stop then [] else shiftCounts machine start accept out.cfg rest)

/-- The input of 100 letters `a` followed by a space. -/
def hundredLetters : List Nat := List.replicate 100 97 ++ [32]

/-! ## readFile and main -/

/-- The string held by `buf` after `strtok(buf, " ")` has cut the first token:
the spaces in front of the token and the token. -/
def afterStrtok (buf : List Int) : List Int :=
  buf.takeWhile (fun x => decide (x = 32))
    ++ (buf.dropWhile (fun x => decide (x = 32))).takeWhile (fun x => decide (x ≠ 32))

/-- One iteration of the loop of `readFile`: `fgets(buf, 16, fp)`, whose result
is not looked at (at the end of the file `buf` keeps the string it held), then
`strtok(buf, " ")` and `strInt(strtok(NULL, " "))`. The result is the value
stored in `info[n]`, the string left in `buf` and the rest of the stream;
`strInt(NULL)`, when `buf` has no second token, is a fault. -/
def readField (fp buf : List Int) : Except Fault (Int × List Int × List Int) :=
  match strtokAll (match fgets 16 fp with
      | none => buf
      | some r => r.1.takeWhile (fun x => decide (x ≠ 0))) with
  | _ :: tok :: _ =>
    .ok (strInt tok,
      afterStrtok (match fgets 16 fp with
        | none => buf
        | some r => r.1.takeWhile (fun x => decide (x ≠ 0))),
      match fgets 16 fp with
        | none => fp
        | some r => r.2)
  | _ => .error .nullPointer

/-- The function `void readFile(char *filename, int *info)` on the characters
of the file: the three values stored in `info`. The array `buf` is not
initialised in the source; `garbage` is the string it holds on entry. -/
def readFile (file garbage : List Int) : Except Fault (Int × Int × Int) :=
  match readField file garbage with
  | .error e => .error e
  | .ok (states, buf1, fp1) =>
    match readField fp1 buf1 with
    | .error e => .error e
    | .ok (start, buf2, fp2) =>
      match readField fp2 buf2 with
      | .error e => .error e
      | .ok (accept, _, _) => .ok (states, start, accept)

/-- The function `main` called with one argument, on the characters of the file
named by the argument and the bytes of standard input: `readFile`, then
`buildMachine` on an array of `info[0]` states (no state when `info[0]` is not
positive), then `runMachine` with `info[1]` and `info[2]`. The result is the
scan trace; the table printed by `displayMachine` is not part of it. -/
def main (file : List Int) (input : List Nat) (garbage : List Int) (junk : transition) :
    Except Fault (List ScanEvent) :=
  match readFile file garbage with
  | .error e => .error e
  | .ok (states, start, accept) =>
    match buildMachine file states junk with
    | .error e => .error e
    | .ok machine => runMachine machine start accept input

/-- The entry `machine[q].t[c]` of the table a build returns. -/
def entryOf (r : Except Fault (List state)) (q c : Int) : Except Fault (Option transition) :=
  match r with
  | .ok machine => .ok (lookup machine q c)
  | .error e => .error e

/-- A text made of whole lines: empty, or ended by a newline. -/
def WholeLines (s : List Int) : Prop := s = [] ∨ s.getLast? = some 10

instance (s : List Int) : Decidable (WholeLines s) := by
  unfold WholeLines
  infer_instance

/-! # Theorems -/


/-! ## Elementary facts -/

theorem emit_nil (r : Except Fault (List ScanEvent)) : emit [] r = r := by
  cases r <;> rfl

theorem emit_append (a b : List ScanEvent) (r : Except Fault (List ScanEvent)) :
    emit (a ++ b) r = emit a (emit b r) := by
  cases r <;> simp [emit]

theorem runLoop_succ (machine : List state) (start accept : Int) (fuel : Nat) (cfg : Cfg)
    (input : List Nat) :
    runLoop machine start accept (fuel + 1) cfg input =
      match step machine start accept cfg (toChar (getchar input).1) with
      | none => .error .outOfBounds
      | some out =>
        if out.stop then .ok out.events
        else emit out.events (runLoop machine start accept fuel out.cfg (getchar input).2) := rfl

theorem charClass_range (c : Int) : 0 ≤ charClass c ∧ charClass c ≤ 10 := by
  unfold charClass
  split_ifs <;> decide

theorem toChar_eof : toChar (-1) = -1 := by decide

theorem charClass_eof : charClass (-1) = CC_EOF := by decide

theorem lookup_isSome (machine : List state) (q cc : Int)
    (hrow : ∀ s ∈ machine, s.t.length = 12) (hq : 0 ≤ q ∧ q < machine.length)
    (hc : 0 ≤ cc ∧ cc < 12) : ∃ tr, lookup machine q cc = some tr ∧
      ∃ s ∈ machine, tr ∈ s.t := by
  have hq2 : q.toNat < machine.length := by omega
  have h1 : machine[q.toNat]? = some (machine[q.toNat]) := List.getElem?_eq_getElem hq2
  have hs : machine[q.toNat] ∈ machine := List.getElem_mem hq2
  have hl := hrow _ hs
  have hc2 : cc.toNat < (machine[q.toNat]).t.length := by omega
  refine ⟨(machine[q.toNat]).t[cc.toNat], ?_, machine[q.toNat], hs, List.getElem_mem hc2⟩
  unfold lookup
  rw [if_neg (by omega), h1]
  exact List.getElem?_eq_getElem hc2

/-! ## charClass -/

theorem code_val : code '\t' = 9 ∧ code ' ' = 32 ∧ code '\n' = 10 ∧ code 'A' = 65 ∧ code 'a' = 97
    ∧ code '_' = 95 ∧ code '0' = 48 ∧ code '1' = 49 ∧ code '8' = 56 ∧ code '9' = 57
    ∧ code '/' = 47 ∧ code '*' = 42 ∧ code '%' = 37 ∧ code '+' = 43 ∧ code '-' = 45 := by
  decide

theorem mem_run (a x : Int) (n : Nat) :
    x ∈ (List.range n).map (fun (k : Nat) => a + (k : Int)) ↔ a ≤ x ∧ x < a + n := by
  simp only [List.mem_map, List.mem_range]
  constructor
  · rintro ⟨k, hk, rfl⟩
    constructor <;> omega
  · rintro ⟨h1, h2⟩
    refine ⟨(x - a).toNat, by omega, ?_⟩
    have : ((x - a).toNat : Int) = x - a := Int.toNat_of_nonneg (by omega)
    omega

theorem classify_chain (c : Int) : classify c =
    if c = 9 ∨ c = 32 then .whitespace
    else if c = 10 then .newline
    else if (c ≥ 65 ∧ c ≤ 90) ∨ c = 95 ∨ (c ≥ 97 ∧ c ≤ 122) then .alphabetic
    else if c = 48 then .digitZero
    else if c ≥ 49 ∧ c ≤ 55 then .digitOneToSeven
    else if c = 56 ∨ c = 57 then .digitEightNine
    else if c = 47 then .slash
    else if c = 42 then .star
    else if c = 37 ∨ c = 43 ∨ c = 45 then .arithOp
    else if c = -1 then .endOfInput
    else .other := by
  obtain ⟨h1, h2, h3, h4, h5, h6, h7, h8, h9, h10, h11, h12, h13, h14, h15⟩ := code_val
  have e3 : ((65 ≤ c ∧ c < 65 + ((26 : Nat) : Int) ∨ 97 ≤ c ∧ c < 97 + ((26 : Nat) : Int)) ∨ c = 95)
      ↔ ((c ≥ 65 ∧ c ≤ 90) ∨ c = 95 ∨ (c ≥ 97 ∧ c ≤ 122)) := by omega
  have e5 : (49 ≤ c ∧ c < 49 + ((7 : Nat) : Int)) ↔ (c ≥ 49 ∧ c ≤ 55) := by omega
  simp only [classify, classTable, h1, h2, h3, h4, h5, h6, h7, h8, h9, h10, h11, h12, h13, h14, h15,
    List.find?, List.mem_append, mem_run, List.mem_cons, List.mem_singleton, List.not_mem_nil,
    or_false, e3, e5]
  by_cases a1 : c = 9 ∨ c = 32
  · simp only [a1, decide_True, if_true]
  simp only [a1, decide_False, if_false]
  by_cases a2 : c = 10
  · simp only [a2, decide_True, if_true]
  simp only [a2, decide_False, if_false]
  by_cases a3 : (c ≥ 65 ∧ c ≤ 90) ∨ c = 95 ∨ (c ≥ 97 ∧ c ≤ 122)
  · simp only [a3, decide_True, if_true]
  simp only [a3, decide_False, if_false]
  by_cases a4 : c = 48
  · simp only [a4, decide_True, if_true]
  simp only [a4, decide_False, if_false]
  by_cases a5 : c ≥ 49 ∧ c ≤ 55
  · simp only [a5, and_self, decide_True, if_true]
  simp only [a5, decide_False, if_false]
  by_cases a6 : c = 56 ∨ c = 57
  · simp only [a6, decide_True, if_true]
  simp only [a6, decide_False, if_false]
  by_cases a7 : c = 47
  · simp only [a7, decide_True, if_true]
  simp only [a7, decide_False, if_false]
  by_cases a8 : c = 42
  · simp only [a8, decide_True, if_true]
  simp only [a8, decide_False, if_false]
  by_cases a9 : c = 37 ∨ c = 43 ∨ c = 45
  · simp only [a9, decide_True, if_true]
  simp only [a9, decide_False, if_false]
  by_cases a10 : c = -1
  · simp only [a10, decide_True, if_true]
  simp only [a10, decide_False, if_false]

theorem charClass_chain (c : Int) : charClass c = (classify c).ordinal := by
  rw [classify_chain]
  unfold charClass
  by_cases a1 : c = 9 ∨ c = 32
  · rw [if_pos a1, if_pos a1]; rfl
  rw [if_neg a1, if_neg a1]
  by_cases a2 : c = 10
  · rw [if_pos a2, if_pos a2]; rfl
  rw [if_neg a2, if_neg a2]
  by_cases a3 : (c ≥ 65 ∧ c ≤ 90) ∨ c = 95 ∨ (c ≥ 97 ∧ c ≤ 122)
  · rw [if_pos a3, if_pos a3]; rfl
  rw [if_neg a3, if_neg a3]
  by_cases a4 : c = 48
  · rw [if_pos a4, if_pos a4]; rfl
  rw [if_neg a4, if_neg a4]
  by_cases a5 : c ≥ 49 ∧ c ≤ 55
  · rw [if_pos a5, if_pos a5]; rfl
  rw [if_neg a5, if_neg a5]
  by_cases a6 : c = 56 ∨ c = 57
  · rw [if_pos a6, if_pos a6]; rfl
  rw [if_neg a6, if_neg a6]
  by_cases a7 : c = 47
  · rw [if_pos a7, if_pos a7]; rfl
  rw [if_neg a7, if_neg a7]
  by_cases a8 : c = 42
  · rw [if_pos a8, if_pos a8]; rfl
  rw [if_neg a8, if_neg a8]
  by_cases a9 : c = 37 ∨ c = 43 ∨ c = 45
  · rw [if_pos a9, if_pos a9]; rfl
  rw [if_neg a9, if_neg a9]
  by_cases a10 : c = -1
  · rw [if_pos a10, if_pos a10]; rfl
  rw [if_neg a10, if_neg a10]; rfl

theorem charClass_ne_error (c : Int) : charClass c ≠ CC_ERROR := by
  unfold charClass
  split_ifs <;> decide

/-- C1. `charClass` is total and coincides with the mapping `classify` of the
specification (tab and space give whitespace, line feed gives newline, letters
and underscore give alphabetic, and so on, -1 gives end-of-input and everything
else gives other); its result is never the error class `CC_ERROR`. -/
theorem charClass_eq_classify (c : Int) :
    charClass c = (classify c).ordinal ∧ charClass c ≠ CC_ERROR :=
  ⟨charClass_chain c, charClass_ne_error c⟩

/-! ## strInt -/

theorem wrapInt_of_range (x : Int) (h0 : 0 ≤ x) (h1 : x ≤ 2147483647) : wrapInt x = x := by
  unfold wrapInt
  omega

theorem decVal_nonneg (ds : List Int) (h : ∀ d ∈ ds, isDigit d = true) : 0 ≤ decVal ds := by
  induction ds with
  | nil => simp [decVal]
  | cons d ds ih =>
    have hd : isDigit d = true := h d (List.mem_cons_self _ _)
    simp only [isDigit, decide_eq_true_eq] at hd
    have ih2 := ih (fun x hx => h x (List.mem_cons_of_mem _ hx))
    have hp : (0 : Int) ≤ 10 ^ ds.length := by positivity
    have : 0 ≤ (d - 48) * 10 ^ ds.length := mul_nonneg (by omega) hp
    simp only [decVal]
    omega

theorem strIntLoop_eq (str : List Int) : ∀ res : Int, 0 ≤ res →
    res * 10 ^ (str.takeWhile isDigit).length + decVal (str.takeWhile isDigit) ≤ 2147483647 →
    strIntLoop str res
      = res * 10 ^ (str.takeWhile isDigit).length + decVal (str.takeWhile isDigit) := by
  induction str with
  | nil => intro res _ _; simp [strIntLoop, decVal]
  | cons c cs ih =>
    intro res h0 hb
    by_cases hc : c ≥ 48 ∧ c ≤ 57
    · have hd : isDigit c = true := by simp only [isDigit, decide_eq_true_eq]; omega
      rw [List.takeWhile_cons_of_pos hd] at hb ⊢
      simp only [strIntLoop, if_pos hc, List.length_cons, decVal] at hb ⊢
      have hnn : 0 ≤ decVal (cs.takeWhile isDigit) :=
        decVal_nonneg _ (fun x hx => (List.mem_takeWhile_imp hx))
      have hp : (1 : Int) ≤ 10 ^ (cs.takeWhile isDigit).length := by
        have : (0 : Int) < 10 ^ (cs.takeWhile isDigit).length := by positivity
        omega
      have e1 : res * 10 ^ ((cs.takeWhile isDigit).length + 1)
          + ((c - 48) * 10 ^ (cs.takeWhile isDigit).length + decVal (cs.takeWhile isDigit))
          = (res * 10 + (c - 48)) * 10 ^ (cs.takeWhile isDigit).length
            + decVal (cs.takeWhile isDigit) := by ring
      rw [e1] at hb ⊢
      have h1 : 0 ≤ res * 10 + (c - 48) := by omega
      have h2 : res * 10 + (c - 48) ≤ (res * 10 + (c - 48)) * 10 ^ (cs.takeWhile isDigit).length :=
        le_mul_of_one_le_right h1 hp
      rw [wrapInt_of_range _ h1 (by omega)]
      exact ih _ h1 hb
    · have hd : ¬ (isDigit c = true) := by simp only [isDigit, decide_eq_true_eq]; omega
      rw [List.takeWhile_cons_of_neg hd]
      simp [strIntLoop, if_neg hc, decVal]

/-- C7 (amended). `strInt` returns -1 for every string that does not begin with
a digit, the empty string included; for every string that begins with a digit
and whose maximal leading run of digits denotes a value of at most 2147483647,
it returns that value, which is not negative, whatever characters follow. -/
theorem strInt_spec :
    (∀ str : List Int, beginsWithDigit str = false → strInt str = -1) ∧
    (∀ str : List Int, beginsWithDigit str = true → decVal (digitRun str) ≤ 2147483647 →
      strInt str = decVal (digitRun str) ∧ 0 ≤ strInt str) := by
  refine ⟨?_, ?_⟩
  · intro str h
    cases str with
    | nil => rfl
    | cons c rest =>
      simp only [beginsWithDigit, isDigit, decide_eq_false_iff_not] at h
      simp only [strInt]
      rw [if_pos (by omega)]
  · intro str h hb
    cases str with
    | nil => simp [beginsWithDigit] at h
    | cons c rest =>
      simp only [beginsWithDigit, isDigit, decide_eq_true_eq] at h
      unfold digitRun at hb ⊢
      have hnn : 0 ≤ decVal ((c :: rest).takeWhile isDigit) :=
        decVal_nonneg _ (fun x hx => (List.mem_takeWhile_imp hx))
      have e : strInt (c :: rest) = strIntLoop (c :: rest) 0 := by
        simp only [strInt]
        rw [if_neg (by omega)]
      have := strIntLoop_eq (c :: rest) 0 (le_refl 0) (by omega)
      rw [e, this]
      omega

/-- Witness of C7: the string `"5,"` gives 5 and the string `"x1"` gives -1. -/
theorem strInt_spec_witness :
    strInt (cstr "x1") = -1 ∧ strInt (cstr "5,") = decVal (digitRun (cstr "5,"))
      ∧ decVal (digitRun (cstr "5,")) = 5 :=
  ⟨strInt_spec.1 (cstr "x1") (by decide),
    (strInt_spec.2 (cstr "5,") (by decide) (by decide)).1, by decide⟩

/-- Counterexample to C7 as stated: the string `"2147483648"` begins with a
digit and its digits denote 2147483648, yet `strInt` returns a negative number. -/
theorem strInt_overflow :
    beginsWithDigit (cstr "2147483648") = true
      ∧ decVal (digitRun (cstr "2147483648")) = 2147483648
      ∧ strInt (cstr "2147483648") = -2147483648
      ∧ strInt (cstr "2147483648") ≠ decVal (digitRun (cstr "2147483648")) := by
  decide

/-! ## runMachine -/

theorem step_eof (machine : List state) (start accept : Int) (cfg : Cfg) (c : Int) (tr : transition)
    (herr : cfg.errorState = false) (hc : charClass c = CC_EOF)
    (hl : lookup machine cfg.state CC_EOF = some tr) :
    step machine start accept cfg c =
      some { events := (if cfg.buf.length = 0 then [ScanEvent.StateVisited cfg.state] else [])
                ++ [.StateVisited tr.dest] ++ [.EndOfInput],
             cfg := { buf := if tr.action = 115 then cfg.buf ++ [c] else cfg.buf,
                      errorState := false, state := tr.dest },
             stop := true } := by
  unfold step
  simp only [herr, hc, hl, Bool.false_eq_true, if_false, if_true]

/-- C4 (amended). Scanning an empty input stream with a table in which the row
of the start state exists yields exactly three events: `StateVisited start`,
`StateVisited d` where `d` is the destination of the end-of-input transition
of the start state, and `EndOfInput`. -/
theorem runMachine_empty (machine : List state) (start accept : Int) (tr : transition)
    (hl : lookup machine start CC_EOF = some tr) :
    runMachine machine start accept [] =
      .ok [.StateVisited start, .StateVisited tr.dest, .EndOfInput] := by
  unfold runMachine
  rw [runLoop_succ]
  have h := step_eof machine start accept (resetCfg start) (toChar (getchar []).1) tr rfl
    (by decide) hl
  rw [h]
  rfl

/-- Witness of C4: the `a+` table on the empty input. -/
theorem runMachine_empty_witness :
    runMachine aPlus 0 1 [] = .ok [.StateVisited 0, .StateVisited 99, .EndOfInput] :=
  runMachine_empty aPlus 0 1 ⟨9, 99, 100⟩ (by decide)

/-- Counterexample to C4 as stated: on the empty input the `a+` table prints two
states before `EndOfInput`, so the trace is not the single event `EndOfInput`. -/
theorem runMachine_empty_not_single :
    runMachine aPlus 0 1 [] = .ok [.StateVisited 0, .StateVisited 99, .EndOfInput]
      ∧ runMachine aPlus 0 1 [] ≠ .ok [.EndOfInput] := by
  decide

/-- C9. When the scanner is not in error recovery and reads a character of the
end-of-input class, the iteration prints the destination and `EOF` and leaves
the loop: the events are `StateVisited destination` then `EndOfInput` (after
`StateVisited state` when nothing is pending), there is no `Recognized` and no
`Rejected` among them whatever the destination is, and the run stops there. -/
theorem eof_is_terminal (machine : List state) (start accept : Int) (cfg : Cfg) (c : Int)
    (tr : transition) (herr : cfg.errorState = false) (hc : charClass c = CC_EOF)
    (hl : lookup machine cfg.state CC_EOF = some tr) :
    ∃ out, step machine start accept cfg c = some out ∧ out.stop = true
      ∧ out.events = (if cfg.buf.length = 0 then [ScanEvent.StateVisited cfg.state] else [])
          ++ [.StateVisited tr.dest, .EndOfInput]
      ∧ (∀ l, ScanEvent.Recognized l ∉ out.events) ∧ ScanEvent.Rejected ∉ out.events
      ∧ ∀ (fuel : Nat) (input : List Nat), toChar (getchar input).1 = c →
          runLoop machine start accept (fuel + 1) cfg input = .ok out.events := by
  refine ⟨_, step_eof machine start accept cfg c tr herr hc hl, rfl, ?_, ?_, ?_, ?_⟩
  · simp
  · intro l
    by_cases h : cfg.buf.length = 0 <;> simp [h]
  · by_cases h : cfg.buf.length = 0 <;> simp [h]
  · intro fuel input hin
    rw [runLoop_succ, hin, step_eof machine start accept cfg c tr herr hc hl]
    rfl

/-- Witness of C9: the end-of-input transition of state 0 is redirected to the
accept state 1, with `"ab"` pending; the end of the input then prints the
destination and `EOF`, and no lexeme. -/
theorem eof_is_terminal_witness :
    ∃ out, step eofAccepts 0 1
        ⟨cstr "ab", false, 0⟩ (-1) = some out ∧ out.stop = true
      ∧ out.events = (if (cstr "ab").length = 0 then [ScanEvent.StateVisited 0] else [])
          ++ [.StateVisited 1, .EndOfInput]
      ∧ (∀ l, ScanEvent.Recognized l ∉ out.events) ∧ ScanEvent.Rejected ∉ out.events
      ∧ ∀ (fuel : Nat) (input : List Nat), toChar (getchar input).1 = -1 →
          runLoop eofAccepts 0 1 (fuel + 1)
            ⟨cstr "ab", false, 0⟩ input = .ok out.events :=
  eof_is_terminal eofAccepts 0 1
    ⟨cstr "ab", false, 0⟩ (-1) ⟨9, 1, 100⟩ rfl (by decide) (by decide)

theorem classify_other (c : Int) (h : c ≤ -2 ∨ 128 ≤ c) : classify c = .other := by
  rw [classify_chain]
  repeat rw [if_neg (show ¬ _ from by omega)]

theorem charClass_byte (x : Nat) (h : x < 255) :
    charClass (toChar (x : Int)) = (classify (x : Int)).ordinal := by
  rw [charClass_chain]
  by_cases hx : x < 128
  · have : toChar (x : Int) = (x : Int) := by unfold toChar; omega
    rw [this]
  · have : toChar (x : Int) = (x : Int) - 256 := by unfold toChar; omega
    rw [this, classify_other _ (by omega), classify_other _ (by omega)]

/-- C10 (the code at the failing input). Every byte below 255 is classified as
the specification says, but the byte 255 becomes the `char` -1, which
`charClass` takes for the end of input although the specification classifies
255 as other: on the input `a`, 255, `b`, space the scan of the `a+` table stops
at the byte 255 and never reads `b`. -/
theorem byte_255_taken_for_eof :
    (∀ x : Nat, x < 255 → charClass (toChar (x : Int)) = (classify (x : Int)).ordinal)
      ∧ classify 255 = .other
      ∧ charClass (toChar 255) = CC_EOF
      ∧ runMachine aPlus 0 1 [97, 255, 98, 32]
          = .ok [.StateVisited 0, .StateVisited 0, .StateVisited 99, .EndOfInput]
      ∧ runMachine aPlus 0 1 [97, 255, 98, 32] = runMachine aPlus 0 1 [97] :=
  ⟨charClass_byte, by decide, by decide, by decide, by decide⟩

/-! ## Termination of runMachine -/

theorem resetCfg_ok (machine : List state) (start accept : Int)
    (hok : TableOK machine start accept) : CfgOK machine (resetCfg start) :=
  Or.inr hok.1

theorem step_total (machine : List state) (start accept : Int) (cfg : Cfg) (c : Int)
    (hok : TableOK machine start accept) (hcfg : CfgOK machine cfg) :
    ∃ out, step machine start accept cfg c = some out
      ∧ (charClass c = CC_EOF → out.stop = true)
      ∧ (charClass c ≠ CC_EOF → out.stop = false ∧ CfgOK machine out.cfg) := by
  by_cases herr : cfg.errorState = true
  · unfold step
    rw [if_pos herr]
    by_cases hc : charClass c = CC_EOF
    · simp only [if_pos hc]
      exact ⟨_, rfl, fun _ => rfl, fun h => absurd hc h⟩
    · simp only [if_neg hc]
      refine ⟨_, rfl, fun h => absurd h hc, fun _ => ⟨rfl, ?_⟩⟩
      by_cases hb : charClass c = CC_WS ∨ charClass c = CC_NEWLINE
      · simp only [hb, if_true]
        exact resetCfg_ok machine start accept hok
      · simp only [hb, if_false]
        exact Or.inl herr
  · have hq : 0 ≤ cfg.state ∧ cfg.state < machine.length := by
      rcases hcfg with h | h
      · exact absurd h herr
      · exact h
    have hr := charClass_range c
    obtain ⟨tr, htr, s, hs, hmem⟩ := lookup_isSome machine cfg.state (charClass c)
      (fun s hs => (hok.2 s hs).1) hq (by omega)
    have hdest := (hok.2 s hs).2 tr hmem
    unfold step
    rw [if_neg herr]
    simp only [htr]
    by_cases hc : charClass c = CC_EOF
    · simp only [if_pos hc]
      exact ⟨_, rfl, fun _ => rfl, fun h => absurd hc h⟩
    · simp only [if_neg hc]
      by_cases ha : tr.dest = accept
      · simp only [if_pos ha]
        exact ⟨_, rfl, fun h => absurd h hc,
          fun _ => ⟨rfl, resetCfg_ok machine start accept hok⟩⟩
      · simp only [if_neg ha]
        by_cases h99 : tr.dest = 99
        · simp only [if_pos h99]
          exact ⟨_, rfl, fun h => absurd h hc, fun _ => ⟨rfl, Or.inl rfl⟩⟩
        · simp only [if_neg h99]
          refine ⟨_, rfl, fun h => absurd h hc, fun _ => ⟨rfl, Or.inr ?_⟩⟩
          rcases hdest with h | h | h
          · exact absurd h h99
          · exact absurd h ha
          · exact h

theorem eofPos_nil : eofPos [] = 0 := rfl

theorem eofPos_cons_eof (x : Nat) (rest : List Nat) (h : charClass (toChar x) = CC_EOF) :
    eofPos (x :: rest) = 0 := by
  unfold eofPos
  rw [List.takeWhile_cons_of_neg (by simpa using h)]
  rfl

theorem eofPos_cons_ne (x : Nat) (rest : List Nat) (h : charClass (toChar x) ≠ CC_EOF) :
    eofPos (x :: rest) = eofPos rest + 1 := by
  unfold eofPos
  rw [List.takeWhile_cons_of_pos (by simpa using h)]
  rfl

theorem eofPos_le (input : List Nat) : eofPos input ≤ input.length := by
  unfold eofPos
  exact (List.takeWhile_sublist _).length_le

theorem runLoop_total (machine : List state) (start accept : Int)
    (hok : TableOK machine start accept) (input : List Nat) :
    ∀ cfg : Cfg, CfgOK machine cfg →
      ∃ evs, ∀ fuel, eofPos input < fuel →
        runLoop machine start accept fuel cfg input = .ok evs := by
  induction input with
  | nil =>
    intro cfg hcfg
    obtain ⟨out, hstep, hstop, _⟩ := step_total machine start accept cfg (toChar (-1)) hok hcfg
    refine ⟨out.events, ?_⟩
    intro fuel hf
    obtain ⟨f, rfl⟩ : ∃ f, fuel = f + 1 := ⟨fuel - 1, by omega⟩
    rw [runLoop_succ]
    simp only [getchar, hstep, hstop (by decide), if_true]
  | cons x rest ih =>
    intro cfg hcfg
    obtain ⟨out, hstep, hstop, hgo⟩ :=
      step_total machine start accept cfg (toChar (x : Int)) hok hcfg
    by_cases hc : charClass (toChar (x : Int)) = CC_EOF
    · refine ⟨out.events, ?_⟩
      intro fuel hf
      obtain ⟨f, rfl⟩ : ∃ f, fuel = f + 1 := ⟨fuel - 1, by omega⟩
      rw [runLoop_succ]
      simp only [getchar, hstep, hstop hc, if_true]
    · obtain ⟨hns, hcfg2⟩ := hgo hc
      obtain ⟨evs, hevs⟩ := ih out.cfg hcfg2
      refine ⟨out.events ++ evs, ?_⟩
      intro fuel hf
      rw [eofPos_cons_ne x rest hc] at hf
      obtain ⟨f, rfl⟩ : ∃ f, fuel = f + 1 := ⟨fuel - 1, by omega⟩
      rw [runLoop_succ]
      simp only [getchar, hstep, hns, Bool.false_eq_true, if_false]
      rw [hevs f (by omega)]
      rfl

theorem emit_error (evs : List ScanEvent) (e : Fault) : emit evs (.error e) = .error e := rfl

theorem runLoop_short (machine : List state) (start accept : Int)
    (hok : TableOK machine start accept) (input : List Nat) :
    ∀ (cfg : Cfg) (fuel : Nat), CfgOK machine cfg → fuel ≤ eofPos input →
      runLoop machine start accept fuel cfg input = .error .outOfFuel := by
  induction input with
  | nil =>
    intro cfg fuel _ hf
    rw [eofPos_nil] at hf
    obtain rfl : fuel = 0 := by omega
    rfl
  | cons x rest ih =>
    intro cfg fuel hcfg hf
    cases fuel with
    | zero => rfl
    | succ f =>
      by_cases hc : charClass (toChar (x : Int)) = CC_EOF
      · rw [eofPos_cons_eof x rest hc] at hf
        omega
      · rw [eofPos_cons_ne x rest hc] at hf
        obtain ⟨out, hstep, _, hgo⟩ :=
          step_total machine start accept cfg (toChar (x : Int)) hok hcfg
        obtain ⟨hns, hcfg2⟩ := hgo hc
        rw [runLoop_succ]
        simp only [getchar, hstep, hns, Bool.false_eq_true, if_false]
        rw [ih out.cfg f hcfg2 (by omega), emit_error]

/-! ## Resynchronisation -/

theorem step_recovering (machine : List state) (start accept : Int) (cfg : Cfg) (x : Nat)
    (herr : cfg.errorState = true) (hx : inToken x = true) :
    step machine start accept cfg (toChar (x : Int))
      = some { events := [], cfg := cfg, stop := false } := by
  simp only [inToken, decide_eq_true_eq] at hx
  unfold step
  rw [if_pos herr]
  simp only [hx.1, hx.2.1, hx.2.2, or_self, if_false]

theorem step_boundary (machine : List state) (start accept : Int) (cfg : Cfg) (w : Nat)
    (herr : cfg.errorState = true) (hw : isBoundary w = true) :
    step machine start accept cfg (toChar (w : Int))
      = some { events := [], cfg := resetCfg start, stop := false } := by
  simp only [isBoundary, decide_eq_true_eq] at hw
  have hne : charClass (toChar (w : Int)) ≠ CC_EOF := by
    rcases hw with h | h <;> rw [h] <;> decide
  unfold step
  rw [if_pos herr]
  simp only [hw, hne, if_true, if_false]

theorem runLoop_skip (machine : List state) (start accept : Int) (cfg : Cfg)
    (herr : cfg.errorState = true) (r : List Nat) (hr : ∀ y ∈ r, inToken y = true)
    (rest : List Nat) (fuel : Nat) :
    runLoop machine start accept (fuel + r.length) cfg (r ++ rest)
      = runLoop machine start accept fuel cfg rest := by
  induction r with
  | nil => rfl
  | cons y r ih =>
    have hy := hr y (List.mem_cons_self _ _)
    have e : fuel + (y :: r).length = (fuel + r.length) + 1 := by simp; omega
    rw [e, List.cons_append, runLoop_succ]
    simp only [getchar, step_recovering machine start accept cfg y herr hy,
      Bool.false_eq_true, if_false, emit_nil]
    exact ih (fun z hz => hr z (List.mem_cons_of_mem _ hz))

/-- C3 (amended). Let the accept state be different from 99. For every table
and every input `x :: r ++ w :: t` where the first symbol `x` leads from the
start state to 99, no symbol of `x :: r` is a whitespace, a newline or taken for
the end of input, and `w` is a whitespace or a newline: `runMachine` prints the
start state and 99, reports `Rejected` once, prints nothing for `r` and `w`, and
then behaves on `t` exactly as `runMachine` does on `t` alone. -/
theorem resynchronization (machine : List state) (start accept : Int) (x : Nat) (r : List Nat)
    (w : Nat) (t : List Nat) (tr : transition)
    (hacc : accept ≠ 99)
    (hl : lookup machine start (charClass (toChar (x : Int))) = some tr) (hd : tr.dest = 99)
    (hx : inToken x = true) (hr : ∀ y ∈ r, inToken y = true) (hw : isBoundary w = true) :
    runMachine machine start accept (x :: r ++ w :: t)
      = emit [.StateVisited start, .StateVisited 99, .Rejected]
          (runMachine machine start accept t) := by
  have hx2 := hx
  simp only [inToken, decide_eq_true_eq] at hx2
  unfold runMachine
  have e : (x :: r ++ w :: t).length + 1 = ((t.length + 1) + 1 + r.length) + 1 := by
    simp; omega
  rw [e, List.cons_append, runLoop_succ]
  have hstep : step machine start accept (resetCfg start) (toChar (x : Int))
      = some { events := [.StateVisited start, .StateVisited 99, .Rejected],
               cfg := { buf := if tr.action = 115 then [toChar (x : Int)] else [],
                        errorState := true, state := 99 },
               stop := false } := by
    unfold step
    simp only [resetCfg, Bool.false_eq_true, if_false, hl, hx2.2.2, hd, Ne.symm hacc,
      List.length_nil, if_true, List.nil_append, List.cons_append, List.singleton_append]
  simp only [getchar, hstep, Bool.false_eq_true, if_false]
  rw [runLoop_skip machine start accept _ rfl r hr (w :: t) (t.length + 1 + 1), runLoop_succ]
  have hb := step_boundary machine start accept
    { buf := if tr.action = 115 then [toChar (x : Int)] else [], errorState := true, state := 99 }
    w rfl hw
  simp only [getchar, hb, Bool.false_eq_true, if_false, emit_nil]

/-- Witness of C3: the input `"#@# ab\n"` on the `a+` table that also accepts on
a newline. -/
theorem resynchronization_witness :
    runMachine aPlusLines 0 1 (bytes "#@# ab\n")
        = emit [.StateVisited 0, .StateVisited 99, .Rejected]
            (runMachine aPlusLines 0 1 (bytes "ab\n"))
      ∧ runMachine aPlusLines 0 1 (bytes "ab\n")
        = .ok [.StateVisited 0, .StateVisited 0, .StateVisited 0, .StateVisited 1,
            .Recognized (cstr "ab"), .StateVisited 0, .StateVisited 99, .EndOfInput] :=
  ⟨resynchronization aPlusLines 0 1 35 [64, 35] 32 (bytes "ab\n") ⟨10, 99, 100⟩
    (by decide) (by decide) rfl (by decide) (by decide) (by decide), by decide⟩

/-- Counterexample to C3 as stated: in a table of 100 default rows with accept
state 99, the symbol `#` leads from the start state to 99 and is followed by a
whitespace, yet no `Rejected` is reported: reaching 99 is reported as a
recognition, because the accept test comes first. -/
theorem resynchronization_accept_99 :
    lookup (initMachine 100) 0 (charClass (toChar 35)) = some ⟨10, 99, 100⟩
      ∧ inToken 35 = true ∧ isBoundary 32 = true
      ∧ runMachine (initMachine 100) 0 99 (bytes "# ")
          = .ok [.StateVisited 0, .StateVisited 99, .Recognized [],
                 .StateVisited 0, .StateVisited 99, .Recognized [],
                 .StateVisited 0, .StateVisited 99, .EndOfInput]
      ∧ runMachine (initMachine 100) 0 99 (bytes "# ")
          ≠ emit [.StateVisited 0, .StateVisited 99, .Rejected]
              (runMachine (initMachine 100) 0 99 []) := by
  decide

/-! ## Recognition -/

theorem step_scanning (machine : List state) (start accept : Int) (cfg : Cfg) (c : Int)
    (tr : transition) (herr : cfg.errorState = false) (hc : charClass c ≠ CC_EOF)
    (hl : lookup machine cfg.state (charClass c) = some tr) :
    step machine start accept cfg c =
      if tr.dest = accept then
        some { events := (if cfg.buf.length = 0 then [ScanEvent.StateVisited cfg.state] else [])
                  ++ [.StateVisited tr.dest]
                  ++ [.Recognized (printed (if tr.action = 115 then cfg.buf ++ [c] else cfg.buf))],
               cfg := resetCfg start, stop := false }
      else if tr.dest = 99 then
        some { events := (if cfg.buf.length = 0 then [ScanEvent.StateVisited cfg.state] else [])
                  ++ [.StateVisited tr.dest] ++ [.Rejected],
               cfg := { buf := if tr.action = 115 then cfg.buf ++ [c] else cfg.buf,
                        errorState := true, state := tr.dest }, stop := false }
      else
        some { events := (if cfg.buf.length = 0 then [ScanEvent.StateVisited cfg.state] else [])
                  ++ [.StateVisited tr.dest],
               cfg := { buf := if tr.action = 115 then cfg.buf ++ [c] else cfg.buf,
                        errorState := false, state := tr.dest }, stop := false } := by
  unfold step
  simp only [herr, hl, hc, Bool.false_eq_true, if_false]

theorem printed_of_alpha (l : List Int) (h : ∀ y ∈ l, charClass y = CC_ALPHA) : printed l = l := by
  unfold printed
  rw [List.takeWhile_eq_self_iff]
  intro y hy
  have := h y hy
  simp only [decide_eq_true_eq]
  intro h0
  rw [h0] at this
  exact absurd this (by decide)

theorem follow_run (machine : List state) (start accept : Int) (syms : List Nat) :
    ∀ (q : Int) (pending : List Int) (ev : List ScanEvent) (p : List Int) (q1 : Int),
      follow machine accept q pending (syms.map (fun (x : Nat) => toChar (x : Int)))
        = some (ev, p, q1) →
      ∀ (fuel : Nat) (rest : List Nat),
        runLoop machine start accept (fuel + syms.length) ⟨pending, false, q⟩ (syms ++ rest)
          = emit ev (runLoop machine start accept fuel ⟨p, false, q1⟩ rest) := by
  induction syms with
  | nil =>
    intro q pending ev p q1 h fuel rest
    simp only [List.map_nil, follow, Option.some.injEq, Prod.mk.injEq] at h
    obtain ⟨rfl, rfl, rfl⟩ := h
    simp [emit_nil]
  | cons x syms ih =>
    intro q pending ev p q1 h fuel rest
    simp only [List.map_cons, follow] at h
    by_cases hc : charClass (toChar (x : Int)) = CC_EOF
    · simp [hc] at h
    rw [if_neg hc] at h
    cases hl : lookup machine q (charClass (toChar (x : Int))) with
    | none => simp [hl] at h
    | some tr =>
      simp only [hl] at h
      by_cases hd : tr.dest = accept ∨ tr.dest = 99
      · simp [hd] at h
      rw [if_neg hd] at h
      cases hf : follow machine accept tr.dest
          (if tr.action = 115 then pending ++ [toChar (x : Int)] else pending)
          (syms.map (fun (x : Nat) => toChar (x : Int))) with
      | none => simp [hf] at h
      | some res =>
        obtain ⟨ev2, p2, q2⟩ := res
        simp only [hf, Option.some.injEq, Prod.mk.injEq] at h
        obtain ⟨rfl, rfl, rfl⟩ := h
        have e : fuel + (x :: syms).length = (fuel + syms.length) + 1 := by simp; omega
        rw [e, List.cons_append, runLoop_succ]
        have hst := step_scanning machine start accept ⟨pending, false, q⟩ (toChar (x : Int)) tr
          rfl hc hl
        rw [if_neg (fun h => hd (Or.inl h)), if_neg (fun h => hd (Or.inr h))] at hst
        simp only [getchar, hst, Bool.false_eq_true, if_false]
        rw [ih tr.dest _ ev2 p2 q2 hf fuel rest, ← emit_append]
        simp

/-! ## buildMachine: reading a line -/

theorem fgetsAux_line (l : List Int) : ∀ (n : Nat) (rest : List Int), (10 : Int) ∉ l →
    l.length < n → fgetsAux n (l ++ 10 :: rest) = (l ++ [10], rest) := by
  induction l with
  | nil =>
    intro n rest _ hn
    obtain ⟨k, rfl⟩ : ∃ k, n = k + 1 := ⟨n - 1, by simp at hn; omega⟩
    simp [fgetsAux]
  | cons c l ih =>
    intro n rest hnl hn
    obtain ⟨k, rfl⟩ : ∃ k, n = k + 1 := ⟨n - 1, by simp at hn; omega⟩
    have hc : c ≠ 10 := fun h => hnl (by simp [h])
    have hl : (10 : Int) ∉ l := fun h => hnl (List.mem_cons_of_mem _ h)
    have e : fgetsAux (k + 1) (c :: (l ++ 10 :: rest))
        = ((fgetsAux k (l ++ 10 :: rest)).1.cons c, (fgetsAux k (l ++ 10 :: rest)).2) := by
      simp only [fgetsAux, if_neg hc]
    rw [List.cons_append, e, ih k rest hl (by simp at hn; omega)]
    rfl

theorem fgets_line (l rest : List Int) (hnl : (10 : Int) ∉ l) (hlen : l.length ≤ 254) :
    fgets 256 (l ++ 10 :: rest) = some (l ++ [10], rest) := by
  have h := fgetsAux_line l 255 rest hnl (by omega)
  cases l with
  | nil => simp only [fgets, List.nil_append] at h ⊢; rw [h]
  | cons c l => simp only [fgets, List.cons_append] at h ⊢; rw [h]

theorem skipLine_header (l rest : List Int) (h : headerLine l) :
    skipLine (l ++ 10 :: rest) = rest := by
  unfold skipLine
  rw [fgets_line l rest h.1 h.2]

/-! ## buildMachine: the copy loop -/

theorem copyChar_buff (st : CopyState) (c : Int) :
    (copyChar st c).buff = st.buff ++ squeeze st.b [c]
      ∧ (copyChar st c).b = decide (c = 32)
      ∧ (copyChar st c).flag = (st.flag || decide (c = 10)) := by
  unfold copyChar
  by_cases h32 : c = 32
  · have h10 : c ≠ 10 := by omega
    by_cases hb : st.b = true
    · simp [h32, hb, squeeze]
    · simp [h32, hb, squeeze]
  · by_cases h10 : c = 10
    · simp [h10, squeeze]
    · simp [h32, h10, squeeze]

theorem squeeze_cons (b : Bool) (c : Int) (cs : List Int) :
    squeeze b (c :: cs) = squeeze b [c] ++ squeeze (decide (c = 32)) cs := by
  by_cases h32 : c = 32
  · cases b <;> simp [squeeze, h32]
  · simp [squeeze, h32]

theorem foldl_copyChar (l : List Int) : ∀ st : CopyState,
    (l.foldl copyChar st).buff = st.buff ++ squeeze st.b l
      ∧ (l.foldl copyChar st).flag = (st.flag || decide ((10 : Int) ∈ l))
      ∧ (l.foldl copyChar st).b = (match l.getLast? with
          | none => st.b
          | some c => decide (c = 32)) := by
  induction l with
  | nil => intro st; simp [squeeze]
  | cons c cs ih =>
    intro st
    obtain ⟨h1, h2, h3⟩ := copyChar_buff st c
    obtain ⟨i1, i2, i3⟩ := ih (copyChar st c)
    rw [List.foldl_cons]
    refine ⟨?_, ?_, ?_⟩
    · rw [i1, h1, h2, squeeze_cons st.b c cs, List.append_assoc]
    · rw [i2, h3]
      by_cases h10 : c = 10
      · simp [h10]
      · have : ¬ (10 = c) := fun h => h10 h.symm
        simp [h10, this]
    · rw [i3, h2]
      cases cs with
      | nil => simp
      | cons d ds =>
        rw [List.getLast?_cons_cons]
        cases hg : (d :: ds).getLast? with
        | none => simp at hg
        | some x => rfl

theorem strtokFrom_squeeze (l : List Int) : ∀ (b : Bool) (cur : List Int),
    (b = true → cur = []) → strtokFrom cur (squeeze b l) = strtokFrom cur l := by
  induction l with
  | nil => intro b cur _; rfl
  | cons c cs ih =>
    intro b cur hb
    by_cases h32 : c = 32
    · by_cases hbt : b = true
      · have hcur := hb hbt
        subst hcur
        simp only [squeeze, h32, hbt, if_true, strtokFrom]
        exact ih true [] (fun _ => rfl)
      · have hbf : b = false := by simpa using hbt
        simp only [squeeze, h32, hbf, if_true, strtokFrom, Bool.false_eq_true, if_false]
        rw [ih true [] (fun _ => rfl)]
    · simp only [squeeze, h32, if_false, strtokFrom]
      exact ih false (cur ++ [c]) (fun h => absurd h (by simp))

/-! ## buildMachine: the tokens of a row -/

theorem isDigit_ne (c : Int) (h : isDigit c = true) : c ≠ 32 ∧ c ≠ 10 ∧ c ≠ 0 ∧ c ≠ 47 := by
  simp only [isDigit, decide_eq_true_eq] at h
  omega

theorem body_chars (s : SpecText) (h : s.WellFormed) :
    ∀ c ∈ s.body, c ≠ 32 ∧ c ≠ 10 ∧ c ≠ 0 := by
  obtain ⟨⟨_, hcc⟩, _, ⟨_, hdest⟩, _, _, ha32, ha10, ha0⟩ := h
  intro c hc
  simp only [SpecText.body, List.mem_append, List.mem_cons, List.mem_singleton,
    List.not_mem_nil, or_false] at hc
  rcases hc with hc | hc | hc | hc
  · have := isDigit_ne c (hcc c hc); exact ⟨this.1, this.2.1, this.2.2.1⟩
  · subst hc; decide
  · have := isDigit_ne c (hdest c hc); exact ⟨this.1, this.2.1, this.2.2.1⟩
  · subst hc; exact ⟨ha32, ha10, ha0⟩

theorem body_ne_nil (s : SpecText) : s.body ≠ [] := by
  unfold SpecText.body
  simp

theorem strtokFrom_append (t : List Int) : ∀ (cur Y : List Int), (∀ c ∈ t, c ≠ 32) →
    strtokFrom cur (t ++ Y) = strtokFrom (cur ++ t) Y := by
  induction t with
  | nil => intro cur Y _; simp
  | cons c t ih =>
    intro cur Y h
    have hc : c ≠ 32 := h c (List.mem_cons_self _ _)
    rw [List.cons_append]
    simp only [strtokFrom, if_neg hc]
    rw [ih (cur ++ [c]) Y (fun d hd => h d (List.mem_cons_of_mem _ hd))]
    simp

theorem strtokFrom_skip (k : Nat) (Y : List Int) :
    strtokFrom [] (List.replicate k 32 ++ Y) = strtokFrom [] Y := by
  induction k with
  | zero => simp
  | succ k ih =>
    rw [List.replicate_succ, List.cons_append]
    simp only [strtokFrom, if_true]
    exact ih

theorem strtokFrom_gap (cur : List Int) (hcur : cur ≠ []) (k : Nat) (Y : List Int) :
    strtokFrom cur (List.replicate (k + 1) 32 ++ Y) = cur :: strtokFrom [] Y := by
  rw [List.replicate_succ, List.cons_append]
  simp only [strtokFrom, if_true, if_neg hcur]
  rw [strtokFrom_skip]

theorem strtokFrom_specs (specs : List SpecText) : ∀ (cur : List Int), cur ≠ [] →
    (∀ s ∈ specs, s.WellFormed) →
    strtokFrom cur (specsText specs ++ [10]) =
      match specs with
      | [] => [cur ++ [10]]
      | _ :: _ => cur :: specTokens specs := by
  induction specs with
  | nil =>
    intro cur hcur _
    have h10 : ∀ c ∈ [(10 : Int)], c ≠ 32 := by decide
    have := strtokFrom_append [10] cur [] h10
    simp only [List.append_nil] at this
    simp only [specsText, List.nil_append, this, strtokFrom]
    have hne : cur ++ [(10 : Int)] ≠ [] := by simp
    exact if_neg hne
  | cons s ss ih =>
    intro cur hcur hwf
    have hs := hwf s (List.mem_cons_self _ _)
    have hss : ∀ x ∈ ss, x.WellFormed := fun x hx => hwf x (List.mem_cons_of_mem _ hx)
    have hb : ∀ c ∈ s.body, c ≠ 32 := fun c hc => (body_chars s hs c hc).1
    simp only [specsText, SpecText.text, List.append_assoc]
    rw [strtokFrom_gap cur hcur, strtokFrom_append s.body [] _ hb, List.nil_append,
      ih s.body (body_ne_nil s) hss]
    cases ss with
    | nil => rfl
    | cons s2 ss2 => rfl

theorem strtokAll_row (r : RowText) (n : Int) (h : r.WellFormed n) :
    strtokAll r.text = stateToken r :: specTokens r.specs := by
  obtain ⟨⟨hne, hdig⟩, _, hspecs, _⟩ := h
  have hst : ∀ c ∈ r.st, c ≠ 32 := fun c hc => (isDigit_ne c (hdig c hc)).1
  unfold strtokAll RowText.text
  rw [strtokFrom_append r.st [] _ hst, List.nil_append, strtokFrom_specs r.specs r.st hne hspecs]
  unfold stateToken
  cases r.specs with
  | nil => rfl
  | cons s ss => rfl

theorem row_chars (r : RowText) (n : Int) (h : r.WellFormed n) :
    ∀ c ∈ r.st ++ specsText r.specs, c ≠ 10 ∧ c ≠ 0 := by
  obtain ⟨⟨_, hdig⟩, _, hspecs, _⟩ := h
  have key : ∀ specs : List SpecText, (∀ s ∈ specs, s.WellFormed) →
      ∀ c ∈ specsText specs, c ≠ 10 ∧ c ≠ 0 := by
    intro specs
    induction specs with
    | nil => intro _ c hc; simp [specsText] at hc
    | cons s ss ih =>
      intro hwf c hc
      simp only [specsText, SpecText.text, List.mem_append, List.mem_replicate] at hc
      rcases hc with (⟨_, hc⟩ | hc) | hc
      · subst hc; decide
      · exact (body_chars s (hwf s (List.mem_cons_self _ _)) c hc).2
      · exact ih (fun x hx => hwf x (List.mem_cons_of_mem _ hx)) c hc
  intro c hc
  rcases List.mem_append.1 hc with hc | hc
  · have := isDigit_ne c (hdig c hc); exact ⟨this.2.1, this.2.2.1⟩
  · exact key r.specs hspecs c hc

/-! ## buildMachine: the conversions -/

theorem takeWhile_run (ds tail : List Int) (hd : ∀ c ∈ ds, isDigit c = true)
    (ht : endsRun tail) :
    (ds ++ tail).takeWhile isDigit = ds ∧ (ds ++ tail).dropWhile isDigit = tail := by
  induction ds with
  | nil =>
    cases tail with
    | nil => simp
    | cons c t =>
      have : isDigit c = false := ht c (by simp)
      rw [List.nil_append, List.takeWhile_cons_of_neg (by simp [this]),
        List.dropWhile_cons_of_neg (by simp [this])]
      exact ⟨rfl, rfl⟩
  | cons d ds ih =>
    have hd1 : isDigit d = true := hd d (List.mem_cons_self _ _)
    obtain ⟨i1, i2⟩ := ih (fun c hc => hd c (List.mem_cons_of_mem _ hc))
    rw [List.cons_append, List.takeWhile_cons_of_pos hd1, List.dropWhile_cons_of_pos hd1, i1, i2]
    exact ⟨rfl, rfl⟩

theorem strInt_numeral (ds tail : List Int) (hn : isNumeral ds) (hb : decVal ds ≤ 2147483647)
    (ht : endsRun tail) : strInt (ds ++ tail) = decVal ds := by
  obtain ⟨hne, hd⟩ := hn
  have hrun := (takeWhile_run ds tail hd ht).1
  cases ds with
  | nil => exact absurd rfl hne
  | cons d ds =>
    have hd1 : isDigit d = true := hd d (List.mem_cons_self _ _)
    simp only [isDigit, decide_eq_true_eq] at hd1
    have e : strInt (d :: ds ++ tail) = strIntLoop (d :: ds ++ tail) 0 := by
      simp only [List.cons_append, strInt]
      rw [if_neg (by omega)]
    rw [e, strIntLoop_eq (d :: ds ++ tail) 0 (le_refl 0) (by rw [hrun]; omega), hrun]
    omega

theorem clampLong_of_range (x : Int) (h0 : 0 ≤ x) (h1 : x ≤ 2147483647) : clampLong x = x := by
  unfold clampLong
  rw [if_neg (by omega), if_neg (by omega)]

theorem scanInt_numeral (ds tail : List Int) (hn : isNumeral ds) (hb : decVal ds ≤ 2147483647)
    (ht : endsRun tail) : scanInt (ds ++ tail) = some (decVal ds, tail) := by
  obtain ⟨hne, hd⟩ := hn
  obtain ⟨h1, h2⟩ := takeWhile_run ds tail hd ht
  have hnn := decVal_nonneg ds hd
  cases ds with
  | nil => exact absurd rfl hne
  | cons d ds =>
    have hd1 : isDigit d = true := hd d (List.mem_cons_self _ _)
    simp only [isDigit, decide_eq_true_eq] at hd1
    have hsp : isspace d = false := by
      simp only [isspace, decide_eq_false_iff_not]
      omega
    have hdrop : (d :: ds ++ tail).dropWhile isspace = d :: ds ++ tail := by
      rw [List.cons_append, List.dropWhile_cons_of_neg (by simp [hsp])]
    unfold scanInt
    simp only [hdrop]
    simp only [List.cons_append, if_neg (show ¬ d = 45 by omega), if_neg (show ¬ d = 43 by omega)]
    rw [List.cons_append] at h1 h2
    simp only [h1, h2, one_mul]
    rw [if_neg (by simp), clampLong_of_range _ hnn hb, wrapInt_of_range _ hnn hb]

theorem sscanf_body (s : SpecText) (h : s.WellFormed) (tail : List Int) (v : transition) :
    sscanf (s.body ++ tail) v = s.value := by
  obtain ⟨hcc, hccb, hdest, hdestb, hact, _, _, _⟩ := h
  have e1 : s.body ++ tail = s.cc ++ (47 :: (s.dest ++ (s.action :: tail))) := by
    simp [SpecText.body]
  have t1 : endsRun (47 :: (s.dest ++ (s.action :: tail))) := by
    intro c hc
    simp only [List.head?_cons, Option.mem_def, Option.some.injEq] at hc
    subst hc
    decide
  have t2 : endsRun (s.action :: tail) := by
    intro c hc
    simp only [List.head?_cons, Option.mem_def, Option.some.injEq] at hc
    subst hc
    exact hact
  unfold sscanf
  rw [e1, scanInt_numeral s.cc _ hcc (by omega) t1]
  simp only [ne_eq, not_true_eq_false, if_false]
  rw [scanInt_numeral s.dest _ hdest hdestb t2]
  rfl

theorem sscanf_specTokens (specs : List SpecText) (hwf : ∀ s ∈ specs, s.WellFormed) :
    List.Forall₂ (fun tok s => ∀ v, sscanf tok v = SpecText.value s) (specTokens specs) specs := by
  induction specs with
  | nil => exact List.Forall₂.nil
  | cons s ss ih =>
    have hs := hwf s (List.mem_cons_self _ _)
    have hss : ∀ x ∈ ss, x.WellFormed := fun x hx => hwf x (List.mem_cons_of_mem _ hx)
    cases ss with
    | nil =>
      exact List.Forall₂.cons (fun v => sscanf_body s hs [10] v) List.Forall₂.nil
    | cons s2 ss2 =>
      refine List.Forall₂.cons (fun v => ?_) (ih hss)
      have := sscanf_body s hs [] v
      rwa [List.append_nil] at this

theorem strInt_stateToken (r : RowText) (n : Int) (hn : n ≤ 2147483647) (h : r.WellFormed n) :
    strInt (stateToken r) = decVal r.st := by
  obtain ⟨hnum, hlt, _, _⟩ := h
  unfold stateToken
  cases r.specs with
  | nil =>
    refine strInt_numeral r.st [10] hnum (by omega) ?_
    intro c hc
    simp only [List.head?_cons, Option.mem_def, Option.some.injEq] at hc
    subst hc
    decide
  | cons s ss =>
    have := strInt_numeral r.st [] hnum (by omega) (by intro c hc; simp at hc)
    rwa [List.append_nil] at this

/-! ## buildMachine: writes into the table -/

theorem setEntry_some (machine : List state) (q : Int) (v : transition)
    (hq : 0 ≤ q ∧ q < machine.length) (hc : 0 ≤ v.cc ∧ v.cc < 12) :
    ∃ s, machine[q.toNat]? = some s
      ∧ setEntry machine q v
          = some (machine.set q.toNat { state := q, t := s.t.set v.cc.toNat v }) := by
  have hq2 : q.toNat < machine.length := by omega
  refine ⟨machine[q.toNat], List.getElem?_eq_getElem hq2, ?_⟩
  unfold setEntry
  rw [if_neg (by omega), List.getElem?_eq_getElem hq2]

theorem lookup_set (machine : List state) (q : Int) (v : transition) (s : state)
    (hq : 0 ≤ q ∧ q < machine.length) (hc : 0 ≤ v.cc ∧ v.cc < 12)
    (hs : machine[q.toNat]? = some s) (hlen : s.t.length = 12) (q1 c1 : Int) :
    lookup (machine.set q.toNat { state := q, t := s.t.set v.cc.toNat v }) q1 c1
      = if q1 = q ∧ c1 = v.cc then some v else lookup machine q1 c1 := by
  have hq2 : q.toNat < machine.length := by omega
  by_cases hneg : q1 < 0 ∨ c1 < 0
  · unfold lookup
    rw [if_pos hneg, if_pos hneg, if_neg (by omega)]
  · unfold lookup
    rw [if_neg hneg, if_neg hneg]
    by_cases hqq : q1 = q
    · subst hqq
      rw [List.getElem?_set_self hq2, hs]
      by_cases hcc : c1 = v.cc
      · subst hcc
        rw [if_pos ⟨rfl, rfl⟩]
        exact List.getElem?_set_self (by omega)
      · rw [if_neg (fun h => hcc h.2)]
        exact List.getElem?_set_ne (by omega)
    · rw [if_neg (fun h => hqq h.1), List.getElem?_set_ne (by omega)]

theorem shape_set (machine : List state) (q : Int) (v : transition) (s : state)
    (hs : machine[q.toNat]? = some s) (hshape : Shape machine) :
    Shape (machine.set q.toNat { state := q, t := s.t.set v.cc.toNat v }) := by
  intro x hx
  rcases List.mem_or_eq_of_mem_set hx with h | h
  · exact hshape x h
  · subst h
    rw [List.length_set]
    exact hshape s (List.getElem?_mem hs)

theorem getLast?_or_cons (a : transition) (l : List transition) (d : Option transition) :
    ((a :: l).getLast?).or d = (l.getLast?).or (some a) := by
  cases l with
  | nil => rfl
  | cons b l =>
    rw [List.getLast?_cons_cons]
    cases h : (b :: l).getLast? with
    | none => simp at h
    | some x => rfl

theorem lookup_writeAll (es : List (Int × transition)) : ∀ (machine : List state),
    Shape machine → InBounds es machine.length → ∀ (q c : Int),
    lookup (writeAll es machine) q c
      = (((es.filter (fun e => decide (e.1 = q ∧ e.2.cc = c))).map (fun e => e.2)).getLast?).or
          (lookup machine q c) := by
  induction es with
  | nil =>
    intro machine _ _ q c
    cases h : lookup machine q c <;> simp [writeAll, h]
  | cons e es ih =>
    intro machine hshape hin q c
    obtain ⟨h1, h2, h3, h4⟩ := hin e (List.mem_cons_self _ _)
    obtain ⟨s, hs, hset⟩ := setEntry_some machine e.1 e.2 ⟨h1, h2⟩ ⟨h3, h4⟩
    have hlen := hshape s (List.getElem?_mem hs)
    simp only [writeAll, hset]
    rw [ih _ (shape_set machine e.1 e.2 s hs hshape)
      (by rw [List.length_set]; exact fun x hx => hin x (List.mem_cons_of_mem _ hx)) q c,
      lookup_set machine e.1 e.2 s ⟨h1, h2⟩ ⟨h3, h4⟩ hs hlen q c]
    by_cases hm : e.1 = q ∧ e.2.cc = c
    · have hm2 : q = e.1 ∧ c = e.2.cc := ⟨hm.1.symm, hm.2.symm⟩
      rw [if_pos hm2, List.filter_cons_of_pos (by simpa using hm), List.map_cons,
        getLast?_or_cons]
    · have hm2 : ¬ (q = e.1 ∧ c = e.2.cc) := fun h => hm ⟨h.1.symm, h.2.symm⟩
      rw [if_neg hm2, List.filter_cons_of_neg (by simpa using hm)]

theorem writeAll_append (es1 es2 : List (Int × transition)) : ∀ machine : List state,
    writeAll (es1 ++ es2) machine = writeAll es2 (writeAll es1 machine) := by
  induction es1 with
  | nil => intro machine; rfl
  | cons e es ih =>
    intro machine
    simp only [List.cons_append, writeAll]
    cases setEntry machine e.1 e.2 with
    | none => exact ih machine
    | some m1 => exact ih m1

theorem writeAll_length (es : List (Int × transition)) : ∀ machine : List state,
    (writeAll es machine).length = machine.length := by
  induction es with
  | nil => intro machine; rfl
  | cons e es ih =>
    intro machine
    simp only [writeAll]
    cases h : setEntry machine e.1 e.2 with
    | none => exact ih machine
    | some m1 =>
      simp only []
      rw [ih m1]
      unfold setEntry at h
      split at h
      · exact absurd h (by simp)
      · split at h
        · exact absurd h (by simp)
        · simp only [Option.some.injEq] at h
          rw [← h, List.length_set]

theorem applySpecs_writeAll (q : Int) (toks : List (List Int)) (specs : List SpecText)
    (hrel : List.Forall₂ (fun tok s => ∀ v, sscanf tok v = SpecText.value s) toks specs) :
    ∀ (machine : List state) (v : transition),
      InBounds (specs.map (fun (s : SpecText) => (q, s.value))) machine.length →
      ∃ v1, applySpecs q toks machine v
        = .ok (writeAll (specs.map (fun (s : SpecText) => (q, s.value))) machine, v1) := by
  induction hrel with
  | nil => intro machine v _; exact ⟨v, rfl⟩
  | @cons tok s toks specs hts _ ih =>
    intro machine v hin
    obtain ⟨h1, h2, h3, h4⟩ := hin (q, s.value) (by simp)
    obtain ⟨st, _, hset⟩ := setEntry_some machine q s.value ⟨h1, h2⟩ ⟨h3, h4⟩
    simp only [applySpecs, hts v, hset, List.map_cons, writeAll]
    exact ih _ _ (by rw [List.length_set]; exact fun x hx => hin x (by simp at hx ⊢; exact Or.inr hx))

/-! ## buildMachine: the loop over the rows -/

theorem row_text_eq (r : RowText) : r.text = (r.st ++ specsText r.specs) ++ [10] := by
  simp [RowText.text]

theorem fgets_row (r : RowText) (n : Int) (h : r.WellFormed n) (rest : List Int) :
    fgets 256 (r.text ++ rest) = some (r.text, rest) := by
  have hch := row_chars r n h
  have hlen := h.2.2.2
  rw [row_text_eq] at hlen ⊢
  rw [List.append_assoc, List.singleton_append]
  refine fgets_line _ rest (fun hmem => (hch 10 hmem).1 rfl) ?_
  rw [List.length_append] at hlen
  simp only [List.length_singleton] at hlen
  omega

theorem copyLine_row (r : RowText) (n : Int) (h : r.WellFormed n) :
    copyLine false [] r.text = { b := false, buff := squeeze false r.text, flag := true } := by
  have hch := row_chars r n h
  have hnz : r.text.takeWhile (fun x => decide (x ≠ 0)) = r.text := by
    rw [List.takeWhile_eq_self_iff, row_text_eq]
    intro c hc
    rcases List.mem_append.1 hc with hc | hc
    · simpa using (hch c hc).2
    · simp only [List.mem_singleton] at hc
      subst hc
      decide
  obtain ⟨f1, f2, f3⟩ := foldl_copyChar r.text { b := false, buff := [], flag := false }
  have hlast : r.text.getLast? = some 10 := by
    rw [row_text_eq]
    exact List.getLast?_concat _
  have hmem : (10 : Int) ∈ r.text := by
    rw [row_text_eq]
    simp
  unfold copyLine
  rw [hnz]
  rw [hlast] at f3
  simp only [List.nil_append, Bool.false_or, hmem, decide_True] at f1 f2 f3
  have f3b : (List.foldl copyChar { b := false, buff := [], flag := false } r.text).b = false := by
    rw [f3]; decide
  cases hx : List.foldl copyChar { b := false, buff := [], flag := false } r.text with
  | mk b buff flag =>
    rw [hx] at f1 f2 f3b
    simp only at f1 f2 f3b
    rw [f1, f2, f3b]

theorem row_inBounds (r : RowText) (n : Int) (h : r.WellFormed n) (len : Nat)
    (hlen : n ≤ (len : Int)) :
    InBounds (r.specs.map (fun (s : SpecText) => (decVal r.st, s.value))) len := by
  obtain ⟨⟨_, hdig⟩, hlt, hspecs, _⟩ := h
  intro e he
  simp only [List.mem_map] at he
  obtain ⟨s, hs, rfl⟩ := he
  obtain ⟨⟨_, hcc⟩, hccb, _⟩ := hspecs s hs
  have h1 := decVal_nonneg r.st hdig
  have h2 := decVal_nonneg s.cc hcc
  exact ⟨h1, by omega, h2, hccb⟩

theorem processRow_row (r : RowText) (n : Int) (hn : n ≤ 2147483647) (h : r.WellFormed n)
    (machine : List state) (v : transition) (hlen : n ≤ (machine.length : Int)) :
    ∃ v1, processRow (squeeze false r.text) machine v
      = .ok (writeAll (r.specs.map (fun (s : SpecText) => (decVal r.st, s.value))) machine, v1) := by
  have htok : strtokAll (squeeze false r.text) = stateToken r :: specTokens r.specs := by
    rw [← strtokAll_row r n h]
    exact strtokFrom_squeeze r.text false [] (fun hb => absurd hb (by decide))
  unfold processRow
  simp only [htok]
  rw [strInt_stateToken r n hn h]
  exact applySpecs_writeAll (decVal r.st) (specTokens r.specs) r.specs
    (sscanf_specTokens r.specs h.2.2.1) machine v (row_inBounds r n h machine.length hlen)

theorem buildLoop_rows (n : Int) (hn : n ≤ 2147483647) (rows : List RowText) :
    ∀ (st : BuildState) (fuel : Nat), (∀ r ∈ rows, r.WellFormed n) → st.b = false →
      st.buff = [] → n ≤ (st.machine.length : Int) → rows.length < fuel →
      buildLoop fuel (rowsText rows) st = .ok (writeAll (entriesOf rows) st.machine) := by
  induction rows with
  | nil =>
    intro st fuel _ _ _ _ hf
    obtain ⟨f, rfl⟩ : ∃ f, fuel = f + 1 := ⟨fuel - 1, by omega⟩
    rfl
  | cons r rs ih =>
    intro st fuel hwf hb hbuff hlen hf
    obtain ⟨f, rfl⟩ : ∃ f, fuel = f + 1 := ⟨fuel - 1, by omega⟩
    have hr := hwf r (List.mem_cons_self _ _)
    obtain ⟨v1, hproc⟩ := processRow_row r n hn hr st.machine st.v hlen
    simp only [rowsText, buildLoop, fgets_row r n hr, hb, hbuff, copyLine_row r n hr, if_true,
      hproc, entriesOf]
    rw [writeAll_append]
    refine ih _ f (fun x hx => hwf x (List.mem_cons_of_mem _ hx)) rfl rfl ?_
      (by simp at hf; omega)
    simp only [writeAll_length]
    exact hlen

theorem initMachine_length (n : Int) : n ≤ ((initMachine n).length : Int) := by
  simp only [initMachine, List.length_map, List.length_range]
  omega

theorem rowsText_length (rows : List RowText) : rows.length ≤ (rowsText rows).length := by
  induction rows with
  | nil => simp [rowsText]
  | cons r rs ih =>
    simp only [rowsText, List.length_cons, List.length_append, row_text_eq, List.length_singleton]
    omega

theorem buildMachine_wellFormed (d : Description) (n : Int) (junk : transition)
    (h : d.WellFormed n) :
    buildMachine d.text n junk = .ok (writeAll (entriesOf d.rows) (initMachine n)) := by
  obtain ⟨hn, h1, h2, h3, hrows⟩ := h
  unfold buildMachine Description.text
  rw [skipLine_header d.line1 _ h1, skipLine_header d.line2 _ h2, skipLine_header d.line3 _ h3]
  exact buildLoop_rows n hn d.rows _ _ hrows rfl rfl (initMachine_length n)
    (Nat.lt_succ_of_le (rowsText_length d.rows))

theorem initMachine_shape (n : Int) : Shape (initMachine n) := by
  intro s hs
  simp only [initMachine, List.mem_map] at hs
  obtain ⟨i, _, rfl⟩ := hs
  rfl

theorem lookup_initMachine (n q c : Int) (hq : 0 ≤ q ∧ q < n) (hc : 0 ≤ c ∧ c < 12) :
    lookup (initMachine n) q c = some { cc := c, dest := 99, action := 100 } := by
  have hq2 : q.toNat < n.toNat := by omega
  have hc2 : c.toNat < 12 := by omega
  unfold lookup
  rw [if_neg (by omega)]
  simp only [initMachine, List.getElem?_map, List.getElem?_range hq2, Option.map_some',
    defaultRow, List.getElem?_range hc2]
  have : ((c.toNat : Nat) : Int) = c := Int.toNat_of_nonneg hc.1
  rw [this]

theorem entries_inBounds (rows : List RowText) (n : Int) (hwf : ∀ r ∈ rows, r.WellFormed n)
    (len : Nat) (hlen : n ≤ (len : Int)) : InBounds (entriesOf rows) len := by
  induction rows with
  | nil => intro e he; simp [entriesOf] at he
  | cons r rs ih =>
    intro e he
    simp only [entriesOf, List.mem_append] at he
    rcases he with he | he
    · exact row_inBounds r n (hwf r (List.mem_cons_self _ _)) len hlen e he
    · exact ih (fun x hx => hwf x (List.mem_cons_of_mem _ hx)) e he

theorem lookup_built (d : Description) (n : Int) (h : d.WellFormed n) (q c : Int) :
    lookup (writeAll (entriesOf d.rows) (initMachine n)) q c
      = ((d.specsFor q c).getLast?).or (lookup (initMachine n) q c) :=
  lookup_writeAll (entriesOf d.rows) (initMachine n) (initMachine_shape n)
    (entries_inBounds d.rows n h.2.2.2.2 _ (initMachine_length n)) q c

/-- C5. For every well-formed description and every number of states `n`, the
table `buildMachine` produces has, for every state `q < n` and class `c < 12`
that no spec of the description names, destination 99 and action `'d'`. -/
theorem table_defaulting (d : Description) (n : Int) (junk : transition) (q c : Int)
    (h : d.WellFormed n) (hq : 0 ≤ q ∧ q < n) (hc : 0 ≤ c ∧ c < 12)
    (hnone : d.specsFor q c = []) :
    ∃ machine, buildMachine d.text n junk = .ok machine
      ∧ lookup machine q c = some { cc := c, dest := 99, action := 100 } := by
  refine ⟨_, buildMachine_wellFormed d n junk h, ?_⟩
  rw [lookup_built d n h q c, hnone, lookup_initMachine n q c hq hc]
  rfl

/-- Witness of C5: in the description of the `a+` table no spec names state 1
and class 2. -/
theorem table_defaulting_witness :
    ∃ machine, buildMachine aPlusDescription.text 2 ⟨7, 7, 7⟩ = .ok machine
      ∧ lookup machine 1 2 = some { cc := 2, dest := 99, action := 100 } :=
  table_defaulting aPlusDescription 2 ⟨7, 7, 7⟩ 1 2 (by decide) (by decide) (by decide)
    (by decide)

/-- C6. For every well-formed description in which one spec or more (on one
line or on several) name the pair `(q, c)`, the table `buildMachine` produces
holds for that pair the destination and the action of the last of them in the
order of the text. -/
theorem override_order (d : Description) (n : Int) (junk : transition) (q c : Int)
    (tr : transition) (h : d.WellFormed n) (hlast : (d.specsFor q c).getLast? = some tr) :
    ∃ machine, buildMachine d.text n junk = .ok machine ∧ lookup machine q c = some tr := by
  refine ⟨_, buildMachine_wellFormed d n junk h, ?_⟩
  rw [lookup_built d n h q c, hlast]
  rfl

/-- Witness of C6: the description of the `a+` table names state 0 and class 0
on its first row (destination 0) and again on its third row (destination 1);
the table holds the latter. -/
theorem override_order_witness :
    aPlusDescription.specsFor 0 0 = [⟨0, 0, 100⟩, ⟨0, 1, 100⟩]
      ∧ ∃ machine, buildMachine aPlusDescription.text 2 ⟨7, 7, 7⟩ = .ok machine
          ∧ lookup machine 0 0 = some ⟨0, 1, 100⟩ :=
  ⟨by decide, override_order aPlusDescription 2 ⟨7, 7, 7⟩ 0 0 ⟨0, 1, 100⟩ (by decide) (by decide)⟩

/-! ## The scanning step -/

theorem step_shape (machine : List state) (start accept : Int) (cfg : Cfg) (c : Int)
    (tr : transition) (herr : cfg.errorState = false)
    (hl : lookup machine cfg.state (charClass c) = some tr) :
    ∃ out rest, step machine start accept cfg c = some out
      ∧ out.events = (if cfg.buf.length = 0 then [ScanEvent.StateVisited cfg.state] else [])
          ++ [ScanEvent.StateVisited tr.dest] ++ rest
      ∧ (∀ q, ScanEvent.StateVisited q ∉ rest)
      ∧ ((out.cfg.buf = (if tr.action = 115 then cfg.buf ++ [c] else cfg.buf)
            ∧ out.cfg.state = tr.dest)
          ∨ (tr.dest = accept ∧ charClass c ≠ CC_EOF
            ∧ rest = [ScanEvent.Recognized
                (printed (if tr.action = 115 then cfg.buf ++ [c] else cfg.buf))]
            ∧ out.cfg = resetCfg start)) := by
  by_cases hc : charClass c = CC_EOF
  · rw [hc] at hl
    exact ⟨_, [.EndOfInput], step_eof machine start accept cfg c tr herr hc hl, rfl,
      by simp, Or.inl ⟨rfl, rfl⟩⟩
  · have hst := step_scanning machine start accept cfg c tr herr hc hl
    by_cases ha : tr.dest = accept
    · rw [if_pos ha] at hst
      exact ⟨_, _, hst, rfl, by simp, Or.inr ⟨ha, hc, rfl, rfl⟩⟩
    · rw [if_neg ha] at hst
      by_cases h99 : tr.dest = 99
      · rw [if_pos h99] at hst
        exact ⟨_, [.Rejected], hst, rfl, by simp, Or.inl ⟨rfl, rfl⟩⟩
      · rw [if_neg h99] at hst
        exact ⟨_, [], hst, by simp, by simp, Or.inl ⟨rfl, rfl⟩⟩

/-! ## The end of the input in error recovery -/

theorem stopCfg_succ (machine : List state) (start accept : Int) (fuel : Nat) (cfg : Cfg)
    (input : List Nat) :
    stopCfg machine start accept (fuel + 1) cfg input =
      match step machine start accept cfg (toChar (getchar input).1) with
      | none => none
      | some out =>
        if out.stop then some cfg
        else stopCfg machine start accept fuel out.cfg (getchar input).2 := rfl

theorem step_stop_events (machine : List state) (start accept : Int) (cfg : Cfg) (c : Int)
    (out : StepOut) (h : step machine start accept cfg c = some out) (hs : out.stop = true) :
    (cfg.errorState = false → out.events.getLast? = some ScanEvent.EndOfInput)
      ∧ (cfg.errorState = true → out.events = []) := by
  unfold step at h
  by_cases herr : cfg.errorState = true
  · rw [if_pos herr] at h
    refine ⟨fun hf => absurd herr (by simp [hf]), fun _ => ?_⟩
    by_cases hc : charClass c = CC_EOF
    · simp only [if_pos hc, Option.some.injEq] at h
      rw [← h]
    · simp only [if_neg hc, Option.some.injEq] at h
      rw [← h] at hs
      exact absurd hs (by simp)
  · rw [if_neg herr] at h
    refine ⟨fun _ => ?_, fun ht => absurd ht herr⟩
    cases hl : lookup machine cfg.state (charClass c) with
    | none => simp [hl] at h
    | some tr =>
      simp only [hl] at h
      by_cases hc : charClass c = CC_EOF
      · simp only [if_pos hc, Option.some.injEq] at h
        rw [← h]
        simp
      · simp only [if_neg hc] at h
        split_ifs at h <;> simp only [Option.some.injEq] at h <;> rw [← h] at hs <;>
          exact absurd hs (by simp)

theorem step_go_events (machine : List state) (start accept : Int) (cfg : Cfg) (c : Int)
    (out : StepOut) (h : step machine start accept cfg c = some out) (hs : out.stop = false) :
    ScanEvent.EndOfInput ∉ out.events
      ∧ (cfg.errorState = true → out.events = [])
      ∧ (out.cfg.errorState = true →
          (cfg.errorState = true ∧ out.events = [])
            ∨ out.events.getLast? = some ScanEvent.Rejected) := by
  unfold step at h
  by_cases herr : cfg.errorState = true
  · rw [if_pos herr] at h
    by_cases hc : charClass c = CC_EOF
    · simp only [if_pos hc, Option.some.injEq] at h
      rw [← h] at hs
      exact absurd hs (by simp)
    · simp only [if_neg hc, Option.some.injEq] at h
      rw [← h]
      exact ⟨by simp, fun _ => rfl, fun _ => Or.inl ⟨herr, rfl⟩⟩
  · rw [if_neg herr] at h
    cases hl : lookup machine cfg.state (charClass c) with
    | none => simp [hl] at h
    | some tr =>
      simp only [hl] at h
      by_cases hc : charClass c = CC_EOF
      · simp only [if_pos hc, Option.some.injEq] at h
        rw [← h] at hs
        exact absurd hs (by simp)
      · simp only [if_neg hc] at h
        by_cases ha : tr.dest = accept
        · simp only [if_pos ha, Option.some.injEq] at h
          rw [← h]
          refine ⟨?_, fun ht => absurd ht herr, fun ht => ?_⟩
          · by_cases hb : cfg.buf.length = 0 <;> simp [hb]
          · simp [resetCfg] at ht
        · simp only [if_neg ha] at h
          by_cases h99 : tr.dest = 99
          · simp only [if_pos h99, Option.some.injEq] at h
            rw [← h]
            refine ⟨?_, fun ht => absurd ht herr, fun _ => Or.inr ?_⟩
            · by_cases hb : cfg.buf.length = 0 <;> simp [hb]
            · simp
          · simp only [if_neg h99, Option.some.injEq] at h
            rw [← h]
            refine ⟨?_, fun ht => absurd ht herr, fun ht => ?_⟩
            · by_cases hb : cfg.buf.length = 0 <;> simp [hb]
            · simp at ht

theorem runLoop_last_event (machine : List state) (start accept : Int) :
    ∀ (fuel : Nat) (cfg : Cfg) (input : List Nat) (evs : List ScanEvent) (k : Cfg),
      runLoop machine start accept fuel cfg input = .ok evs →
      stopCfg machine start accept fuel cfg input = some k →
      (k.errorState = false → evs.getLast? = some ScanEvent.EndOfInput)
        ∧ (k.errorState = true → ScanEvent.EndOfInput ∉ evs
            ∧ ((cfg.errorState = true ∧ evs = [])
                ∨ evs.getLast? = some ScanEvent.Rejected)) := by
  intro fuel
  induction fuel with
  | zero => intro cfg input evs k h; simp [runLoop] at h
  | succ f ih =>
    intro cfg input evs k h hk
    rw [runLoop_succ] at h
    rw [stopCfg_succ] at hk
    cases hst : step machine start accept cfg (toChar (getchar input).1) with
    | none => simp [hst] at h
    | some out =>
      simp only [hst] at h hk
      by_cases hs : out.stop = true
      · simp only [hs, if_true, Except.ok.injEq, Option.some.injEq] at h hk
        subst h hk
        obtain ⟨h1, h2⟩ := step_stop_events machine start accept cfg _ out hst hs
        refine ⟨h1, fun ht => ?_⟩
        rw [h2 ht]
        exact ⟨by simp, Or.inl ⟨ht, rfl⟩⟩
      · have hs2 : out.stop = false := by simpa using hs
        simp only [hs2, Bool.false_eq_true, if_false] at h hk
        cases hr : runLoop machine start accept f out.cfg (getchar input).2 with
        | error e => simp [hr, emit] at h
        | ok evs2 =>
          simp only [hr, emit, Except.ok.injEq] at h
          subst h
          obtain ⟨g1, g2, g3⟩ := step_go_events machine start accept cfg _ out hst hs2
          obtain ⟨i1, i2⟩ := ih out.cfg _ evs2 k hr hk
          refine ⟨fun hf => ?_, fun ht => ?_⟩
          · have := i1 hf
            have hne : evs2 ≠ [] := by
              intro h0
              rw [h0] at this
              simp at this
            rw [List.getLast?_append_of_ne_nil _ hne]
            exact this
          · obtain ⟨j1, j2⟩ := i2 ht
            refine ⟨by simp [g1, j1], ?_⟩
            rcases j2 with ⟨jc, je⟩ | j2
            · subst je
              rw [List.append_nil]
              rcases g3 jc with ⟨gc, ge⟩ | g3
              · exact Or.inl ⟨gc, ge⟩
              · exact Or.inr g3
            · have hne : evs2 ≠ [] := by
                intro h0
                rw [h0] at j2
                simp at j2
              rw [List.getLast?_append_of_ne_nil _ hne]
              exact Or.inr j2

/-- C18. (1) An iteration in error recovery that reads a symbol of the
end-of-input class prints nothing and leaves the loop. (2) For every run of
`runMachine` that returns: when the scanner is in error recovery at the
iteration that leaves the loop, the trace has no `EndOfInput` and its last event
is `Rejected`; and the trace ends with `EndOfInput` if and only if the scanner
is not in error recovery at that iteration. -/
theorem eof_in_recovery (machine : List state) (start accept : Int) :
    (∀ (cfg : Cfg) (c : Int), cfg.errorState = true → charClass c = CC_EOF →
      step machine start accept cfg c
        = some { events := [], cfg := resetCfg start, stop := true })
    ∧ ∀ (input : List Nat) (evs : List ScanEvent) (k : Cfg),
        runMachine machine start accept input = .ok evs →
        stopCfg machine start accept (input.length + 1) (resetCfg start) input = some k →
        (k.errorState = true →
          evs.getLast? = some ScanEvent.Rejected ∧ ScanEvent.EndOfInput ∉ evs)
        ∧ (evs.getLast? = some ScanEvent.EndOfInput ↔ k.errorState = false) := by
  refine ⟨?_, ?_⟩
  · intro cfg c herr hc
    unfold step
    rw [if_pos herr]
    simp only [if_pos hc]
  · intro input evs k h hk
    unfold runMachine at h
    obtain ⟨h1, h2⟩ := runLoop_last_event machine start accept _ _ input evs k h hk
    have hrec : k.errorState = true →
        evs.getLast? = some ScanEvent.Rejected ∧ ScanEvent.EndOfInput ∉ evs := by
      intro ht
      obtain ⟨j1, j2⟩ := h2 ht
      rcases j2 with ⟨jc, _⟩ | j2
      · simp [resetCfg] at jc
      · exact ⟨j2, j1⟩
    refine ⟨hrec, ?_, h1⟩
    intro hlast
    by_contra hne
    have ht : k.errorState = true := by simpa using hne
    rw [(hrec ht).1] at hlast
    simp at hlast

/-- Witness of C18: on `"a #x"` the `a+` table rejects `#` and the input ends
in error recovery; the trace ends with `Rejected`. -/
theorem eof_in_recovery_witness :
    runMachine aPlus 0 1 (bytes "a #x")
        = .ok [.StateVisited 0, .StateVisited 0, .StateVisited 1, .Recognized (cstr "a"),
               .StateVisited 0, .StateVisited 99, .Rejected]
      ∧ ([ScanEvent.StateVisited 0, .StateVisited 0, .StateVisited 1, .Recognized (cstr "a"),
            .StateVisited 0, .StateVisited 99, .Rejected].getLast? = some ScanEvent.Rejected
          ∧ ScanEvent.EndOfInput ∉ [ScanEvent.StateVisited 0, .StateVisited 0, .StateVisited 1,
            .Recognized (cstr "a"), .StateVisited 0, .StateVisited 99, .Rejected]) :=
  ⟨by decide,
    ((eof_in_recovery aPlus 0 1).2 (bytes "a #x") _ ⟨[], true, 99⟩ (by decide) (by decide)).1
      rfl⟩

/-! ## A rejecting whitespace -/

theorem step_rejecting (machine : List state) (start accept : Int) (cfg : Cfg) (w : Nat)
    (tr : transition) (hacc : accept ≠ 99) (herr : cfg.errorState = false)
    (hw : isBoundary w = true)
    (hl : lookup machine cfg.state (charClass (toChar (w : Int))) = some tr)
    (hd : tr.dest = 99) :
    step machine start accept cfg (toChar (w : Int))
      = some { events := (if cfg.buf.length = 0 then [ScanEvent.StateVisited cfg.state] else [])
                  ++ [.StateVisited 99] ++ [.Rejected],
               cfg := { buf := if tr.action = 115 then cfg.buf ++ [toChar (w : Int)] else cfg.buf,
                        errorState := true, state := 99 }, stop := false } := by
  simp only [isBoundary, decide_eq_true_eq] at hw
  have hne : charClass (toChar (w : Int)) ≠ CC_EOF := by
    rcases hw with h | h <;> rw [h] <;> decide
  have hst := step_scanning machine start accept cfg (toChar (w : Int)) tr herr hne hl
  rw [if_neg (by rw [hd]; exact fun h => hacc h.symm), if_pos hd, hd] at hst
  exact hst

theorem step_recovering_eof (machine : List state) (start accept : Int) (cfg : Cfg)
    (herr : cfg.errorState = true) :
    step machine start accept cfg (toChar (getchar []).1)
      = some { events := [], cfg := resetCfg start, stop := true } := by
  unfold step
  rw [if_pos herr]
  have : charClass (toChar (getchar []).1) = CC_EOF := by decide
  simp only [if_pos this]

/-- C19 (amended). Let the accept state be different from 99, and let a
whitespace or newline symbol `w`, read while scanning, have a transition to 99.
Then `runMachine` reports `Rejected` and enters error recovery on `w` itself;
the symbols `r` that follow, none of them a whitespace, a newline or the end
of input, are discarded without any event, up to and including the next
whitespace or newline `w2`, after which the scan goes on from the reset locals;
when the input ends after `r`, the run stops there without any further event. -/
theorem rejecting_boundary (machine : List state) (start accept : Int) (cfg : Cfg) (w : Nat)
    (r : List Nat) (tr : transition) (hacc : accept ≠ 99) (herr : cfg.errorState = false)
    (hw : isBoundary w = true)
    (hl : lookup machine cfg.state (charClass (toChar (w : Int))) = some tr)
    (hd : tr.dest = 99) (hr : ∀ y ∈ r, inToken y = true) :
    (∀ (w2 : Nat) (t : List Nat) (fuel : Nat), isBoundary w2 = true →
      runLoop machine start accept (fuel + r.length + 2) cfg (w :: r ++ w2 :: t)
        = emit ((if cfg.buf.length = 0 then [ScanEvent.StateVisited cfg.state] else [])
                  ++ [.StateVisited 99] ++ [.Rejected])
            (runLoop machine start accept fuel (resetCfg start) t))
    ∧ ∀ fuel : Nat,
      runLoop machine start accept (fuel + r.length + 2) cfg (w :: r)
        = .ok ((if cfg.buf.length = 0 then [ScanEvent.StateVisited cfg.state] else [])
                  ++ [.StateVisited 99] ++ [.Rejected]) := by
  have hst := step_rejecting machine start accept cfg w tr hacc herr hw hl hd
  refine ⟨?_, ?_⟩
  · intro w2 t fuel hw2
    have e : fuel + r.length + 2 = ((fuel + 1) + r.length) + 1 := by omega
    rw [e, List.cons_append, runLoop_succ]
    simp only [getchar, hst, Bool.false_eq_true, if_false]
    rw [runLoop_skip machine start accept _ rfl r hr (w2 :: t) (fuel + 1), runLoop_succ]
    have hb := step_boundary machine start accept
      { buf := if tr.action = 115 then cfg.buf ++ [toChar (w : Int)] else cfg.buf,
        errorState := true, state := 99 } w2 rfl hw2
    simp only [getchar, hb, Bool.false_eq_true, if_false, emit_nil]
  · intro fuel
    have e : fuel + r.length + 2 = ((fuel + 1) + r.length) + 1 := by omega
    rw [e, runLoop_succ]
    simp only [getchar, hst, Bool.false_eq_true, if_false]
    have hskip := runLoop_skip machine start accept
      { buf := if tr.action = 115 then cfg.buf ++ [toChar (w : Int)] else cfg.buf,
        errorState := true, state := 99 } rfl r hr [] (fuel + 1)
    rw [List.append_nil] at hskip
    rw [hskip, runLoop_succ, step_recovering_eof machine start accept _ rfl]
    simp [emit]

/-- Witness of C19: in the table of identifiers a whitespace in the start state
leads to 99. On `" ab cd\n"` the whitespace is rejected, `ab` and the next
whitespace are discarded, and only `cd` is recognized, although `"ab "` alone is
recognized. -/
theorem rejecting_boundary_witness :
    runLoop identTable 0 2 (4 + (bytes "ab").length + 2) (resetCfg 0)
        (32 :: bytes "ab" ++ 32 :: bytes "cd\n")
      = emit ((if (resetCfg 0).buf.length = 0 then [ScanEvent.StateVisited (resetCfg 0).state]
                else []) ++ [.StateVisited 99] ++ [.Rejected])
          (runLoop identTable 0 2 4 (resetCfg 0) (bytes "cd\n"))
    ∧ runMachine identTable 0 2 (bytes " ab cd\n")
      = .ok [.StateVisited 0, .StateVisited 99, .Rejected,
             .StateVisited 0, .StateVisited 1, .StateVisited 1, .StateVisited 2,
             .Recognized (cstr "cd"), .StateVisited 0, .StateVisited 99, .EndOfInput]
    ∧ runMachine identTable 0 2 (bytes "ab ")
      = .ok [.StateVisited 0, .StateVisited 1, .StateVisited 1, .StateVisited 2,
             .Recognized (cstr "ab"), .StateVisited 0, .StateVisited 99, .EndOfInput] :=
  ⟨(rejecting_boundary identTable 0 2 (resetCfg 0) 32 (bytes "ab") ⟨0, 99, 100⟩ (by decide) rfl
      (by decide) (by decide) rfl (by decide)).1 32 (bytes "cd\n") 4 (by decide),
    by decide, by decide⟩

/-- Counterexample to C19 as stated: in a table of 100 default rows with accept
state 99 the whitespace leads from the start state to 99, yet error recovery is
not entered: the symbol `a` that follows is not discarded, its states are
printed, and no `Rejected` is reported. -/
theorem rejecting_boundary_accept_99 :
    isBoundary 32 = true
      ∧ lookup (initMachine 100) 0 (charClass (toChar 32)) = some ⟨0, 99, 100⟩
      ∧ runMachine (initMachine 100) 0 99 (bytes " a")
          = .ok [.StateVisited 0, .StateVisited 99, .Recognized [],
                 .StateVisited 0, .StateVisited 99, .Recognized [],
                 .StateVisited 0, .StateVisited 99, .EndOfInput]
      ∧ runMachine (initMachine 100) 0 99 (bytes " a")
          ≠ .ok [.StateVisited 0, .StateVisited 99, .Rejected] := by
  decide

/-! ## Lookup safety -/

theorem safeTable_ok (machine : List state) (start accept : Int)
    (h : SafeTable machine start) : TableOK machine start accept :=
  ⟨h.2.1, fun s hs => ⟨(h.2.2 s hs).1, fun tr htr => by
    rcases (h.2.2 s hs).2 tr htr with h1 | h1
    · exact Or.inl h1
    · exact Or.inr (Or.inr h1)⟩⟩

theorem runLookups_succ (machine : List state) (start accept : Int) (fuel : Nat) (cfg : Cfg)
    (input : List Nat) :
    runLookups machine start accept (fuel + 1) cfg input =
      (if cfg.errorState then []
        else [(cfg.state, charClass (toChar (getchar input).1))])
      ++ (match step machine start accept cfg (toChar (getchar input).1) with
          | none => []
          | some out =>
            if out.stop then []
            else runLookups machine start accept fuel out.cfg (getchar input).2) := rfl

theorem step_cfgOK (machine : List state) (start accept : Int) (cfg : Cfg) (c : Int)
    (hok : TableOK machine start accept) (hcfg : CfgOK machine cfg) (out : StepOut)
    (h : step machine start accept cfg c = some out) (hs : out.stop = false) :
    CfgOK machine out.cfg := by
  obtain ⟨out2, h2, hstop, hgo⟩ := step_total machine start accept cfg c hok hcfg
  rw [h] at h2
  simp only [Option.some.injEq] at h2
  subst h2
  by_cases hc : charClass c = CC_EOF
  · have := hstop hc
    rw [hs] at this
    exact absurd this (by simp)
  · exact (hgo hc).2

theorem runLookups_safe (machine : List state) (start accept : Int)
    (hsafe : SafeTable machine start) :
    ∀ (fuel : Nat) (cfg : Cfg) (input : List Nat), CfgOK machine cfg →
      ∀ p ∈ runLookups machine start accept fuel cfg input,
        (0 ≤ p.1 ∧ p.1 < machine.length) ∧ (0 ≤ p.2 ∧ p.2 ≤ 10) ∧ p.1 ≠ 99 := by
  have hok := safeTable_ok machine start accept hsafe
  intro fuel
  induction fuel with
  | zero => intro cfg input _ p hp; simp [runLookups] at hp
  | succ f ih =>
    intro cfg input hcfg p hp
    rw [runLookups_succ, List.mem_append] at hp
    rcases hp with hp | hp
    · by_cases herr : cfg.errorState = true
      · simp [herr] at hp
      · have herr2 : cfg.errorState = false := by simpa using herr
        simp only [herr2, Bool.false_eq_true, if_false, List.mem_singleton] at hp
        subst hp
        have hq : 0 ≤ cfg.state ∧ cfg.state < machine.length := by
          rcases hcfg with h | h
          · exact absurd h herr
          · exact h
        have hlen := hsafe.1
        exact ⟨hq, charClass_range _, by omega⟩
    · cases hst : step machine start accept cfg (toChar (getchar input).1) with
      | none => simp [hst] at hp
      | some out =>
        simp only [hst] at hp
        by_cases hs : out.stop = true
        · simp [hs] at hp
        · have hs2 : out.stop = false := by simpa using hs
          simp only [hs2, Bool.false_eq_true, if_false] at hp
          exact ih out.cfg _ (step_cfgOK machine start accept cfg _ hok hcfg out hst hs2) p hp

theorem step_after_99 (machine : List state) (start accept : Int) (cfg : Cfg) (c : Int)
    (tr : transition) (herr : cfg.errorState = false)
    (hl : lookup machine cfg.state (charClass c) = some tr) (hd : tr.dest = 99) :
    ∃ out, step machine start accept cfg c = some out
      ∧ (out.stop = true ∨ out.cfg = resetCfg start ∨ out.cfg.errorState = true) := by
  by_cases hc : charClass c = CC_EOF
  · rw [hc] at hl
    exact ⟨_, step_eof machine start accept cfg c tr herr hc hl, Or.inl rfl⟩
  · have hst := step_scanning machine start accept cfg c tr herr hc hl
    by_cases ha : tr.dest = accept
    · rw [if_pos ha] at hst
      exact ⟨_, hst, Or.inr (Or.inl rfl)⟩
    · rw [if_neg ha, if_pos hd] at hst
      exact ⟨_, hst, Or.inr (Or.inr rfl)⟩

theorem step_leaving_recovery (machine : List state) (start accept : Int) (cfg : Cfg) (c : Int)
    (herr : cfg.errorState = true) :
    ∃ out, step machine start accept cfg c = some out
      ∧ (out.cfg = cfg ∨ out.cfg = resetCfg start) := by
  unfold step
  rw [if_pos herr]
  by_cases hc : charClass c = CC_EOF
  · simp only [if_pos hc]
    exact ⟨_, rfl, Or.inr rfl⟩
  · simp only [if_neg hc]
    by_cases hb : charClass c = CC_WS ∨ charClass c = CC_NEWLINE
    · simp only [if_pos hb]
      exact ⟨_, rfl, Or.inr rfl⟩
    · simp only [if_neg hb]
      exact ⟨_, rfl, Or.inl rfl⟩

/-! ## The write index of the lexeme buffer -/

theorem runTrace_succ (machine : List state) (start accept : Int) (fuel : Nat) (cfg : Cfg)
    (input : List Nat) :
    runTrace machine start accept (fuel + 1) cfg input =
      match step machine start accept cfg (toChar (getchar input).1) with
      | none => ([], cfg)
      | some out =>
        if out.stop then (stepOps machine accept cfg (toChar (getchar input).1), out.cfg)
        else
          (stepOps machine accept cfg (toChar (getchar input).1)
              ++ (runTrace machine start accept fuel out.cfg (getchar input).2).1,
            (runTrace machine start accept fuel out.cfg (getchar input).2).2) := rfl

theorem indexAfter_append (i : Nat) (a b : List IndexOp) :
    indexAfter i (a ++ b) = indexAfter (indexAfter i a) b := by
  unfold indexAfter
  rw [List.foldl_append]

theorem indexAfter_concat (i : Nat) (a : List IndexOp) (op : IndexOp) :
    indexAfter i (a ++ [op]) = match op with
      | IndexOp.inc => indexAfter i a + 1
      | IndexOp.zero => 0 := by
  rw [indexAfter_append]
  cases op <;> rfl

theorem shiftedSinceReset_concat (a : List IndexOp) (op : IndexOp) :
    shiftedSinceReset (a ++ [op]) = match op with
      | IndexOp.inc => shiftedSinceReset a + 1
      | IndexOp.zero => 0 := by
  unfold shiftedSinceReset
  rw [List.reverse_append, List.reverse_singleton, List.singleton_append]
  cases op
  · rw [List.takeWhile_cons_of_pos (by decide)]
    rfl
  · rw [List.takeWhile_cons_of_neg (by decide)]
    rfl

theorem indexAfter_zero (ops : List IndexOp) : indexAfter 0 ops = shiftedSinceReset ops := by
  induction ops using List.reverseRecOn with
  | nil => rfl
  | append_singleton a op ih =>
    rw [indexAfter_concat, shiftedSinceReset_concat]
    cases op
    · simp only [ih]
    · rfl

theorem indexValues_mem (ops : List IndexOp) : ∀ (i v : Nat), v ∈ indexValues i ops →
    ∃ pre, pre <+: ops ∧ v = indexAfter i pre := by
  induction ops with
  | nil => intro i v hv; simp [indexValues] at hv
  | cons op ops ih =>
    intro i v hv
    cases op with
    | inc =>
      simp only [indexValues, List.mem_cons] at hv
      rcases hv with hv | hv
      · exact ⟨[IndexOp.inc], by simp, by rw [hv]; rfl⟩
      · obtain ⟨pre, hp, he⟩ := ih (i + 1) v hv
        exact ⟨IndexOp.inc :: pre, by simpa using hp, by rw [he]; rfl⟩
    | zero =>
      simp only [indexValues, List.mem_cons] at hv
      rcases hv with hv | hv
      · exact ⟨[IndexOp.zero], by simp, by rw [hv]; rfl⟩
      · obtain ⟨pre, hp, he⟩ := ih 0 v hv
        exact ⟨IndexOp.zero :: pre, by simpa using hp, by rw [he]; rfl⟩

theorem step_index (machine : List state) (start accept : Int) (cfg : Cfg) (c : Int)
    (out : StepOut) (h : step machine start accept cfg c = some out) :
    out.cfg.buf.length = indexAfter cfg.buf.length (stepOps machine accept cfg c) := by
  unfold step at h
  unfold stepOps
  by_cases herr : cfg.errorState = true
  · rw [if_pos herr] at h ⊢
    by_cases hc : charClass c = CC_EOF
    · have hb : ¬ (charClass c = CC_WS ∨ charClass c = CC_NEWLINE) := by
        rw [hc]; decide
      simp only [if_pos hc, Option.some.injEq] at h
      rw [← h, if_neg hb, if_pos hc]
      rfl
    · simp only [if_neg hc, Option.some.injEq] at h
      rw [← h, if_neg hc]
      by_cases hb : charClass c = CC_WS ∨ charClass c = CC_NEWLINE
      · simp only [if_pos hb]
        rfl
      · simp only [if_neg hb]
        rfl
  · rw [if_neg herr] at h ⊢
    cases hl : lookup machine cfg.state (charClass c) with
    | none => simp [hl] at h
    | some tr =>
      simp only [hl] at h ⊢
      by_cases hs : tr.action = 115
      · by_cases hc : charClass c = CC_EOF
        · simp only [if_pos hc, Option.some.injEq] at h
          rw [← h]
          simp [hs, hc, indexAfter]
        · simp only [if_neg hc] at h
          by_cases ha : tr.dest = accept
          · simp only [if_pos ha, Option.some.injEq] at h
            rw [← h]
            simp [hs, hc, ha, indexAfter, resetCfg]
          · simp only [if_neg ha] at h
            split_ifs at h <;> simp only [Option.some.injEq] at h <;> rw [← h] <;>
              simp [hs, hc, ha, indexAfter]
      · by_cases hc : charClass c = CC_EOF
        · simp only [if_pos hc, Option.some.injEq] at h
          rw [← h]
          simp [hs, hc, indexAfter]
        · simp only [if_neg hc] at h
          by_cases ha : tr.dest = accept
          · simp only [if_pos ha, Option.some.injEq] at h
            rw [← h]
            simp [hs, hc, ha, indexAfter, resetCfg]
          · simp only [if_neg ha] at h
            split_ifs at h <;> simp only [Option.some.injEq] at h <;> rw [← h] <;>
              simp [hs, hc, ha, indexAfter]

theorem runTrace_index (machine : List state) (start accept : Int) :
    ∀ (fuel : Nat) (cfg : Cfg) (input : List Nat),
      (runTrace machine start accept fuel cfg input).2.buf.length
        = indexAfter cfg.buf.length (runTrace machine start accept fuel cfg input).1 := by
  intro fuel
  induction fuel with
  | zero => intro cfg input; rfl
  | succ f ih =>
    intro cfg input
    rw [runTrace_succ]
    cases hst : step machine start accept cfg (toChar (getchar input).1) with
    | none => rfl
    | some out =>
      simp only []
      have hi := step_index machine start accept cfg _ out hst
      by_cases hs : out.stop = true
      · simp only [hs, if_true]
        exact hi
      · simp only [hs, Bool.false_eq_true, if_false]
        rw [indexAfter_append, ← hi]
        exact ih out.cfg _

set_option maxRecDepth 100000 in
theorem aPlus_index_64 :
    (runTrace aPlus 0 1 64 (resetCfg 0) (List.replicate 64 97)).2.buf.length = 64
      ∧ runMachine aPlus 0 1 (List.replicate 64 97 ++ [32])
          = .ok ([ScanEvent.StateVisited 0] ++ List.replicate 64 (ScanEvent.StateVisited 0)
              ++ [.StateVisited 1, .Recognized (List.replicate 64 97),
                  .StateVisited 0, .StateVisited 99, .EndOfInput]) := by
  decide

/-- C16. (1) After any number of iterations of any run, the write index (the
length of the model of `buf`) is the number of symbols shifted since the last
reset. (2) Nothing bounds it: the `a+` table fed 64 letters has the index at 64,
past the last cell of `char buf[64]`, and the run goes on and reports the 64
letters as one lexeme; no event says that the lexeme is too long. (3) For
every run in which no token attempt shifts more than 63 symbols, the index is
at most 63 after each assignment to it and at the end. -/
theorem index_unbounded :
    (∀ (machine : List state) (start accept : Int) (fuel : Nat) (input : List Nat),
      (runTrace machine start accept fuel (resetCfg start) input).2.buf.length
        = shiftedSinceReset (runTrace machine start accept fuel (resetCfg start) input).1)
    ∧ ((runTrace aPlus 0 1 64 (resetCfg 0) (List.replicate 64 97)).2.buf.length = 64
      ∧ runMachine aPlus 0 1 (List.replicate 64 97 ++ [32])
          = .ok ([ScanEvent.StateVisited 0] ++ List.replicate 64 (ScanEvent.StateVisited 0)
              ++ [.StateVisited 1, .Recognized (List.replicate 64 97),
                  .StateVisited 0, .StateVisited 99, .EndOfInput]))
    ∧ ∀ (machine : List state) (start accept : Int) (fuel : Nat) (input : List Nat),
        (∀ pre ∈ (runTrace machine start accept fuel (resetCfg start) input).1.inits,
          shiftedSinceReset pre ≤ 63) →
        (∀ v ∈ indexValues 0 (runTrace machine start accept fuel (resetCfg start) input).1,
          v ≤ 63)
        ∧ (runTrace machine start accept fuel (resetCfg start) input).2.buf.length ≤ 63 := by
  refine ⟨?_, aPlus_index_64, ?_⟩
  · intro machine start accept fuel input
    rw [runTrace_index, ← indexAfter_zero]
    rfl
  · intro machine start accept fuel input h
    refine ⟨?_, ?_⟩
    · intro v hv
      obtain ⟨pre, hp, he⟩ := indexValues_mem _ 0 v hv
      rw [he, indexAfter_zero]
      exact h pre ((List.mem_inits _ _).2 hp)
    · rw [runTrace_index]
      have : indexAfter (resetCfg start).buf.length
          (runTrace machine start accept fuel (resetCfg start) input).1
          = shiftedSinceReset (runTrace machine start accept fuel (resetCfg start) input).1 :=
        indexAfter_zero _
      rw [this]
      exact h _ ((List.mem_inits _ _).2 (List.prefix_refl _))

/-- Witness of C16: the `a+` table on `"ab cd "`, where no token attempt shifts
more than two symbols. -/
theorem index_unbounded_witness :
    (runTrace aPlus 0 1 7 (resetCfg 0) (bytes "ab cd ")).1
        = [.inc, .inc, .zero, .inc, .inc, .zero]
    ∧ ((∀ v ∈ indexValues 0 (runTrace aPlus 0 1 7 (resetCfg 0) (bytes "ab cd ")).1, v ≤ 63)
      ∧ (runTrace aPlus 0 1 7 (resetCfg 0) (bytes "ab cd ")).2.buf.length ≤ 63) :=
  ⟨by decide, index_unbounded.2.2 aPlus 0 1 7 (bytes "ab cd ") (by decide)⟩

/-! ## Values that are used without a check -/

theorem setEntry_bad_state (machine : List state) (q : Int) (v : transition)
    (hq : q < 0 ∨ (machine.length : Int) ≤ q) : setEntry machine q v = none := by
  unfold setEntry
  by_cases h : q < 0 ∨ v.cc < 0 ∨ 12 ≤ v.cc
  · rw [if_pos h]
  · rw [if_neg h]
    have hlen : machine.length ≤ q.toNat := by omega
    rw [List.getElem?_eq_none hlen]

theorem lookup_bad_state (machine : List state) (q cc : Int)
    (hq : q < 0 ∨ (machine.length : Int) ≤ q) : lookup machine q cc = none := by
  unfold lookup
  by_cases h : q < 0 ∨ cc < 0
  · rw [if_pos h]
  · rw [if_neg h]
    have hlen : machine.length ≤ q.toNat := by omega
    rw [List.getElem?_eq_none hlen]

theorem runMachine_bad_start (machine : List state) (start accept : Int) (input : List Nat)
    (hq : start < 0 ∨ (machine.length : Int) ≤ start) :
    runMachine machine start accept input = .error .outOfBounds := by
  unfold runMachine
  rw [runLoop_succ]
  have : step machine start accept (resetCfg start) (toChar (getchar input).1) = none := by
    unfold step
    simp only [resetCfg, Bool.false_eq_true, if_false, lookup_bad_state machine start _ hq]
  rw [this]

/-- C11 (the code at the failing inputs). `buildMachine` makes no test on the
state id of a row. When the id is negative (the -1 of `strInt`) or not below
the number of states and a token follows it, the loop over the tokens executes
`machine[state].state = state` outside the array: the rows `x 2/0s` and
`5 2/0s` of a table of 2 states do so. A row with such an id and no token
after it writes nothing, and nothing is reported either: `buildMachine` returns
the table. -/
theorem bad_state_id_is_indexed :
    (∀ (q : Int) (tok : List Int) (toks : List (List Int)) (machine : List state)
        (v : transition), q < 0 ∨ (machine.length : Int) ≤ q →
        applySpecs q (tok :: toks) machine v = .error .outOfBounds)
    ∧ strInt (cstr "x") = -1
    ∧ (∀ junk, buildMachine (cstr "states 2\nstart 0\naccept 1\nx 2/0s\n") 2 junk
        = .error .outOfBounds)
    ∧ (∀ junk, buildMachine (cstr "states 2\nstart 0\naccept 1\n5 2/0s\n") 2 junk
        = .error .outOfBounds)
    ∧ (∀ junk, buildMachine (cstr "states 2\nstart 0\naccept 1\nx\n5\n") 2 junk
        = .ok (initMachine 2)) := by
  refine ⟨?_, by decide, fun _ => rfl, fun _ => rfl, fun _ => rfl⟩
  intro q tok toks machine v hq
  simp only [applySpecs, setEntry_bad_state machine q _ hq]

/-- C12 (the code at the failing inputs). `readFile` returns the -1 of `strInt`
in `info` and `main` uses it. With a state count that is not a number, `main`
declares the table with -1 states and `buildMachine` indexes it. With a start
state that is not a number, `runMachine` is called with start -1 and reads
`machine[-1]`. With an accept state that is not a number, `runMachine` is called
with accept -1 and scans: on `"abc "` nothing is recognized. No run is aborted
with a diagnostic. -/
theorem header_not_validated :
    (∀ (garbage : List Int) (junk : transition) (input : List Nat),
      readFile (cstr "states x\nstart 0\naccept 1\n0 2/0s 0/1d\n") garbage = .ok (-1, 0, 1)
      ∧ buildMachine (cstr "states x\nstart 0\naccept 1\n0 2/0s 0/1d\n") (-1) junk
          = .error .outOfBounds
      ∧ main (cstr "states x\nstart 0\naccept 1\n0 2/0s 0/1d\n") input garbage junk
          = .error .outOfBounds)
    ∧ (∀ (garbage : List Int) (junk : transition) (input : List Nat),
      readFile (cstr "states 2\nstart x\naccept 1\n0 2/0s 0/1d\n") garbage = .ok (2, -1, 1)
      ∧ main (cstr "states 2\nstart x\naccept 1\n0 2/0s 0/1d\n") input garbage junk
          = runMachine aPlus (-1) 1 input
      ∧ runMachine aPlus (-1) 1 input = .error .outOfBounds)
    ∧ (∀ (garbage : List Int) (junk : transition) (input : List Nat),
      readFile (cstr "states 2\nstart 0\naccept x\n0 2/0s 0/1d\n") garbage = .ok (2, 0, -1)
      ∧ main (cstr "states 2\nstart 0\naccept x\n0 2/0s 0/1d\n") input garbage junk
          = runMachine aPlus 0 (-1) input)
    ∧ runMachine aPlus 0 (-1) (bytes "abc ")
        = .ok [.StateVisited 0, .StateVisited 0, .StateVisited 0, .StateVisited 0,
               .StateVisited 1, .StateVisited 99, .EndOfInput] := by
  refine ⟨fun _ _ _ => ⟨rfl, rfl, rfl⟩, fun _ _ input => ⟨rfl, rfl, ?_⟩,
    fun _ _ _ => ⟨rfl, rfl⟩, by decide⟩
  exact runMachine_bad_start aPlus (-1) 1 input (Or.inl (by decide))

/-- C13 (the code at the failing input). The header values are handed to
`runMachine` as they were read. With 2 states, start state 7 and accept state
9, `main` builds the table of 2 states and calls `runMachine` with start 7 and
accept 9, and the first iteration reads `machine[7]`, outside the table. -/
theorem start_not_validated :
    ∀ (garbage : List Int) (junk : transition) (input : List Nat),
      readFile (cstr "states 2\nstart 7\naccept 9\n0 2/0s 0/1d\n") garbage = .ok (2, 7, 9)
      ∧ buildMachine (cstr "states 2\nstart 7\naccept 9\n0 2/0s 0/1d\n") 2 junk = .ok aPlus
      ∧ main (cstr "states 2\nstart 7\naccept 9\n0 2/0s 0/1d\n") input garbage junk
          = runMachine aPlus 7 9 input
      ∧ runMachine aPlus 7 9 input = .error .outOfBounds
      ∧ ¬ ((0 : Int) ≤ 7 ∧ (7 : Int) < aPlus.length) := by
  intro garbage junk input
  exact ⟨rfl, rfl, rfl, runMachine_bad_start aPlus 7 9 input (Or.inr (by decide)), by decide⟩

theorem buildMachine_junk (file : List Int) (n : Int) (junk w : transition)
    (buf fp1 s0 tok : List Int) (rest : List (List Int))
    (hf : fgets 256 (skipLine (skipLine (skipLine file))) = some (buf, fp1))
    (hflag : (copyLine false [] buf).flag = true)
    (htok : strtokAll (copyLine false [] buf).buff = s0 :: tok :: rest)
    (hs : ∀ v, sscanf tok v = sscanf tok w) :
    buildMachine file n junk = buildMachine file n w := by
  unfold buildMachine
  simp only [buildLoop, hf, hflag, if_true, processRow, htok, applySpecs, hs junk]

/-- C14 (the code at the failing inputs). The result of `sscanf` is not looked
at and the entry is written after every token. In a table of 2 states: the
token `7/5` (no action character) makes the entry of state 0 and class 7 hold
destination 5; the token `7` (no slash) makes it hold the destination and the
action of the spec before; a lone newline at the start of the tokens of row 1
writes into row 1 the spec of row 0; the token `12/0s` indexes `t[12]`, outside
the row. Without these tokens the entries hold the default. -/
theorem malformed_spec_not_ignored :
    ∀ junk : transition,
      entryOf (buildMachine (cstr "states 2\nstart 0\naccept 1\n0 2/0s 7/5 3/1d\n") 2 junk) 0 7
          = .ok (some ⟨7, 5, 115⟩)
      ∧ entryOf (buildMachine (cstr "states 2\nstart 0\naccept 1\n0 2/0s 7 3/1d\n") 2 junk) 0 7
          = .ok (some ⟨7, 0, 115⟩)
      ∧ entryOf (buildMachine (cstr "states 2\nstart 0\naccept 1\n0 2/0s 3/1d\n") 2 junk) 0 7
          = .ok (some ⟨7, 99, 100⟩)
      ∧ entryOf (buildMachine (cstr "states 2\nstart 0\naccept 1\n0 2/0s\n1 \n") 2 junk) 1 2
          = .ok (some ⟨2, 0, 115⟩)
      ∧ entryOf (buildMachine (cstr "states 2\nstart 0\naccept 1\n0 2/0s\n1\n") 2 junk) 1 2
          = .ok (some ⟨2, 99, 100⟩)
      ∧ buildMachine (cstr "states 2\nstart 0\naccept 1\n0 12/0s\n") 2 junk
          = .error .outOfBounds := by
  intro junk
  have e1 := buildMachine_junk (cstr "states 2\nstart 0\naccept 1\n0 2/0s 7/5 3/1d\n") 2 junk
    ⟨0, 0, 0⟩ (cstr "0 2/0s 7/5 3/1d\n") [] (cstr "0") (cstr "2/0s")
    [cstr "7/5", cstr "3/1d\n"] (by decide) (by decide) (by decide) (fun _ => rfl)
  have e2 := buildMachine_junk (cstr "states 2\nstart 0\naccept 1\n0 2/0s 7 3/1d\n") 2 junk
    ⟨0, 0, 0⟩ (cstr "0 2/0s 7 3/1d\n") [] (cstr "0") (cstr "2/0s")
    [cstr "7", cstr "3/1d\n"] (by decide) (by decide) (by decide) (fun _ => rfl)
  have e3 := buildMachine_junk (cstr "states 2\nstart 0\naccept 1\n0 2/0s 3/1d\n") 2 junk
    ⟨0, 0, 0⟩ (cstr "0 2/0s 3/1d\n") [] (cstr "0") (cstr "2/0s")
    [cstr "3/1d\n"] (by decide) (by decide) (by decide) (fun _ => rfl)
  have e4 := buildMachine_junk (cstr "states 2\nstart 0\naccept 1\n0 2/0s\n1 \n") 2 junk
    ⟨0, 0, 0⟩ (cstr "0 2/0s\n") (cstr "1 \n") (cstr "0") (cstr "2/0s\n")
    [] (by decide) (by decide) (by decide) (fun _ => rfl)
  have e5 := buildMachine_junk (cstr "states 2\nstart 0\naccept 1\n0 2/0s\n1\n") 2 junk
    ⟨0, 0, 0⟩ (cstr "0 2/0s\n") (cstr "1\n") (cstr "0") (cstr "2/0s\n")
    [] (by decide) (by decide) (by decide) (fun _ => rfl)
  have e6 := buildMachine_junk (cstr "states 2\nstart 0\naccept 1\n0 12/0s\n") 2 junk
    ⟨0, 0, 0⟩ (cstr "0 12/0s\n") [] (cstr "0") (cstr "12/0s\n")
    [] (by decide) (by decide) (by decide) (fun _ => rfl)
  rw [e1, e2, e3, e4, e5, e6]
  decide

/-! ## A last row without a newline -/

theorem wholeLines_tail (c : Int) (s : List Int) (h : WholeLines (c :: s)) : WholeLines s := by
  cases s with
  | nil => exact Or.inl rfl
  | cons d s =>
    rcases h with h | h
    · exact absurd h (by simp)
    · rw [List.getLast?_cons_cons] at h
      exact Or.inr h

theorem fgetsAux_wholeLines (s : List Int) : ∀ (n : Nat) (last : List Int), s ≠ [] →
    WholeLines s →
    fgetsAux n (s ++ last) = ((fgetsAux n s).1, (fgetsAux n s).2 ++ last)
      ∧ WholeLines (fgetsAux n s).2 := by
  induction s with
  | nil => intro n last h; exact absurd rfl h
  | cons c s ih =>
    intro n last _ hw
    cases n with
    | zero => exact ⟨rfl, hw⟩
    | succ k =>
      by_cases hc : c = 10
      · have e1 : fgetsAux (k + 1) (c :: (s ++ last)) = ([c], s ++ last) := by
          simp only [fgetsAux, if_pos hc]
        have e2 : fgetsAux (k + 1) (c :: s) = ([c], s) := by
          simp only [fgetsAux, if_pos hc]
        rw [List.cons_append, e1, e2]
        exact ⟨rfl, wholeLines_tail c s hw⟩
      · have e1 : fgetsAux (k + 1) (c :: (s ++ last))
            = ((fgetsAux k (s ++ last)).1.cons c, (fgetsAux k (s ++ last)).2) := by
          simp only [fgetsAux, if_neg hc]
        have e2 : fgetsAux (k + 1) (c :: s)
            = ((fgetsAux k s).1.cons c, (fgetsAux k s).2) := by
          simp only [fgetsAux, if_neg hc]
        have hs : s ≠ [] := by
          intro h0
          subst h0
          rcases hw with h | h
          · exact absurd h (by simp)
          · simp at h
            exact hc h
        obtain ⟨i1, i2⟩ := ih k last hs (wholeLines_tail c s hw)
        rw [List.cons_append, e1, e2, i1]
        exact ⟨rfl, i2⟩

theorem fgetsAux_parts (s : List Int) : ∀ n : Nat,
    (fgetsAux n s).1 ++ (fgetsAux n s).2 = s := by
  induction s with
  | nil => intro n; cases n <;> rfl
  | cons c s ih =>
    intro n
    cases n with
    | zero => rfl
    | succ k =>
      by_cases hc : c = 10
      · simp only [fgetsAux, if_pos hc]
        rw [hc]
        rfl
      · simp only [fgetsAux, if_neg hc]
        exact congrArg (List.cons c) (ih k)

theorem fgetsAux_shorter (c : Int) (s : List Int) (k : Nat) :
    (fgetsAux (k + 1) (c :: s)).2.length ≤ s.length := by
  by_cases hc : c = 10
  · simp only [fgetsAux, if_pos hc]
    exact le_refl _
  · simp only [fgetsAux, if_neg hc]
    have := congrArg List.length (fgetsAux_parts s k)
    rw [List.length_append] at this
    omega

theorem fgets_some (fp buf fp1 : List Int) (h : fgets 256 fp = some (buf, fp1)) :
    buf ++ fp1 = fp ∧ fp1.length < fp.length := by
  cases fp with
  | nil => simp [fgets] at h
  | cons c s =>
    simp only [fgets, Option.some.injEq] at h
    have h1 := fgetsAux_parts (c :: s) 255
    have h2 := fgetsAux_shorter c s 254
    rw [h] at h1 h2
    simp only at h1 h2
    exact ⟨h1, by simp only [List.length_cons]; omega⟩

theorem copyLine_flag (b : Bool) (buff buf : List Int) (h : (10 : Int) ∉ buf) :
    (copyLine b buff buf).flag = false := by
  unfold copyLine
  have hm : (10 : Int) ∉ buf.takeWhile (fun x => decide (x ≠ 0)) :=
    fun hx => h ((List.takeWhile_sublist _).subset hx)
  rw [(foldl_copyChar _ _).2.1]
  simp only [Bool.false_or, decide_eq_false_iff_not]
  exact hm

theorem buildLoop_no_newline (fuel : Nat) : ∀ (last : List Int) (st : BuildState),
    (10 : Int) ∉ last → last.length < fuel → buildLoop fuel last st = .ok st.machine := by
  induction fuel with
  | zero => intro last st _ hf; omega
  | succ f ih =>
    intro last st hn hf
    cases hg : fgets 256 last with
    | none => simp only [buildLoop, hg]
    | some r =>
      obtain ⟨buf, fp1⟩ := r
      obtain ⟨hparts, hlen⟩ := fgets_some last buf fp1 hg
      have hb : (10 : Int) ∉ buf := fun hx => hn (by rw [← hparts]; exact List.mem_append_left _ hx)
      have hr : (10 : Int) ∉ fp1 := fun hx => hn (by rw [← hparts]; exact List.mem_append_right _ hx)
      simp only [buildLoop, hg, copyLine_flag st.b st.buff buf hb, Bool.false_eq_true, if_false]
      exact ih fp1 _ hr (by omega)

theorem fgets_wholeLines (s last : List Int) (hs : s ≠ []) (hw : WholeLines s) :
    ∃ buf rest, fgets 256 s = some (buf, rest) ∧ fgets 256 (s ++ last) = some (buf, rest ++ last)
      ∧ WholeLines rest := by
  obtain ⟨h1, h2⟩ := fgetsAux_wholeLines s 255 last hs hw
  cases s with
  | nil => exact absurd rfl hs
  | cons c s =>
    refine ⟨(fgetsAux 255 (c :: s)).1, (fgetsAux 255 (c :: s)).2, rfl, ?_, h2⟩
    rw [List.cons_append] at h1 ⊢
    simp only [fgets]
    rw [h1]

theorem buildLoop_unterminated (fuel2 : Nat) : ∀ (s last : List Int) (st : BuildState)
    (fuel1 : Nat), WholeLines s → (10 : Int) ∉ last → (s ++ last).length < fuel1 →
    s.length < fuel2 → buildLoop fuel1 (s ++ last) st = buildLoop fuel2 s st := by
  induction fuel2 with
  | zero => intro s last st fuel1 _ _ _ hf; omega
  | succ f2 ih =>
    intro s last st fuel1 hw hn hf1 hf2
    by_cases hs : s = []
    · subst hs
      rw [List.nil_append] at hf1 ⊢
      rw [buildLoop_no_newline fuel1 last st hn hf1]
      rfl
    · obtain ⟨buf, rest, g1, g2, g3⟩ := fgets_wholeLines s last hs hw
      obtain ⟨f1, rfl⟩ : ∃ f1, fuel1 = f1 + 1 := ⟨fuel1 - 1, by omega⟩
      obtain ⟨_, hlen⟩ := fgets_some s buf rest g1
      have hrec : ∀ st2 : BuildState,
          buildLoop f1 (rest ++ last) st2 = buildLoop f2 rest st2 := by
        intro st2
        refine ih rest last st2 f1 g3 hn ?_ (by omega)
        rw [List.length_append] at hf1 ⊢
        omega
      simp only [buildLoop, g1, g2, hrec]

theorem skipLine_unterminated (s last : List Int) (hw : WholeLines s) (hn : (10 : Int) ∉ last) :
    ∃ s2 last2, skipLine (s ++ last) = s2 ++ last2 ∧ skipLine s = s2 ∧ WholeLines s2
      ∧ (10 : Int) ∉ last2 := by
  by_cases hs : s = []
  · subst hs
    refine ⟨[], skipLine last, by simp, rfl, Or.inl rfl, ?_⟩
    unfold skipLine
    cases hg : fgets 256 last with
    | none => exact hn
    | some r =>
      obtain ⟨buf, fp1⟩ := r
      obtain ⟨hparts, _⟩ := fgets_some last buf fp1 hg
      exact fun hx => hn (by rw [← hparts]; exact List.mem_append_right _ hx)
  · obtain ⟨buf, rest, g1, g2, g3⟩ := fgets_wholeLines s last hs hw
    refine ⟨rest, last, ?_, ?_, g3, hn⟩
    · unfold skipLine
      rw [g2]
    · unfold skipLine
      rw [g1]

theorem runLoopChecked_succ (machine : List state) (start accept : Int) (fuel : Nat) (cfg : Cfg)
    (input : List Nat) :
    runLoopChecked machine start accept (fuel + 1) cfg input =
      match stepChecked machine start accept cfg (toChar (getchar input).1) with
      | .error e => .error e
      | .ok out =>
        if out.stop then .ok out.events
        else emit out.events
          (runLoopChecked machine start accept fuel out.cfg (getchar input).2) := rfl

theorem stepChecked_ok (machine : List state) (start accept : Int) (cfg : Cfg) (c : Int)
    (out : StepOut) (h : step machine start accept cfg c = some out)
    (hw : ∀ w ∈ stepWrites machine accept cfg c, w < 64) :
    stepChecked machine start accept cfg c = .ok out := by
  unfold stepChecked
  simp only [h]
  exact if_pos hw

theorem stepChecked_none (machine : List state) (start accept : Int) (cfg : Cfg) (c : Int)
    (h : step machine start accept cfg c = none) :
    stepChecked machine start accept cfg c = .error .outOfBounds := by
  unfold stepChecked
  simp only [h]

theorem stepWrites_recovering (machine : List state) (accept : Int) (cfg : Cfg) (c : Int)
    (herr : cfg.errorState = true) : stepWrites machine accept cfg c = [] := by
  unfold stepWrites
  rw [if_pos herr]

theorem stepWrites_scanning (machine : List state) (accept : Int) (cfg : Cfg) (c : Int)
    (tr : transition) (herr : cfg.errorState = false)
    (hl : lookup machine cfg.state (charClass c) = some tr) :
    stepWrites machine accept cfg c =
      (if tr.action = 115 then [cfg.buf.length] else [])
        ++ (if charClass c ≠ CC_EOF ∧ tr.dest = accept then
              [(if tr.action = 115 then cfg.buf ++ [c] else cfg.buf).length]
            else []) := by
  unfold stepWrites
  simp only [herr, hl, Bool.false_eq_true, if_false]

theorem stepWrites_inside (machine : List state) (accept : Int) (cfg : Cfg) (c : Int)
    (tr : transition) (herr : cfg.errorState = false)
    (hl : lookup machine cfg.state (charClass c) = some tr)
    (hs : tr.action = 115 → cfg.buf.length ≤ 63)
    (hz : charClass c ≠ CC_EOF → tr.dest = accept →
      (if tr.action = 115 then cfg.buf ++ [c] else cfg.buf).length ≤ 63) :
    ∀ w ∈ stepWrites machine accept cfg c, w < 64 := by
  rw [stepWrites_scanning machine accept cfg c tr herr hl]
  intro w hw
  rw [List.mem_append] at hw
  rcases hw with hw | hw
  · by_cases ha : tr.action = 115
    · rw [if_pos ha, List.mem_singleton] at hw
      have := hs ha
      omega
    · rw [if_neg ha] at hw
      exact absurd hw (List.not_mem_nil _)
  · by_cases hd : charClass c ≠ CC_EOF ∧ tr.dest = accept
    · rw [if_pos hd, List.mem_singleton] at hw
      have := hz hd.1 hd.2
      omega
    · rw [if_neg hd] at hw
      exact absurd hw (List.not_mem_nil _)

theorem pending_bound (machine : List state) (cfg : Cfg) (c : Int) (tr : transition)
    (herr : cfg.errorState = false) (hl : lookup machine cfg.state (charClass c) = some tr)
    (h0 : cfg.buf.length ≤ 63) (hp : ∀ n ∈ stepPending machine cfg c, n ≤ 63) :
    (if tr.action = 115 then cfg.buf ++ [c] else cfg.buf).length ≤ 63 := by
  unfold stepPending at hp
  simp only [herr, hl, Bool.false_eq_true, if_false] at hp
  by_cases ha : tr.action = 115
  · rw [if_pos ha] at hp ⊢
    have := hp _ (List.mem_singleton.mpr rfl)
    rw [List.length_append, List.length_singleton]
    exact this
  · rw [if_neg ha]
    exact h0

theorem stepWrites_bound (machine : List state) (accept : Int) (cfg : Cfg) (c : Int)
    (h0 : cfg.buf.length ≤ 63) (hp : ∀ n ∈ stepPending machine cfg c, n ≤ 63) :
    ∀ w ∈ stepWrites machine accept cfg c, w < 64 := by
  by_cases herr : cfg.errorState = true
  · rw [stepWrites_recovering machine accept cfg c herr]
    intro w hw
    exact absurd hw (List.not_mem_nil _)
  · have herr2 : cfg.errorState = false := by simpa using herr
    cases hl : lookup machine cfg.state (charClass c) with
    | none =>
      unfold stepWrites
      simp only [herr2, hl, Bool.false_eq_true, if_false]
      intro w hw
      exact absurd hw (List.not_mem_nil _)
    | some tr =>
      have hb := pending_bound machine cfg c tr herr2 hl h0 hp
      refine stepWrites_inside machine accept cfg c tr herr2 hl (fun ha => ?_) (fun _ _ => hb)
      rw [if_pos ha, List.length_append, List.length_singleton] at hb
      omega

theorem step_buf_bound (machine : List state) (start accept : Int) (cfg : Cfg) (c : Int)
    (out : StepOut) (h : step machine start accept cfg c = some out)
    (h0 : cfg.buf.length ≤ 63) (hp : ∀ n ∈ stepPending machine cfg c, n ≤ 63) :
    out.cfg.buf.length ≤ 63 := by
  by_cases herr : cfg.errorState = true
  · obtain ⟨out2, h2, hcfg⟩ := step_leaving_recovery machine start accept cfg c herr
    rw [h] at h2
    simp only [Option.some.injEq] at h2
    subst h2
    rcases hcfg with hcfg | hcfg
    · rw [hcfg]
      exact h0
    · rw [hcfg]
      exact Nat.zero_le _
  · have herr2 : cfg.errorState = false := by simpa using herr
    cases hl : lookup machine cfg.state (charClass c) with
    | none =>
      unfold step at h
      simp only [herr2, hl, Bool.false_eq_true, if_false] at h
      exact absurd h (by simp)
    | some tr =>
      have hb := pending_bound machine cfg c tr herr2 hl h0 hp
      obtain ⟨out2, rest, h2, _, _, hcfg⟩ := step_shape machine start accept cfg c tr herr2 hl
      rw [h] at h2
      simp only [Option.some.injEq] at h2
      subst h2
      rcases hcfg with hcfg | hcfg
      · rw [hcfg.1]
        exact hb
      · rw [hcfg.2.2.2]
        exact Nat.zero_le _

theorem step_eof_stop (machine : List state) (start accept : Int) (cfg : Cfg) (c : Int)
    (out : StepOut) (h : step machine start accept cfg c = some out)
    (hc : charClass c = CC_EOF) : out.stop = true := by
  by_cases herr : cfg.errorState = true
  · unfold step at h
    rw [if_pos herr] at h
    simp only [if_pos hc, Option.some.injEq] at h
    rw [← h]
  · have herr2 : cfg.errorState = false := by simpa using herr
    cases hl : lookup machine cfg.state (charClass c) with
    | none =>
      unfold step at h
      simp only [herr2, hl, Bool.false_eq_true, if_false] at h
      exact absurd h (by simp)
    | some tr =>
      have hl2 := hl
      rw [hc] at hl2
      rw [step_eof machine start accept cfg c tr herr2 hc hl2] at h
      simp only [Option.some.injEq] at h
      rw [← h]

theorem runLoopChecked_eq (machine : List state) (start accept : Int) :
    ∀ (fuel : Nat) (cfg : Cfg) (input : List Nat), cfg.buf.length ≤ 63 →
      (∀ n ∈ shiftCounts machine start accept cfg input, n ≤ 63) →
      runLoopChecked machine start accept fuel cfg input
        = runLoop machine start accept fuel cfg input := by
  intro fuel
  induction fuel with
  | zero => intro cfg input _ _; rfl
  | succ f ih =>
    intro cfg input h0 hs
    rw [runLoopChecked_succ, runLoop_succ]
    cases input with
    | nil =>
      have hp : ∀ n ∈ stepPending machine cfg (toChar (getchar []).1), n ≤ 63 := hs
      cases hst : step machine start accept cfg (toChar (getchar []).1) with
      | none => rw [stepChecked_none machine start accept cfg _ hst]
      | some out =>
        rw [stepChecked_ok machine start accept cfg _ out hst
          (stepWrites_bound machine accept cfg _ h0 hp)]
        have hstop := step_eof_stop machine start accept cfg _ out hst (by decide)
        simp only [hstop, if_true]
    | cons x rest =>
      have hp : ∀ n ∈ stepPending machine cfg (toChar (getchar (x :: rest)).1), n ≤ 63 := by
        intro n hn
        refine hs n ?_
        simp only [shiftCounts]
        exact List.mem_append_left _ hn
      cases hst : step machine start accept cfg (toChar (getchar (x :: rest)).1) with
      | none => rw [stepChecked_none machine start accept cfg _ hst]
      | some out =>
        rw [stepChecked_ok machine start accept cfg _ out hst
          (stepWrites_bound machine accept cfg _ h0 hp)]
        by_cases hstop : out.stop = true
        · simp only [hstop, if_true]
        · simp only [hstop, if_false]
          have hb := step_buf_bound machine start accept cfg _ out hst h0 hp
          have hst2 : step machine start accept cfg (toChar (x : Int)) = some out := hst
          rw [ih out.cfg (getchar (x :: rest)).2 hb ?_]
          intro n hn
          refine hs n ?_
          simp only [shiftCounts, hst2]
          rw [if_neg hstop]
          exact List.mem_append_right _ hn

theorem runLoopChecked_mono (machine : List state) (start accept : Int) :
    ∀ (fuel : Nat) (cfg : Cfg) (input : List Nat),
      runLoopChecked machine start accept fuel cfg input ≠ .error .outOfFuel →
      runLoopChecked machine start accept (fuel + 1) cfg input
        = runLoopChecked machine start accept fuel cfg input := by
  intro fuel
  induction fuel with
  | zero => intro cfg input h; exact absurd rfl h
  | succ f ih =>
    intro cfg input h
    rw [runLoopChecked_succ machine start accept (f + 1)]
    rw [runLoopChecked_succ] at h ⊢
    cases hst : stepChecked machine start accept cfg (toChar (getchar input).1) with
    | error e => rfl
    | ok out =>
      rw [hst] at h
      by_cases hstop : out.stop = true
      · simp only [hstop, if_true]
      · simp only [hstop, if_false] at h ⊢
        rw [ih out.cfg (getchar input).2 ?_]
        intro he
        rw [he] at h
        exact h rfl

theorem runLoopChecked_fault (machine : List state) (start accept : Int) (cfg : Cfg)
    (input : List Nat) (f : Nat) (e : Fault) (he : e ≠ .outOfFuel)
    (h : runLoopChecked machine start accept f cfg input = .error e) :
    ∀ fuel, f ≤ fuel → runLoopChecked machine start accept fuel cfg input = .error e := by
  intro fuel hf
  induction fuel, hf using Nat.le_induction with
  | base => exact h
  | succ k _ ih =>
    rw [runLoopChecked_mono machine start accept k cfg input (by rw [ih]; simpa using he), ih]

theorem runLoopChecked_starved (machine : List state) (start accept : Int) :
    ∀ (fuel : Nat) (cfg : Cfg) (input : List Nat),
      runLoopChecked machine start accept (fuel + 1) cfg input = .error .outOfFuel →
      runLoopChecked machine start accept fuel cfg input = .error .outOfFuel := by
  intro fuel cfg input h
  by_contra hne
  rw [runLoopChecked_mono machine start accept fuel cfg input hne] at h
  exact hne h

theorem follow_length (machine : List state) (accept : Int) (cs : List Int) :
    ∀ (q : Int) (pending : List Int) (ev : List ScanEvent) (p : List Int) (q1 : Int),
      follow machine accept q pending cs = some (ev, p, q1) → pending.length ≤ p.length := by
  induction cs with
  | nil =>
    intro q pending ev p q1 h
    simp only [follow, Option.some.injEq, Prod.mk.injEq] at h
    rw [h.2.1]
  | cons c cs ih =>
    intro q pending ev p q1 h
    simp only [follow] at h
    by_cases hc : charClass c = CC_EOF
    · simp [hc] at h
    rw [if_neg hc] at h
    cases hl : lookup machine q (charClass c) with
    | none => simp [hl] at h
    | some tr =>
      simp only [hl] at h
      by_cases hd : tr.dest = accept ∨ tr.dest = 99
      · simp [hd] at h
      rw [if_neg hd] at h
      cases hf : follow machine accept tr.dest
          (if tr.action = 115 then pending ++ [c] else pending) cs with
      | none => simp [hf] at h
      | some res =>
        obtain ⟨ev2, p2, q2⟩ := res
        simp only [hf, Option.some.injEq, Prod.mk.injEq] at h
        obtain ⟨_, rfl, _⟩ := h
        have := ih tr.dest _ ev2 p2 q2 hf
        by_cases ha : tr.action = 115
        · rw [if_pos ha, List.length_append, List.length_singleton] at this
          omega
        · rw [if_neg ha] at this
          exact this

theorem follow_runChecked (machine : List state) (start accept : Int) (syms : List Nat) :
    ∀ (q : Int) (pending : List Int) (ev : List ScanEvent) (p : List Int) (q1 : Int),
      follow machine accept q pending (syms.map (fun (x : Nat) => toChar (x : Int)))
        = some (ev, p, q1) → p.length ≤ 64 →
      ∀ (fuel : Nat) (rest : List Nat),
        runLoopChecked machine start accept (fuel + syms.length) ⟨pending, false, q⟩
            (syms ++ rest)
          = emit ev (runLoopChecked machine start accept fuel ⟨p, false, q1⟩ rest) := by
  induction syms with
  | nil =>
    intro q pending ev p q1 h _ fuel rest
    simp only [List.map_nil, follow, Option.some.injEq, Prod.mk.injEq] at h
    obtain ⟨rfl, rfl, rfl⟩ := h
    simp [emit_nil]
  | cons x syms ih =>
    intro q pending ev p q1 h hp fuel rest
    simp only [List.map_cons, follow] at h
    by_cases hc : charClass (toChar (x : Int)) = CC_EOF
    · simp [hc] at h
    rw [if_neg hc] at h
    cases hl : lookup machine q (charClass (toChar (x : Int))) with
    | none => simp [hl] at h
    | some tr =>
      simp only [hl] at h
      by_cases hd : tr.dest = accept ∨ tr.dest = 99
      · simp [hd] at h
      rw [if_neg hd] at h
      cases hf : follow machine accept tr.dest
          (if tr.action = 115 then pending ++ [toChar (x : Int)] else pending)
          (syms.map (fun (x : Nat) => toChar (x : Int))) with
      | none => simp [hf] at h
      | some res =>
        obtain ⟨ev2, p2, q2⟩ := res
        simp only [hf, Option.some.injEq, Prod.mk.injEq] at h
        obtain ⟨rfl, rfl, rfl⟩ := h
        have hlen := follow_length machine accept _ tr.dest _ ev2 p2 q2 hf
        have e : fuel + (x :: syms).length = (fuel + syms.length) + 1 := by simp; omega
        rw [e, List.cons_append, runLoopChecked_succ]
        have hst := step_scanning machine start accept ⟨pending, false, q⟩ (toChar (x : Int)) tr
          rfl hc hl
        rw [if_neg (fun h => hd (Or.inl h)), if_neg (fun h => hd (Or.inr h))] at hst
        have hw : ∀ w ∈ stepWrites machine accept ⟨pending, false, q⟩ (toChar (x : Int)),
            w < 64 := by
          refine stepWrites_inside machine accept ⟨pending, false, q⟩ (toChar (x : Int)) tr
            rfl hl (fun ha => ?_) (fun _ hacc => absurd (Or.inl hacc) hd)
          rw [if_pos ha, List.length_append, List.length_singleton] at hlen
          show pending.length ≤ 63
          omega
        have hst2 : step machine start accept ⟨pending, false, q⟩
            (toChar (getchar (x :: (syms ++ rest))).1) = _ := hst
        rw [stepChecked_ok machine start accept _ _ _ hst2 hw]
        simp only [getchar, Bool.false_eq_true, if_false]
        rw [ih tr.dest _ ev2 p2 q2 hf hp fuel rest, ← emit_append]
        simp

theorem runLoopChecked_starved_le (machine : List state) (start accept : Int) (cfg : Cfg)
    (input : List Nat) (f : Nat)
    (h : runLoopChecked machine start accept f cfg input = .error .outOfFuel) :
    ∀ fuel, fuel ≤ f → runLoopChecked machine start accept fuel cfg input = .error .outOfFuel := by
  induction f with
  | zero =>
    intro fuel hf
    obtain rfl : fuel = 0 := by omega
    rfl
  | succ k ih =>
    intro fuel hf
    by_cases hk : fuel = k + 1
    · rw [hk]
      exact h
    · exact ih (runLoopChecked_starved machine start accept k cfg input h) fuel (by omega)

theorem runLoopChecked_no_result (machine : List state) (start accept : Int) (cfg : Cfg)
    (input : List Nat) (f : Nat) (e : Fault) (he : e ≠ .outOfFuel)
    (h1 : runLoopChecked machine start accept f cfg input = .error .outOfFuel)
    (h2 : runLoopChecked machine start accept (f + 1) cfg input = .error e) :
    ∀ (fuel : Nat) (evs : List ScanEvent),
      runLoopChecked machine start accept fuel cfg input ≠ .ok evs := by
  intro fuel evs hev
  by_cases hf : fuel ≤ f
  · rw [runLoopChecked_starved_le machine start accept cfg input f h1 fuel hf] at hev
    exact absurd hev (by simp)
  · rw [runLoopChecked_fault machine start accept cfg input (f + 1) e he h2 fuel (by omega)] at hev
    exact absurd hev (by simp)

set_option maxRecDepth 100000 in
theorem aPlus_hundred :
    runLoopChecked aPlus 0 1 64 (resetCfg 0) hundredLetters = .error .outOfFuel
      ∧ runLoopChecked aPlus 0 1 65 (resetCfg 0) hundredLetters = .error .bufferOverflow
      ∧ runMachineChecked aPlus 0 1 hundredLetters = .error .bufferOverflow := by
  decide

set_option maxRecDepth 100000 in
theorem aPlus_chain_hundred :
    follow aPlus 1 0 [] ((List.replicate 100 97).map (fun (x : Nat) => toChar (x : Int)))
      = some (List.replicate 101 (ScanEvent.StateVisited 0), List.replicate 100 97, 0) := by
  decide

set_option maxRecDepth 100000 in
theorem identTable_hundred :
    runLoopChecked identTable 0 2 64 (resetCfg 0) hundredLetters = .error .outOfFuel
      ∧ runLoopChecked identTable 0 2 65 (resetCfg 0) hundredLetters = .error .bufferOverflow
      ∧ runMachineChecked identTable 0 2 hundredLetters = .error .bufferOverflow := by
  decide

set_option maxRecDepth 100000 in
theorem aPlus_full_buffer :
    runLoopChecked aPlus 0 1 64 (resetCfg 0) (List.replicate 64 97) = .error .outOfFuel
      ∧ (runTrace aPlus 0 1 64 (resetCfg 0) (List.replicate 64 97)).2
          = ⟨List.replicate 64 97, false, 0⟩ := by
  decide

/-! ## Recognition, within the size of buf -/

/-- C2 (counterexample). In the `a+` table the chain of 100 letters `a` from the
start state shifts alphabetic symbols only and the space after it reaches the
accept state, yet the run with the size of `buf` taken into account reports no
lexeme: the 65th letter is written at `buf[64]`, outside the array, and for no
number of iterations does the run return an event list. -/
theorem recognized_overflow :
    follow aPlus 1 0 [] ((List.replicate 100 97).map (fun (x : Nat) => toChar (x : Int)))
        = some (List.replicate 101 (ScanEvent.StateVisited 0), List.replicate 100 97, 0)
    ∧ charClass (toChar 32) ≠ CC_EOF
    ∧ lookup aPlus 0 (charClass (toChar 32)) = some ⟨0, 1, 100⟩
    ∧ (∀ y ∈ List.replicate 100 (97 : Int), charClass y = CC_ALPHA)
    ∧ runMachineChecked aPlus 0 1 (List.replicate 100 97 ++ [32]) = .error .bufferOverflow
    ∧ ∀ (fuel : Nat) (evs : List ScanEvent),
        runLoopChecked aPlus 0 1 fuel (resetCfg 0) (List.replicate 100 97 ++ [32]) ≠ .ok evs :=
  ⟨aPlus_chain_hundred, by decide, by decide, by decide, aPlus_hundred.2.2,
    runLoopChecked_no_result aPlus 0 1 (resetCfg 0) hundredLetters 64 .bufferOverflow
      (by decide) aPlus_hundred.1 aPlus_hundred.2.1⟩

/-- C2 (amended). With the size of `buf` taken into account: (1) while scanning,
an iteration on a symbol that is not in the end-of-input class and after which
at most 63 symbols are pending reports `Recognized` exactly when the
destination of its transition is the accept state; it then reports the pending
buffer as printed, sets the state to start and empties the buffer. (2) For every
table and every transition chain `syms` followed by a boundary symbol `b` whose
transition reaches the accept state, where the shifted symbols are alphabetic
and at most 63, the run reports `Recognized lexeme` after the boundary symbol,
`lexeme` being exactly the symbols of the chain, in input order, whose action
was `s`, and goes on from the start state with an empty buffer. (3) The `a+`
table on `"abc "` reports exactly one `Recognized "abc"` and no `Rejected`. -/
theorem recognized_within_capacity :
    (∀ (machine : List state) (start accept : Int) (cfg : Cfg) (c : Int) (tr : transition),
      cfg.errorState = false → charClass c ≠ CC_EOF →
      lookup machine cfg.state (charClass c) = some tr →
      (if tr.action = 115 then cfg.buf ++ [c] else cfg.buf).length ≤ 63 →
      ∃ out, stepChecked machine start accept cfg c = .ok out
        ∧ ((∃ l, ScanEvent.Recognized l ∈ out.events) ↔ tr.dest = accept)
        ∧ (tr.dest = accept →
            out.events.getLast? = some (ScanEvent.Recognized
              (printed (if tr.action = 115 then cfg.buf ++ [c] else cfg.buf)))
            ∧ out.cfg = resetCfg start ∧ out.stop = false))
    ∧ (∀ (machine : List state) (start accept : Int) (q : Int) (syms : List Nat) (b : Nat)
        (rest : List Nat) (fuel : Nat) (ev : List ScanEvent) (p : List Int) (q1 : Int)
        (tr : transition),
      follow machine accept q [] (syms.map (fun (x : Nat) => toChar (x : Int)))
        = some (ev, p, q1) →
      charClass (toChar (b : Int)) ≠ CC_EOF →
      lookup machine q1 (charClass (toChar (b : Int))) = some tr → tr.dest = accept →
      (∀ y ∈ (if tr.action = 115 then p ++ [toChar (b : Int)] else p), charClass y = CC_ALPHA) →
      (if tr.action = 115 then p ++ [toChar (b : Int)] else p).length ≤ 63 →
      runLoopChecked machine start accept (fuel + syms.length + 1) ⟨[], false, q⟩
          (syms ++ b :: rest)
        = emit (ev ++ (if p.length = 0 then [ScanEvent.StateVisited q1] else [])
                  ++ [.StateVisited accept,
                      .Recognized (if tr.action = 115 then p ++ [toChar (b : Int)] else p)])
            (runLoopChecked machine start accept fuel (resetCfg start) rest))
    ∧ runMachineChecked aPlus 0 1 (bytes "abc ")
        = .ok [.StateVisited 0, .StateVisited 0, .StateVisited 0, .StateVisited 0,
               .StateVisited 1, .Recognized (cstr "abc"),
               .StateVisited 0, .StateVisited 99, .EndOfInput] := by
  refine ⟨?_, ?_, by decide⟩
  · intro machine start accept cfg c tr herr hc hl hb
    have hw := stepWrites_inside machine accept cfg c tr herr hl
      (fun ha => by
        rw [if_pos ha, List.length_append, List.length_singleton] at hb
        omega)
      (fun _ _ => hb)
    have hst := step_scanning machine start accept cfg c tr herr hc hl
    by_cases ha : tr.dest = accept
    · rw [if_pos ha] at hst
      refine ⟨_, stepChecked_ok machine start accept cfg c _ hst hw, ?_, ?_⟩
      · simp [ha]
      · intro _
        simp
    · rw [if_neg ha] at hst
      by_cases h99 : tr.dest = 99
      · rw [if_pos h99] at hst
        refine ⟨_, stepChecked_ok machine start accept cfg c _ hst hw, ?_,
          fun h => absurd h ha⟩
        by_cases hb : cfg.buf.length = 0 <;> simp [ha, hb]
      · rw [if_neg h99] at hst
        refine ⟨_, stepChecked_ok machine start accept cfg c _ hst hw, ?_,
          fun h => absurd h ha⟩
        by_cases hb : cfg.buf.length = 0 <;> simp [ha, hb]
  · intro machine start accept q syms b rest fuel ev p q1 tr hf hc hl hd halpha hb
    have hp : p.length ≤ 63 := by
      by_cases ha : tr.action = 115
      · rw [if_pos ha, List.length_append, List.length_singleton] at hb
        omega
      · rw [if_neg ha] at hb
        exact hb
    have e : fuel + syms.length + 1 = (fuel + 1) + syms.length := by omega
    rw [e, follow_runChecked machine start accept syms q [] ev p q1 hf (by omega) (fuel + 1)
      (b :: rest), runLoopChecked_succ]
    have hst := step_scanning machine start accept ⟨p, false, q1⟩ (toChar (b : Int)) tr
      rfl hc hl
    rw [if_pos hd] at hst
    have hst2 : step machine start accept ⟨p, false, q1⟩ (toChar (getchar (b :: rest)).1) = _ :=
      hst
    have hw := stepWrites_inside machine accept ⟨p, false, q1⟩ (toChar (b : Int)) tr rfl hl
      (fun _ => hp) (fun _ _ => hb)
    rw [stepChecked_ok machine start accept _ _ _ hst2 hw]
    simp only [getchar, Bool.false_eq_true, if_false]
    rw [printed_of_alpha _ halpha, ← emit_append, hd]
    simp

/-- Witness of C2: the chain `"abc"` and the boundary symbol space in the `a+`
table. -/
theorem recognized_within_capacity_witness :
    runLoopChecked aPlus 0 1 (1 + (bytes "abc").length + 1) ⟨[], false, 0⟩
        (bytes "abc" ++ 32 :: [])
      = emit ([.StateVisited 0, .StateVisited 0, .StateVisited 0, .StateVisited 0]
                ++ (if (cstr "abc").length = 0 then [ScanEvent.StateVisited 0] else [])
                ++ [.StateVisited 1,
                    .Recognized (if (100 : Int) = 115 then cstr "abc" ++ [toChar 32] else cstr "abc")])
          (runLoopChecked aPlus 0 1 1 (resetCfg 0) []) :=
  recognized_within_capacity.2.1 aPlus 0 1 0 (bytes "abc") 32 [] 1
    [.StateVisited 0, .StateVisited 0, .StateVisited 0, .StateVisited 0] (cstr "abc") 0
    ⟨0, 1, 100⟩ (by decide) (by decide) (by decide) rfl (by decide) (by decide)

/-! ## Termination, within the size of buf -/

/-- C8 (counterexample). The reads of the `a+` table are all defined, and on the
input of 100 letters `a` and a space the run with the size of `buf` taken into
account produces no event sequence: the 65th iteration writes `buf[64]`, outside
the array, and for no number of iterations does the run return. -/
theorem terminates_overflow :
    TableOK aPlus 0 1
    ∧ runMachineChecked aPlus 0 1 hundredLetters = .error .bufferOverflow
    ∧ runLoopChecked aPlus 0 1 64 (resetCfg 0) hundredLetters = .error .outOfFuel
    ∧ runLoopChecked aPlus 0 1 65 (resetCfg 0) hundredLetters = .error .bufferOverflow
    ∧ ∀ (fuel : Nat) (evs : List ScanEvent),
        runLoopChecked aPlus 0 1 fuel (resetCfg 0) hundredLetters ≠ .ok evs :=
  ⟨by decide, aPlus_hundred.2.2, aPlus_hundred.1, aPlus_hundred.2.1,
    runLoopChecked_no_result aPlus 0 1 (resetCfg 0) hundredLetters 64 .bufferOverflow
      (by decide) aPlus_hundred.1 aPlus_hundred.2.1⟩

/-- C8 (amended). For every table whose reads are defined (the start state is a
row, every row has its 12 entries, every destination is a row, the accept state
or 99) and every finite input on which no token attempt shifts more than 63
symbols, `runMachine`, with the size of `buf` taken into account, returns an
event list. From the initial locals and from any locals the loop can hold,
scanning or in error recovery, with at most 63 symbols pending, the loop stops
at the first symbol of the end-of-input class: it returns after exactly
`eofPos input + 1` iterations, each of which reads one symbol, and not before. -/
theorem terminates_within_capacity (machine : List state) (start accept : Int)
    (input : List Nat) (hok : TableOK machine start accept)
    (h63 : ∀ n ∈ shiftCounts machine start accept (resetCfg start) input, n ≤ 63) :
    (∃ evs, runMachineChecked machine start accept input = .ok evs
      ∧ ∀ fuel, eofPos input < fuel →
          runLoopChecked machine start accept fuel (resetCfg start) input = .ok evs)
    ∧ ∀ cfg : Cfg, CfgOK machine cfg → cfg.buf.length ≤ 63 →
        (∀ n ∈ shiftCounts machine start accept cfg input, n ≤ 63) →
        (∃ evs, ∀ fuel, eofPos input < fuel →
          runLoopChecked machine start accept fuel cfg input = .ok evs)
        ∧ ∀ fuel, fuel ≤ eofPos input →
          runLoopChecked machine start accept fuel cfg input = .error .outOfFuel := by
  have key : ∀ cfg : Cfg, CfgOK machine cfg → cfg.buf.length ≤ 63 →
      (∀ n ∈ shiftCounts machine start accept cfg input, n ≤ 63) →
      (∃ evs, ∀ fuel, eofPos input < fuel →
        runLoopChecked machine start accept fuel cfg input = .ok evs)
      ∧ ∀ fuel, fuel ≤ eofPos input →
        runLoopChecked machine start accept fuel cfg input = .error .outOfFuel := by
    intro cfg hcfg h0 hs
    obtain ⟨evs, hevs⟩ := runLoop_total machine start accept hok input cfg hcfg
    refine ⟨⟨evs, fun fuel hf => ?_⟩, fun fuel hf => ?_⟩
    · rw [runLoopChecked_eq machine start accept fuel cfg input h0 hs]
      exact hevs fuel hf
    · rw [runLoopChecked_eq machine start accept fuel cfg input h0 hs]
      exact runLoop_short machine start accept hok input cfg fuel hcfg hf
  refine ⟨?_, key⟩
  obtain ⟨⟨evs, h⟩, _⟩ := key (resetCfg start) (resetCfg_ok machine start accept hok)
    (Nat.zero_le _) h63
  exact ⟨evs, h _ (Nat.lt_succ_of_le (eofPos_le input)), h⟩

/-- Witness of C8: the `a+` table on the input `"ab #"`. -/
theorem terminates_within_capacity_witness :
    (∃ evs, runMachineChecked aPlus 0 1 (bytes "ab #") = .ok evs
      ∧ ∀ fuel, eofPos (bytes "ab #") < fuel →
          runLoopChecked aPlus 0 1 fuel (resetCfg 0) (bytes "ab #") = .ok evs)
    ∧ ∀ cfg : Cfg, CfgOK aPlus cfg → cfg.buf.length ≤ 63 →
        (∀ n ∈ shiftCounts aPlus 0 1 cfg (bytes "ab #"), n ≤ 63) →
        (∃ evs, ∀ fuel, eofPos (bytes "ab #") < fuel →
          runLoopChecked aPlus 0 1 fuel cfg (bytes "ab #") = .ok evs)
        ∧ ∀ fuel, fuel ≤ eofPos (bytes "ab #") →
          runLoopChecked aPlus 0 1 fuel cfg (bytes "ab #") = .error .outOfFuel :=
  terminates_within_capacity aPlus 0 1 (bytes "ab #") (by decide) (by decide)

/-! ## The scanning step, within the size of buf -/

/-- C15 (counterexample). The `a+` table fed 64 letters `a` is in state 0 with
64 symbols pending and has written inside `buf` only; on one more `a`, whose
action is `s`, the iteration does not append the symbol to the pending buffer:
it writes `buf[64]`, outside the array. -/
theorem scanning_step_overflow :
    runLoopChecked aPlus 0 1 64 (resetCfg 0) (List.replicate 64 97) = .error .outOfFuel
    ∧ (runTrace aPlus 0 1 64 (resetCfg 0) (List.replicate 64 97)).2
        = ⟨List.replicate 64 97, false, 0⟩
    ∧ lookup aPlus 0 (charClass 97) = some ⟨2, 0, 115⟩
    ∧ stepWrites aPlus 1 ⟨List.replicate 64 97, false, 0⟩ 97 = [64]
    ∧ stepChecked aPlus 0 1 ⟨List.replicate 64 97, false, 0⟩ 97 = .error .bufferOverflow :=
  ⟨aPlus_full_buffer.1, aPlus_full_buffer.2, by decide, by decide, by decide⟩

/-- C15 (amended). For every symbol consumed while not in error recovery (the
read of the table being defined) and such that the writes of the iteration fall
inside `buf`, that is, at most 63 symbols are pending when the symbol is shifted
and at most 63 are in the buffer when a lexeme is reported: the events of the
iteration are `StateVisited state` exactly when the pending buffer is empty,
then `StateVisited destination`, then no further `StateVisited`; the buffer
after the transition is the buffer with the symbol appended when the action is
`s` and the buffer unchanged otherwise, and the state is the destination, unless
the destination is the accept state and the symbol is not the end of input, in
which case that buffer is reported and the locals are reset. -/
theorem scanning_step_within_capacity (machine : List state) (start accept : Int) (cfg : Cfg)
    (c : Int) (tr : transition) (herr : cfg.errorState = false)
    (hl : lookup machine cfg.state (charClass c) = some tr)
    (hs : tr.action = 115 → cfg.buf.length ≤ 63)
    (hz : charClass c ≠ CC_EOF → tr.dest = accept →
      (if tr.action = 115 then cfg.buf ++ [c] else cfg.buf).length ≤ 63) :
    ∃ out rest, stepChecked machine start accept cfg c = .ok out
      ∧ out.events = (if cfg.buf.length = 0 then [ScanEvent.StateVisited cfg.state] else [])
          ++ [ScanEvent.StateVisited tr.dest] ++ rest
      ∧ (∀ q, ScanEvent.StateVisited q ∉ rest)
      ∧ ((out.cfg.buf = (if tr.action = 115 then cfg.buf ++ [c] else cfg.buf)
            ∧ out.cfg.state = tr.dest)
          ∨ (tr.dest = accept ∧ charClass c ≠ CC_EOF
            ∧ rest = [ScanEvent.Recognized
                (printed (if tr.action = 115 then cfg.buf ++ [c] else cfg.buf))]
            ∧ out.cfg = resetCfg start)) := by
  obtain ⟨out, rest, hst, h1, h2, h3⟩ := step_shape machine start accept cfg c tr herr hl
  exact ⟨out, rest, stepChecked_ok machine start accept cfg c out hst
    (stepWrites_inside machine accept cfg c tr herr hl hs hz), h1, h2, h3⟩

/-- Witness of C15: the `a+` table in state 0 with `"a"` pending reads `b`: only
the destination is printed and `b` is appended. -/
theorem scanning_step_within_capacity_witness :
    ∃ out rest, stepChecked aPlus 0 1 ⟨cstr "a", false, 0⟩ 98 = .ok out
      ∧ out.events = (if (cstr "a").length = 0 then [ScanEvent.StateVisited 0] else [])
          ++ [ScanEvent.StateVisited 0] ++ rest
      ∧ (∀ q, ScanEvent.StateVisited q ∉ rest)
      ∧ ((out.cfg.buf = (if (115 : Int) = 115 then cstr "a" ++ [98] else cstr "a")
            ∧ out.cfg.state = 0)
          ∨ ((0 : Int) = 1 ∧ charClass 98 ≠ CC_EOF
            ∧ rest = [ScanEvent.Recognized
                (printed (if (115 : Int) = 115 then cstr "a" ++ [98] else cstr "a"))]
            ∧ out.cfg = resetCfg 0)) :=
  scanning_step_within_capacity aPlus 0 1 ⟨cstr "a", false, 0⟩ 98 ⟨2, 0, 115⟩ rfl (by decide)
    (by decide) (by decide)

/-! ## Lookup safety, within the size of buf -/

/-- C17 (counterexample). The table of identifiers has 3 rows of 12 entries, its
start state is a row and its destinations are 99 or rows; on the input of 100
letters `a` and a space its run, with the size of `buf` taken into account,
does not go through: the 65th iteration writes `buf[64]`, outside the array,
after which the contents of the other locals, `state` among them, are not
determined by the program, and for no number of iterations does the run
return. -/
theorem lookup_safety_overflow :
    SafeTable identTable 0
    ∧ runMachineChecked identTable 0 2 hundredLetters = .error .bufferOverflow
    ∧ runLoopChecked identTable 0 2 65 (resetCfg 0) hundredLetters = .error .bufferOverflow
    ∧ ∀ (fuel : Nat) (evs : List ScanEvent),
        runLoopChecked identTable 0 2 fuel (resetCfg 0) hundredLetters ≠ .ok evs :=
  ⟨by decide, identTable_hundred.2.2, identTable_hundred.2.1,
    runLoopChecked_no_result identTable 0 2 (resetCfg 0) hundredLetters 64 .bufferOverflow
      (by decide) identTable_hundred.1 identTable_hundred.2.1⟩

/-- C17 (amended). For every table of `N <= 99` rows of 12 entries in which the
start state is a row and every destination is 99 or a row, for every accept
state and every input on which no token attempt shifts more than 63 symbols:
`runMachine`, with the size of `buf` taken into account, returns (no read of the
table is out of bounds and no write is outside `buf`), its iterations are those
of the loop without the check, and each read `machine[state].t[class]` it makes
has `0 <= state < N`, `0 <= class <= 10` and `state` different from 99. After a
transition to 99 whose writes fall inside `buf` the iteration stops the loop,
resets the locals or enters error recovery, and an iteration in error recovery
leaves the locals as they are or resets them. -/
theorem lookup_safety_within_capacity (machine : List state) (start accept : Int)
    (input : List Nat) (hsafe : SafeTable machine start)
    (h63 : ∀ n ∈ shiftCounts machine start accept (resetCfg start) input, n ≤ 63) :
    (∃ evs, runMachineChecked machine start accept input = .ok evs)
    ∧ (∀ fuel, runLoopChecked machine start accept fuel (resetCfg start) input
        = runLoop machine start accept fuel (resetCfg start) input)
    ∧ (∀ fuel, ∀ p ∈ runLookups machine start accept fuel (resetCfg start) input,
        (0 ≤ p.1 ∧ p.1 < machine.length) ∧ (0 ≤ p.2 ∧ p.2 ≤ 10) ∧ p.1 ≠ 99)
    ∧ (∀ (cfg : Cfg) (c : Int) (tr : transition), cfg.errorState = false →
        lookup machine cfg.state (charClass c) = some tr → tr.dest = 99 →
        (tr.action = 115 → cfg.buf.length ≤ 63) →
        (charClass c ≠ CC_EOF → tr.dest = accept →
          (if tr.action = 115 then cfg.buf ++ [c] else cfg.buf).length ≤ 63) →
        ∃ out, stepChecked machine start accept cfg c = .ok out
          ∧ (out.stop = true ∨ out.cfg = resetCfg start ∨ out.cfg.errorState = true))
    ∧ (∀ (cfg : Cfg) (c : Int), cfg.errorState = true →
        ∃ out, stepChecked machine start accept cfg c = .ok out
          ∧ (out.cfg = cfg ∨ out.cfg = resetCfg start)) := by
  have hok := safeTable_ok machine start accept hsafe
  have heq : ∀ fuel, runLoopChecked machine start accept fuel (resetCfg start) input
      = runLoop machine start accept fuel (resetCfg start) input :=
    fun fuel => runLoopChecked_eq machine start accept fuel (resetCfg start) input
      (Nat.zero_le _) h63
  refine ⟨?_, heq, ?_, ?_, ?_⟩
  · obtain ⟨evs, h⟩ := runLoop_total machine start accept hok input (resetCfg start)
      (resetCfg_ok machine start accept hok)
    refine ⟨evs, ?_⟩
    unfold runMachineChecked
    rw [heq]
    exact h _ (Nat.lt_succ_of_le (eofPos_le input))
  · intro fuel
    exact runLookups_safe machine start accept hsafe fuel (resetCfg start) input
      (resetCfg_ok machine start accept hok)
  · intro cfg c tr herr hl hd hs hz
    obtain ⟨out, hst, h⟩ := step_after_99 machine start accept cfg c tr herr hl hd
    exact ⟨out, stepChecked_ok machine start accept cfg c out hst
      (stepWrites_inside machine accept cfg c tr herr hl hs hz), h⟩
  · intro cfg c herr
    obtain ⟨out, hst, h⟩ := step_leaving_recovery machine start accept cfg c herr
    refine ⟨out, stepChecked_ok machine start accept cfg c out hst ?_, h⟩
    rw [stepWrites_recovering machine accept cfg c herr]
    intro w hw
    exact absurd hw (List.not_mem_nil _)

/-- Witness of C17: the table of identifiers on `"ab #x y\n"`, with the reads it
makes and the numbers of symbols pending after its shifts. -/
theorem lookup_safety_within_capacity_witness :
    runLookups identTable 0 2 9 (resetCfg 0) (bytes "ab #x y\n")
        = [(0, 2), (1, 2), (1, 0), (0, 10), (0, 2), (1, 1), (0, 9)]
    ∧ shiftCounts identTable 0 2 (resetCfg 0) (bytes "ab #x y\n") = [1, 2, 1]
    ∧ ((∃ evs, runMachineChecked identTable 0 2 (bytes "ab #x y\n") = .ok evs)
      ∧ (∀ fuel, runLoopChecked identTable 0 2 fuel (resetCfg 0) (bytes "ab #x y\n")
          = runLoop identTable 0 2 fuel (resetCfg 0) (bytes "ab #x y\n"))
      ∧ (∀ fuel, ∀ p ∈ runLookups identTable 0 2 fuel (resetCfg 0) (bytes "ab #x y\n"),
          (0 ≤ p.1 ∧ p.1 < identTable.length) ∧ (0 ≤ p.2 ∧ p.2 ≤ 10) ∧ p.1 ≠ 99)
      ∧ (∀ (cfg : Cfg) (c : Int) (tr : transition), cfg.errorState = false →
          lookup identTable cfg.state (charClass c) = some tr → tr.dest = 99 →
          (tr.action = 115 → cfg.buf.length ≤ 63) →
          (charClass c ≠ CC_EOF → tr.dest = 2 →
            (if tr.action = 115 then cfg.buf ++ [c] else cfg.buf).length ≤ 63) →
          ∃ out, stepChecked identTable 0 2 cfg c = .ok out
            ∧ (out.stop = true ∨ out.cfg = resetCfg 0 ∨ out.cfg.errorState = true))
      ∧ (∀ (cfg : Cfg) (c : Int), cfg.errorState = true →
          ∃ out, stepChecked identTable 0 2 cfg c = .ok out
            ∧ (out.cfg = cfg ∨ out.cfg = resetCfg 0))) :=
  ⟨by decide, by decide,
    lookup_safety_within_capacity identTable 0 2 (bytes "ab #x y\n") (by decide) (by decide)⟩

end Tokenizer
